import Mathlib

/-!
# Validation ceremony core of idena-go

A shallow embedding of parts of `core/ceremony/ceremony.go` (identity
transition, birthday rule, author analysis, successful invites, not approved
flips, flips to solve, lottery seed height and `ApplyNewEpoch`) together with
the properties the specification states about them.

Conventions of the embedding:

* Go `uint8`, `uint16`, `uint32` and `int` values are natural numbers; the
  embedded functions only compare them or count list elements, so no
  wrap-around can occur.
* Go `float32` values are modelled by the type `float32` below: a finite
  rational, one of the two infinities, or NaN.  The embedded code only
  compares scores against the constants `0.5` and `0.75`, both of which are
  exactly representable, so the comparison of a finite value is the
  comparison of rationals.
* A Go map is an association list (`GoMap`); iteration follows list order,
  which is one of the orders the Go runtime may choose.
* A function that can panic at run time (index out of range, division by
  zero) returns an `Option`; `none` stands for the panic.
* Components that are not part of the sources (qualifier, evidence map,
  validators cache, `rlp.Hash`, `float32` arithmetic) are parameters.
-/

namespace Idena

/-! ## Data model -/

/-- Addresses (`common.Address`, a 20 byte array); only equality and the
zero value are used.  The zero address is `0`. -/
abbrev Address := Nat

/-- Hashes (`common.Hash`, a 32 byte array); only equality is used. -/
abbrev Hash := Nat

/-- Byte strings (`[]byte`): every element is a byte value. -/
abbrev Bytes := List Nat

/-- Modelled from the spec: the declaration of `state.IdentityState` is not
part of the sources; the spec lists the states as
`Undefined, Invite, Candidate, Newbie, Verified, Suspended, Zombie, Killed`. -/
inductive IdentityState where
  | Undefined
  | Invite
  | Candidate
  | Newbie
  | Verified
  | Suspended
  | Zombie
  | Killed
  deriving DecidableEq, Repr

/-- Modelled from the spec: `state.TxAddr`, the `{address, txHash}` pair that
records an inviter. -/
structure TxAddr where
  TxHash : Hash := 0
  Address : Address := 0
  deriving DecidableEq, Repr

/-- Modelled from the spec: `state.IdentityFlip`, a flip `{cid, pair}` of an
identity. -/
structure IdentityFlip where
  Cid : Bytes := []
  Pair : Nat := 0
  deriving DecidableEq, Repr

/-- Model of Go `float32` values: a finite value (given by the rational it
denotes), positive or negative infinity, or NaN. -/
inductive float32 where
  | finite (q : ℚ)
  | posInf
  | negInf
  | nan
  deriving DecidableEq

/-- The Go comparison `a >= b` on `float32` (false whenever a NaN is involved). -/
def float32.ge : float32 → float32 → Bool
  | .nan, _ => false
  | _, .nan => false
  | .finite x, .finite y => decide (y ≤ x)
  | .posInf, _ => true
  | _, .negInf => true
  | _, _ => false

/-- The Go comparison `a < b` on `float32` (false whenever a NaN is involved). -/
def float32.lt : float32 → float32 → Bool
  | .nan, _ => false
  | _, .nan => false
  | .finite x, .finite y => decide (x < y)
  | .negInf, .negInf => false
  | .negInf, _ => true
  | .posInf, _ => false
  | .finite _, .posInf => true
  | .finite _, .negInf => false

/-- Modelled from the spec: the declaration of `state.Identity` is not part of
the sources; these are the fields the spec lists as read or written by the
ceremony core. -/
structure Identity where
  State : IdentityState := .Undefined
  Birthday : Nat := 0
  RequiredFlips : Nat := 0
  Flips : List IdentityFlip := []
  Generation : Nat := 0
  Code : Bytes := []
  ShortFlipPoints : float32 := .finite 0
  QualifiedFlips : Nat := 0
  Inviter : Option TxAddr := none
  PubKey : Bytes := []

/-- Modelled from the spec: the method `Identity.HasDoneAllRequiredFlips` is not
part of the sources; the spec names it as the input `hasDoneAllRequiredFlips`
of the transition.  It holds when the identity has submitted at least its
required number of flips. -/
def Identity.HasDoneAllRequiredFlips (identity : Identity) : Bool :=
  decide (identity.RequiredFlips ≤ identity.Flips.length)

/-! ## Constants of `ceremony.go` -/

def LotterySeedLag : Nat := 100

def MinTotalScore : float32 := .finite (3 / 4)

def MinShortScore : float32 := .finite (1 / 2)

def MinLongScore : float32 := .finite (3 / 4)

/-! ## Identity transition and birthday rule -/

/-- The function `determineIdentityBirthday` of `ceremony.go`. -/
def determineIdentityBirthday (currentEpoch : Nat) (identity : Identity)
    (newState : IdentityState) : Nat :=
  match identity.State with
  | .Candidate => if newState = .Newbie then currentEpoch else 0
  | .Newbie => identity.Birthday
  | .Verified => identity.Birthday
  | .Suspended => identity.Birthday
  | .Zombie => identity.Birthday
  | _ => 0

/-- The function `determineNewIdentityState` of `ceremony.go`. -/
def determineNewIdentityState (identity : Identity)
    (shortScore longScore totalScore : float32) (totalQualifiedFlips : Nat)
    (missed noQualShort nonQualLong : Bool) : IdentityState :=
  if !identity.HasDoneAllRequiredFlips then
    match identity.State with
    | .Verified => .Suspended
    | _ => .Killed
  else
    match identity.State with
    | .Undefined => .Undefined
    | .Invite => .Killed
    | .Candidate =>
      if noQualShort || nonQualLong && shortScore.ge MinShortScore then
        .Candidate
      else if missed || shortScore.lt MinShortScore || longScore.lt MinLongScore then
        .Killed
      else
        .Newbie
    | .Newbie =>
      if noQualShort ||
          nonQualLong && decide (totalQualifiedFlips > 10) && totalScore.ge MinTotalScore
            && shortScore.ge MinShortScore ||
          nonQualLong && decide (totalQualifiedFlips ≤ 10) && shortScore.ge MinShortScore then
        .Newbie
      else if missed then
        .Killed
      else if decide (totalQualifiedFlips > 10) && totalScore.ge MinTotalScore
          && shortScore.ge MinShortScore && longScore.ge MinLongScore then
        .Verified
      else if decide (totalQualifiedFlips ≤ 10) && shortScore.ge MinShortScore
          && longScore.ge (.finite (3 / 4)) then
        .Newbie
      else
        .Killed
    | .Verified =>
      if noQualShort || nonQualLong && totalScore.ge MinTotalScore
          && shortScore.ge MinShortScore then
        .Verified
      else if missed then
        .Suspended
      else if decide (totalQualifiedFlips > 10) && totalScore.ge MinTotalScore
          && shortScore.ge MinShortScore && longScore.ge MinLongScore then
        .Verified
      else
        .Killed
    | .Suspended =>
      if noQualShort || nonQualLong && totalScore.ge MinTotalScore
          && shortScore.ge MinShortScore then
        .Suspended
      else if missed then
        .Zombie
      else if totalScore.ge MinTotalScore && shortScore.ge MinShortScore
          && longScore.ge MinLongScore then
        .Verified
      else
        .Killed
    | .Zombie =>
      if noQualShort || nonQualLong && totalScore.ge MinTotalScore
          && shortScore.ge MinShortScore then
        .Zombie
      else if missed then
        .Killed
      else if totalScore.ge MinTotalScore && shortScore.ge MinShortScore then
        .Verified
      else
        .Killed
    | .Killed => .Killed

/-! ## Flip qualifications and author analysis -/

/-- The type `FlipStatus` of `types.go`: a byte. -/
abbrev FlipStatus := Nat

def NotQualified : FlipStatus := 0

def Qualified : FlipStatus := 1

def WeaklyQualified : FlipStatus := 2

def QualifiedByNone : FlipStatus := 3

/-- Modelled from the spec: the declaration of `types.Answer` is not part of
the sources; the spec gives the enumeration `None, Left, Right, Inappropriate`. -/
inductive Answer where
  | None
  | Left
  | Right
  | Inappropriate
  deriving DecidableEq, Repr

/-- The struct `FlipQualification` of `types.go`; the defaults are Go's zero
values. -/
structure FlipQualification where
  status : FlipStatus := 0
  answer : Answer := .None
  wrongWords : Bool := false
  deriving DecidableEq, Repr

/-- Modelled from the spec: the declaration of `types.ValidationResult` is not
part of the sources; it carries the counters `strongFlips`, `weakFlips` and
`successfulInvites` of a good author. -/
structure ValidationResult where
  StrongFlips : Nat := 0
  WeakFlips : Nat := 0
  SuccessfulInvites : Nat := 0
  deriving DecidableEq, Repr

/-- A Go map: an association list in which a key is looked up at its first
occurrence; `set` keeps at most one entry per key. -/
structure GoMap (K : Type) (V : Type) where
  entries : List (K × V) := []
  deriving Repr

namespace GoMap

variable {K V : Type} [DecidableEq K]

/-- The empty map, `make(map[K]V)`. -/
def empty : GoMap K V := ⟨[]⟩

/-- The lookup `v, ok := m[k]`. -/
def get? (m : GoMap K V) (k : K) : Option V :=
  (m.entries.find? (fun p => decide (p.1 = k))).map Prod.snd

/-- The test `_, ok := m[k]`. -/
def contains (m : GoMap K V) (k : K) : Bool :=
  (m.get? k).isSome

/-- Assignment into an association list: the entry of `k` is replaced in
place, or appended when `k` has no entry. -/
def setList : List (K × V) → K → V → List (K × V)
  | [], k, v => [(k, v)]
  | p :: rest, k, v => if p.1 = k then (k, v) :: rest else p :: setList rest k v

/-- The assignment `m[k] = v`. -/
def set (m : GoMap K V) (k : K) (v : V) : GoMap K V :=
  ⟨setList m.entries k v⟩

/-- The call `delete(m, k)`. -/
def delete (m : GoMap K V) (k : K) : GoMap K V :=
  ⟨m.entries.filter (fun p => !decide (p.1 = k))⟩

/-- The keys of the map, in iteration order. -/
def keys (m : GoMap K V) : List K :=
  m.entries.map Prod.fst

end GoMap

/-- Modelled from the spec: the declaration of `types.ValidationAuthors` is not
part of the sources; it pairs the set of bad authors with the results of the
good authors. -/
structure ValidationAuthors where
  BadAuthors : GoMap Address Unit := {}
  GoodAuthors : GoMap Address ValidationResult := {}

/-- The struct `candidate` of `types.go`. -/
structure candidate where
  Address : Address := 0
  Generation : Nat := 0
  Code : Bytes := []
  deriving DecidableEq, Repr

/-- The struct `cacheValue` of `ceremony.go`: the outcome of an epoch for one
identity. -/
structure cacheValue where
  state : IdentityState := .Undefined
  shortQualifiedFlipsCount : Nat := 0
  shortFlipPoint : float32 := .finite 0
  birthday : Nat := 0

/-- The struct `epochApplyingCache` of `ceremony.go`. -/
structure epochApplyingCache where
  epochApplyingResult : GoMap Address cacheValue := {}
  validationFailed : Bool := false
  validationAuthors : ValidationAuthors := {}

/-- The fields of the struct `ValidationCeremony` that the embedded methods
read or write. -/
structure ValidationCeremony where
  flips : List Bytes := []
  flipsPerAuthor : GoMap Nat (List Bytes) := {}
  flipAuthorMap : GoMap Hash Address := {}
  candidates : List candidate := []
  nonCandidates : List Address := []
  epoch : Nat := 0
  shortFlipsPerCandidate : List (List Int) := []
  longFlipsPerCandidate : List (List Int) := []
  shortFlipsToSolve : List Bytes := []
  longFlipsToSolve : List Bytes := []
  epochApplyingCache : GoMap Nat epochApplyingCache := {}

/-- The author the ceremony records for a flip content id:
`vc.flipAuthorMap[rlp.Hash(cid)]`, the zero address when the map has no entry.
The hash function `rlp.Hash` is a parameter. -/
def flipAuthor (rlpHash : Bytes → Hash) (vc : ValidationCeremony) (cid : Bytes) : Address :=
  (vc.flipAuthorMap.get? (rlpHash cid)).getD 0

/-- The four maps that the first loop of `analizeAuthors` updates. -/
structure AuthorsAcc where
  badAuthors : GoMap Address Unit := {}
  goodAuthors : GoMap Address ValidationResult := {}
  madeFlips : GoMap Address Nat := {}
  nonQualifiedFlips : GoMap Address Nat := {}

/-- The body of the first loop of `analizeAuthors` for a flip of `author`
with qualification `item`. -/
def analizeAuthorsBody (acc : AuthorsAcc) (author : Address) (item : FlipQualification) :
    AuthorsAcc :=
  let badAuthors :=
    if item.wrongWords || decide (item.status = QualifiedByNone)
        || decide (item.answer = Answer.Inappropriate) then
      acc.badAuthors.set author ()
    else acc.badAuthors
  let nonQualifiedFlips :=
    if item.status = NotQualified then
      acc.nonQualifiedFlips.set author ((acc.nonQualifiedFlips.get? author).getD 0 + 1)
    else acc.nonQualifiedFlips
  let madeFlips := acc.madeFlips.set author ((acc.madeFlips.get? author).getD 0 + 1)
  let goodAuthors :=
    if item.status = Qualified ∨ item.status = WeaklyQualified then
      let vr : ValidationResult :=
        match acc.goodAuthors.get? author with
        | some vr => vr
        | none => {}
      if item.status = Qualified then
        acc.goodAuthors.set author { vr with StrongFlips := vr.StrongFlips + 1 }
      else
        acc.goodAuthors.set author { vr with WeakFlips := vr.WeakFlips + 1 }
    else acc.goodAuthors
  { badAuthors := badAuthors, goodAuthors := goodAuthors, madeFlips := madeFlips,
    nonQualifiedFlips := nonQualifiedFlips }

/-- The first loop of `analizeAuthors`, `for i, item := range qualifications`,
from index `i` on.  Reading `vc.flips[i]` past the end of `vc.flips` is a
run-time panic: the result is `none`. -/
def analizeAuthorsLoop (rlpHash : Bytes → Hash) (vc : ValidationCeremony) :
    Nat → List FlipQualification → AuthorsAcc → Option AuthorsAcc
  | _, [], acc => some acc
  | i, item :: rest, acc =>
    match vc.flips[i]? with
    | none => none
    | some cid =>
      analizeAuthorsLoop rlpHash vc (i + 1) rest
        (analizeAuthorsBody acc (flipAuthor rlpHash vc cid) item)

/-- The second loop of `analizeAuthors`: an author all of whose flips are not
qualified is bad. -/
def markNonQualified (madeFlips : GoMap Address Nat) :
    List (Address × Nat) → GoMap Address Unit → GoMap Address Unit
  | [], badAuthors => badAuthors
  | (author, nonQual) :: rest, badAuthors =>
    markNonQualified madeFlips rest
      (if (madeFlips.get? author).getD 0 = nonQual then badAuthors.set author ()
       else badAuthors)

/-- The third loop of `analizeAuthors`: bad authors are removed from the good
authors. -/
def deleteBad : List Address → GoMap Address ValidationResult → GoMap Address ValidationResult
  | [], goodAuthors => goodAuthors
  | author :: rest, goodAuthors => deleteBad rest (goodAuthors.delete author)

/-- The method `analizeAuthors` of `ceremony.go`; `none` stands for the
run-time panic of the first loop. -/
def analizeAuthors (rlpHash : Bytes → Hash) (vc : ValidationCeremony)
    (qualifications : List FlipQualification) :
    Option (GoMap Address Unit × GoMap Address ValidationResult) :=
  match analizeAuthorsLoop rlpHash vc 0 qualifications {} with
  | none => none
  | some acc =>
    let badAuthors := markNonQualified acc.madeFlips acc.nonQualifiedFlips.entries acc.badAuthors
    let goodAuthors := deleteBad badAuthors.keys acc.goodAuthors
    some (badAuthors, goodAuthors)

/-- The qualifications of the flips authored by `a`: those `qualifications[i]`
whose flip `vc.flips[i]` has author `a`, in flip order. -/
def flipsAuthoredBy (rlpHash : Bytes → Hash) (vc : ValidationCeremony)
    (qualifications : List FlipQualification) (a : Address) : List FlipQualification :=
  ((qualifications.zip vc.flips).filter
    (fun p => decide (flipAuthor rlpHash vc p.2 = a))).map Prod.fst

/-- The ceremony of `Test_analizeAuthors`: ten flips `{0x0}` to `{0x9}`, the
first three by author 1, then two each by authors 2, 3 and 4, the last by
author 5. -/
def testCeremony : ValidationCeremony :=
  { flips := [[0], [1], [2], [3], [4], [5], [6], [7], [8], [9]],
    flipAuthorMap := ⟨[(0, 1), (1, 1), (2, 1), (3, 2), (4, 2), (5, 3), (6, 3), (7, 4),
      (8, 4), (9, 5)]⟩ }

/-- A stand-in for `rlp.Hash` on the one-byte content ids of the tests: the
byte itself. -/
def testHash (cid : Bytes) : Hash := cid.headD 0

/-- The qualification vector of `Test_analizeAuthors`. -/
def testQualification : List FlipQualification :=
  [{ status := Qualified }, { status := WeaklyQualified }, { status := NotQualified },
   { status := Qualified, answer := .Inappropriate }, { status := Qualified },
   { status := WeaklyQualified, wrongWords := true }, { status := Qualified },
   { status := NotQualified }, { status := NotQualified },
   { status := QualifiedByNone }]

/-! ## Successful invites -/

/-- The function `incSuccessfulInvites` of `ceremony.go`.  The Go function
updates the map behind `validationAuthors.GoodAuthors` in place; the updated
record is returned. -/
def incSuccessfulInvites (validationAuthors : ValidationAuthors) (god : Address)
    (invitee : Identity) (newState : IdentityState) : ValidationAuthors :=
  let goodAuthors := validationAuthors.GoodAuthors
  if invitee.State = .Candidate ∧ newState = .Newbie then
    match invitee.Inviter with
    | none => validationAuthors
    | some inviter =>
      match goodAuthors.get? inviter.Address with
      | some vr =>
        { validationAuthors with
          GoodAuthors := goodAuthors.set inviter.Address
            { vr with SuccessfulInvites := vr.SuccessfulInvites + 1 } }
      | none =>
        if inviter.Address = god then
          { validationAuthors with
            GoodAuthors := goodAuthors.set god { SuccessfulInvites := 1 } }
        else validationAuthors
  else validationAuthors

/-- The authors of `Test_incSuccessfulInvites`: god is address 1, the good
author is address 2, the bad author is address 3. -/
def testAuthors : ValidationAuthors :=
  { BadAuthors := ⟨[(3, ())]⟩,
    GoodAuthors := ⟨[(2, { StrongFlips := 1, WeakFlips := 1, SuccessfulInvites := 0 })]⟩ }

/-- An invitee in state `st` invited by `inviter`. -/
def testInvitee (st : IdentityState) (inviter : Address) : Identity :=
  { State := st, Inviter := some { Address := inviter } }

/-! ## Flips of candidates that are not approved -/

/-- A set of the `mapset` package: its elements, without repetition, in
insertion order. -/
structure GoSet (α : Type) where
  elems : List α := []
  deriving Repr

/-- The method `Add` of a set. -/
def GoSet.Add {α : Type} [DecidableEq α] (s : GoSet α) (x : α) : GoSet α :=
  if x ∈ s.elems then s else ⟨s.elems ++ [x]⟩

/-- The method `Contains` of a set. -/
def GoSet.Contains {α : Type} [DecidableEq α] (s : GoSet α) (x : α) : Bool :=
  decide (x ∈ s.elems)

/-- The loop of `flipPos` from index `i` on. -/
def flipPosFrom (flip : Bytes) : Nat → List Bytes → Int
  | _, [] => -1
  | i, curFlip :: rest => if curFlip = flip then (i : Int) else flipPosFrom flip (i + 1) rest

/-- The function `flipPos` of `ceremony.go`: the first index of `flip` in
`flips`, or `-1`. -/
def flipPos (flips : List Bytes) (flip : Bytes) : Int :=
  flipPosFrom flip 0 flips

/-- The inner loop of `getNotApprovedFlips`: the positions of the flips of one
author are added to the result. -/
def addFlipPositions (flips : List Bytes) : List Bytes → GoSet Int → GoSet Int
  | [], result => result
  | f :: rest, result => addFlipPositions flips rest (result.Add (flipPos flips f))

/-- The outer loop of `getNotApprovedFlips`, `for i, c := range vc.candidates`,
from index `i` on.  `requiredFlips` stands for
`vc.appState.State.GetRequiredFlips`. -/
def getNotApprovedFlipsLoop (requiredFlips : Address → Nat) (vc : ValidationCeremony)
    (approvedCandidates : GoSet Address) : Nat → List candidate → GoSet Int → GoSet Int
  | _, [], result => result
  | i, c :: rest, result =>
    getNotApprovedFlipsLoop requiredFlips vc approvedCandidates (i + 1) rest
      (if !approvedCandidates.Contains c.Address && decide (requiredFlips c.Address > 0) then
        addFlipPositions vc.flips ((vc.flipsPerAuthor.get? i).getD []) result
       else result)

/-- The method `getNotApprovedFlips` of `ceremony.go`. -/
def getNotApprovedFlips (requiredFlips : Address → Nat) (vc : ValidationCeremony)
    (approvedCandidates : GoSet Address) : GoSet Int :=
  getNotApprovedFlipsLoop requiredFlips vc approvedCandidates 0 vc.candidates {}

/-- The ceremony of `Test_getNotApprovedFlips`: candidates 10, 11 and 12 and
five flips, three by the first candidate and one by each of the others. -/
def testNotApprovedCeremony : ValidationCeremony :=
  { candidates := [{ Address := 10 }, { Address := 11 }, { Address := 12 }],
    flips := [[0], [1], [2], [3], [4]],
    flipsPerAuthor := ⟨[(0, [[0], [1], [2]]), (1, [[3]]), (2, [[4]])]⟩ }

/-- The required flips of `Test_getNotApprovedFlips`: three for the first two
candidates. -/
def testRequiredFlips (addr : Address) : Nat :=
  if addr = 10 ∨ addr = 11 then 3 else 0

/-! ## Flips to solve -/

/-- The inner loop of `getFlipsToSolve`: `allFlips[myFlips[j] % len(allFlips)]`
for every `j`.  The remainder is Go's truncated remainder; a division by zero
or a negative index is a run-time panic, `none`. -/
def solveFlips (allFlips : List Bytes) : List Int → Option (List Bytes)
  | [] => some []
  | idx :: rest =>
    if allFlips.length = 0 then none
    else if Int.tmod idx (allFlips.length : Int) < 0 then none
    else
      match allFlips[(Int.tmod idx (allFlips.length : Int)).toNat]? with
      | none => none
      | some cid => (solveFlips allFlips rest).map (fun result => cid :: result)

/-- The outer loop of `getFlipsToSolve` from index `i` on: the first
participant with address `self` decides the result. -/
def getFlipsToSolveFrom (self : Address) (flipsPerCandidate : List (List Int))
    (flipCids : List Bytes) : Nat → List candidate → Option (List Bytes)
  | _, [] => some []
  | i, p :: rest =>
    if p.Address = self then
      match flipsPerCandidate[i]? with
      | none => none
      | some myFlips => solveFlips flipCids myFlips
    else getFlipsToSolveFrom self flipsPerCandidate flipCids (i + 1) rest

/-- The function `getFlipsToSolve` of `ceremony.go`; `none` stands for a
run-time panic. -/
def getFlipsToSolve (self : Address) (participants : List candidate)
    (flipsPerCandidate : List (List Int)) (flipCids : List Bytes) : Option (List Bytes) :=
  getFlipsToSolveFrom self flipsPerCandidate flipCids 0 participants

/-! ## Lottery seed -/

/-- The seed height that `handleFlipLotteryPeriod` computes for a lottery
block of the given height, in `uint64` arithmetic. -/
def handleFlipLotteryPeriod_seedHeight (height : Nat) : Nat :=
  let seedHeight := 2
  if (height + seedHeight) % 2 ^ 64 > LotterySeedLag then
    ((height + seedHeight) % 2 ^ 64 - LotterySeedLag) % 2 ^ 64
  else seedHeight

/-! ## Applying a new epoch -/

/-- The rounded `float32` operations that `ApplyNewEpoch` uses: addition,
division and the conversion of a `uint32`.  The development needs them only as
functions. -/
structure FloatOps where
  add : float32 → float32 → float32
  div : float32 → float32 → float32
  ofUInt32 : Nat → float32

/-- Modelled from the spec: the identity part of `state.StateDB`; the state
objects are not part of the sources.  An address has a state object or none;
the god address is a global of the state. -/
structure StateDB where
  identities : Address → Option Identity
  godAddress : Address := 0

namespace StateDB

/-- The method `GetIdentity` of `statedb.go`: the data of the state object, or
the zero identity when there is none. -/
def GetIdentity (s : StateDB) (addr : Address) : Identity :=
  (s.identities addr).getD {}

/-- The method `GetShortFlipPoints` of `statedb.go`. -/
def GetShortFlipPoints (s : StateDB) (addr : Address) : float32 :=
  match s.identities addr with
  | some identity => identity.ShortFlipPoints
  | none => .finite 0

/-- The method `GetQualifiedFlipsCount` of `statedb.go`. -/
def GetQualifiedFlipsCount (s : StateDB) (addr : Address) : Nat :=
  match s.identities addr with
  | some identity => identity.QualifiedFlips
  | none => 0

/-- The method `GodAddress` of `statedb.go`. -/
def GodAddress (s : StateDB) : Address := s.godAddress

/-- An update through `GetOrNewIdentityObject`: the state object of `addr`,
created empty when there is none, is changed by `f`. -/
def updateIdentity (s : StateDB) (addr : Address) (f : Identity → Identity) : StateDB :=
  { s with
    identities := fun a => if a = addr then some (f ((s.identities a).getD {}))
      else s.identities a }

/-- Modelled from the spec: `SetState` of `statedb.go` with the setter of the
state object, which is not part of the sources. -/
def SetState (s : StateDB) (addr : Address) (state : IdentityState) : StateDB :=
  s.updateIdentity addr (fun identity => { identity with State := state })

/-- Modelled from the spec: `AddQualifiedFlipsCount` of `statedb.go`; the
cumulative `uint32` counter of the state object grows by `qualifiedFlips`. -/
def AddQualifiedFlipsCount (s : StateDB) (addr : Address) (qualifiedFlips : Nat) : StateDB :=
  s.updateIdentity addr (fun identity =>
    { identity with QualifiedFlips := (identity.QualifiedFlips + qualifiedFlips) % 2 ^ 32 })

/-- Modelled from the spec: `AddShortFlipPoints` of `statedb.go`; the
cumulative points of the state object grow by `shortFlipPoints`. -/
def AddShortFlipPoints (fl : FloatOps) (s : StateDB) (addr : Address)
    (shortFlipPoints : float32) : StateDB :=
  s.updateIdentity addr (fun identity =>
    { identity with ShortFlipPoints := fl.add identity.ShortFlipPoints shortFlipPoints })

/-- Modelled from the spec: `SetBirthday` of `statedb.go`. -/
def SetBirthday (s : StateDB) (addr : Address) (birthday : Nat) : StateDB :=
  s.updateIdentity addr (fun identity => { identity with Birthday := birthday })

end StateDB

/-- The result of `qualifyCandidate` that `ApplyNewEpoch` uses for the
transition: points, number of qualified flips and the `noQual` flag.  (The
per-flip answers it also returns only feed the statistics.) -/
structure CandidateQualification where
  flipPoint : float32 := .finite 0
  qualifiedFlipsCount : Nat := 0
  noQual : Bool := false

/-- What `ApplyNewEpoch` obtains from components that are not part of the
sources: the evidence map, the state behind `vc.appState`, the validators
cache, the qualifier and the `rlp` package. -/
structure Collaborators where
  /-- The call `vc.appState.EvidenceMap.CalculateApprovedCandidates` on the
  candidate addresses and the stored evidence maps. -/
  calculateApprovedCandidates : List Address → List Address
  /-- The method `vc.appState.State.GetRequiredFlips`. -/
  requiredFlips : Address → Nat
  /-- The value of `vc.appState.ValidatorsCache.NetworkSize()`. -/
  networkSize : Nat
  /-- The method `vc.qualification.qualifyFlips`. -/
  qualifyFlips : Nat → List candidate → List (List Int) → List FlipQualification
  /-- The method `vc.qualification.qualifyCandidate`. -/
  qualifyCandidate : Address → GoMap Nat FlipQualification → List Int → Bool → GoSet Int →
    CandidateQualification
  /-- The function `rlp.Hash`. -/
  rlpHash : Bytes → Hash
  /-- The arithmetic of `float32`. -/
  floatOps : FloatOps

/-- The closure `applyOnState` of `ApplyNewEpoch`: the outcome `value` is
written to the identity of `addr`, and a validated identity is counted. -/
def applyOnState (fl : FloatOps) (appState : StateDB) (identitiesCount : Nat)
    (addr : Address) (value : cacheValue) : StateDB × Nat :=
  let appState := appState.SetState addr value.state
  let appState := appState.AddQualifiedFlipsCount addr value.shortQualifiedFlipsCount
  let appState := appState.AddShortFlipPoints fl addr value.shortFlipPoint
  let appState := appState.SetBirthday addr value.birthday
  (appState,
    if value.state = .Verified ∨ value.state = .Newbie then identitiesCount + 1
    else identitiesCount)

/-- The loops `for addr, value := range ... { applyOnState(addr, value) }`. -/
def applyAllOnState (fl : FloatOps) :
    List (Address × cacheValue) → StateDB × Nat → StateDB × Nat
  | [], acc => acc
  | (addr, value) :: rest, acc =>
    applyAllOnState fl rest (applyOnState fl acc.1 acc.2 addr value)

/-- The scores and the `missed` flag of a candidate. -/
structure CandidateScores where
  shortScore : float32 := .finite 0
  longScore : float32 := .finite 0
  totalScore : float32 := .finite 0
  newTotalQualifiedFlipsCount : Nat := 0
  missed : Bool := false

/-- The part of the candidate loop of `ApplyNewEpoch` that derives the scores
and the `missed` flag from the two qualifications, the cumulative points and
count of the identity and the approval. -/
def candidateScores (fl : FloatOps) (shortFlipPoint : float32)
    (shortQualifiedFlipsCount : Nat) (noQualShort : Bool) (longFlipPoint : float32)
    (longQualifiedFlipsCount : Nat) (noQualLong : Bool) (totalFlipPoints : float32)
    (totalQualifiedFlipsCount : Nat) (approved : Bool) : CandidateScores :=
  let missed := !approved
  let fullQual := !noQualShort && !noQualLong
  let shortScore : float32 :=
    if shortQualifiedFlipsCount > 0 then
      fl.div shortFlipPoint (fl.ofUInt32 shortQualifiedFlipsCount)
    else .finite 0
  let missed := if shortQualifiedFlipsCount > 0 then missed else if fullQual then true else missed
  let longScore : float32 :=
    if longQualifiedFlipsCount > 0 then
      fl.div longFlipPoint (fl.ofUInt32 longQualifiedFlipsCount)
    else .finite 0
  let missed := if longQualifiedFlipsCount > 0 then missed else if fullQual then true else missed
  let newTotalQualifiedFlipsCount :=
    (shortQualifiedFlipsCount + totalQualifiedFlipsCount) % 2 ^ 32
  let totalScore : float32 :=
    if newTotalQualifiedFlipsCount > 0 then
      fl.div (fl.add shortFlipPoint totalFlipPoints) (fl.ofUInt32 newTotalQualifiedFlipsCount)
    else .finite 0
  { shortScore := shortScore, longScore := longScore, totalScore := totalScore,
    newTotalQualifiedFlipsCount := newTotalQualifiedFlipsCount, missed := missed }

/-- The loop that fills `flipQualificationMap` from index `i` on. -/
def flipQualificationMapFrom :
    Nat → List FlipQualification → GoMap Nat FlipQualification → GoMap Nat FlipQualification
  | _, [], m => m
  | i, item :: rest, m => flipQualificationMapFrom (i + 1) rest (m.set i item)

/-- The loop of `ApplyNewEpoch` that collects a list into a set. -/
def setOfList {α : Type} [DecidableEq α] : List α → GoSet α → GoSet α
  | [], s => s
  | x :: rest, s => setOfList rest (s.Add x)

/-- What `ApplyNewEpoch` computes before its candidate loop. -/
structure EpochInputs where
  approvedCandidatesSet : GoSet Address := {}
  flipQualification : List FlipQualification := []
  flipQualificationMap : GoMap Nat FlipQualification := {}
  notApprovedFlips : GoSet Int := {}

/-- The statements of `ApplyNewEpoch` before the author analysis and the
candidate loop: approved candidates, flip qualifications and not approved
flips. -/
def epochInputs (env : Collaborators) (vc : ValidationCeremony) : EpochInputs :=
  let approvedCandidates :=
    env.calculateApprovedCandidates (vc.candidates.map (fun c => c.Address))
  let approvedCandidatesSet := setOfList approvedCandidates {}
  let totalFlipsCount := vc.flips.length
  let flipQualification :=
    env.qualifyFlips totalFlipsCount vc.candidates vc.longFlipsPerCandidate
  { approvedCandidatesSet := approvedCandidatesSet,
    flipQualification := flipQualification,
    flipQualificationMap := flipQualificationMapFrom 0 flipQualification {},
    notApprovedFlips := getNotApprovedFlips env.requiredFlips vc approvedCandidatesSet }

/-- The body of the candidate loop of `ApplyNewEpoch` for the candidate at
index `idx`, up to the value stored for it: the identity read from the state
and the outcome.  Reading `vc.shortFlipsPerCandidate[idx]` or
`vc.longFlipsPerCandidate[idx]` out of range is a run-time panic, `none`. -/
def candidateValue (env : Collaborators) (vc : ValidationCeremony) (appState : StateDB)
    (inp : EpochInputs) (idx : Nat) (c : candidate) : Option (Identity × cacheValue) :=
  let addr := c.Address
  match vc.shortFlipsPerCandidate[idx]? with
  | none => none
  | some shortFlipsToSolve =>
    let short := env.qualifyCandidate addr inp.flipQualificationMap shortFlipsToSolve true
      inp.notApprovedFlips
    match vc.longFlipsPerCandidate[idx]? with
    | none => none
    | some longFlipsToSolve =>
      let long := env.qualifyCandidate addr inp.flipQualificationMap longFlipsToSolve false
        inp.notApprovedFlips
      let totalFlipPoints := appState.GetShortFlipPoints addr
      let totalQualifiedFlipsCount := appState.GetQualifiedFlipsCount addr
      let approved := inp.approvedCandidatesSet.Contains addr
      let scores := candidateScores env.floatOps short.flipPoint short.qualifiedFlipsCount
        short.noQual long.flipPoint long.qualifiedFlipsCount long.noQual totalFlipPoints
        totalQualifiedFlipsCount approved
      let identity := appState.GetIdentity addr
      let newIdentityState := determineNewIdentityState identity scores.shortScore
        scores.longScore scores.totalScore scores.newTotalQualifiedFlipsCount scores.missed
        short.noQual long.noQual
      let identityBirthday := determineIdentityBirthday vc.epoch identity newIdentityState
      some (identity,
        { state := newIdentityState,
          shortQualifiedFlipsCount := short.qualifiedFlipsCount,
          shortFlipPoint := short.flipPoint,
          birthday := identityBirthday })

/-- What the candidate loop of `ApplyNewEpoch` accumulates. -/
structure EpochAcc where
  validationAuthors : ValidationAuthors := {}
  epochApplyingValues : GoMap Address cacheValue := {}
  intermediateIdentitiesCount : Nat := 0

/-- The candidate loop of `ApplyNewEpoch`,
`for idx, candidate := range vc.candidates`, from index `idx` on. -/
def candidatesLoop (env : Collaborators) (vc : ValidationCeremony) (appState : StateDB)
    (inp : EpochInputs) (god : Address) : Nat → List candidate → EpochAcc → Option EpochAcc
  | _, [], acc => some acc
  | idx, c :: rest, acc =>
    match candidateValue env vc appState inp idx c with
    | none => none
    | some (identity, value) =>
      candidatesLoop env vc appState inp god (idx + 1) rest
        { validationAuthors :=
            incSuccessfulInvites acc.validationAuthors god identity value.state,
          epochApplyingValues := acc.epochApplyingValues.set c.Address value,
          intermediateIdentitiesCount :=
            if value.state = .Verified ∨ value.state = .Newbie then
              acc.intermediateIdentitiesCount + 1
            else acc.intermediateIdentitiesCount }

/-- The computation of `ApplyNewEpoch` up to the test
`intermediateIdentitiesCount == 0`: author analysis and candidate loop. -/
def computeValidation (env : Collaborators) (vc : ValidationCeremony) (appState : StateDB) :
    Option EpochAcc :=
  let inp := epochInputs env vc
  match analizeAuthors env.rlpHash vc inp.flipQualification with
  | none => none
  | some (badAuthors, goodAuthors) =>
    candidatesLoop env vc appState inp appState.GodAddress 0 vc.candidates
      { validationAuthors := { BadAuthors := badAuthors, GoodAuthors := goodAuthors } }

/-- What the loop over `vc.nonCandidates` carries: the state, the count of
validated identities and the values of the epoch. -/
structure NonCandidatesAcc where
  appState : StateDB
  identitiesCount : Nat
  epochApplyingValues : GoMap Address cacheValue

/-- The value that the loop over `vc.nonCandidates` computes for a
non-candidate: the transition with all scores zero and `missed = true`. -/
def nonCandidateValue (epoch : Nat) (identity : Identity) : cacheValue :=
  let newIdentityState := determineNewIdentityState identity (.finite 0) (.finite 0)
    (.finite 0) 0 true false false
  let identityBirthday := determineIdentityBirthday epoch identity newIdentityState
  { state := newIdentityState, shortQualifiedFlipsCount := 0,
    shortFlipPoint := .finite 0, birthday := identityBirthday }

/-- The loop `for _, addr := range vc.nonCandidates` of `ApplyNewEpoch`. -/
def nonCandidatesLoop (fl : FloatOps) (epoch : Nat) :
    List Address → NonCandidatesAcc → NonCandidatesAcc
  | [], acc => acc
  | addr :: rest, acc =>
    let identity := acc.appState.GetIdentity addr
    let value := nonCandidateValue epoch identity
    let applied := applyOnState fl acc.appState acc.identitiesCount addr value
    nonCandidatesLoop fl epoch rest
      { appState := applied.1, identitiesCount := applied.2,
        epochApplyingValues := acc.epochApplyingValues.set addr value }

/-- The outcome of a call of `ApplyNewEpoch`: the three results, the ceremony
with its cache, and the state that was passed, after the call. -/
structure ApplyResult where
  identitiesCount : Nat
  authors : ValidationAuthors
  failed : Bool
  vc : ValidationCeremony
  appState : StateDB

/-- The part of `ApplyNewEpoch` that serves a call from
`vc.epochApplyingCache`; `none` when the call is not served from the cache. -/
def applyFromCache (env : Collaborators) (vc : ValidationCeremony) (height : Nat)
    (appState : StateDB) : Option ApplyResult :=
  match vc.epochApplyingCache.get? height with
  | none => none
  | some applyingCache =>
    if applyingCache.validationFailed then
      some { identitiesCount := env.networkSize, authors := applyingCache.validationAuthors,
             failed := true, vc := vc, appState := appState }
    else if applyingCache.epochApplyingResult.entries.length > 0 then
      let applied := applyAllOnState env.floatOps applyingCache.epochApplyingResult.entries
        (appState, 0)
      some { identitiesCount := applied.2, authors := applyingCache.validationAuthors,
             failed := false, vc := vc, appState := applied.1 }
    else none

/-- The part of `ApplyNewEpoch` that computes the epoch and fills the cache;
`none` stands for a run-time panic. -/
def applyComputed (env : Collaborators) (vc : ValidationCeremony) (height : Nat)
    (appState : StateDB) : Option ApplyResult :=
  match computeValidation env vc appState with
  | none => none
  | some acc =>
    if acc.intermediateIdentitiesCount = 0 then
      some { identitiesCount := env.networkSize, authors := acc.validationAuthors,
             failed := true,
             vc := { vc with
               epochApplyingCache := vc.epochApplyingCache.set height
                 { epochApplyingResult := acc.epochApplyingValues,
                   validationAuthors := acc.validationAuthors,
                   validationFailed := true } },
             appState := appState }
    else
      let applied := applyAllOnState env.floatOps acc.epochApplyingValues.entries (appState, 0)
      let final := nonCandidatesLoop env.floatOps vc.epoch vc.nonCandidates
        { appState := applied.1, identitiesCount := applied.2,
          epochApplyingValues := acc.epochApplyingValues }
      some { identitiesCount := final.identitiesCount, authors := acc.validationAuthors,
             failed := false,
             vc := { vc with
               epochApplyingCache := vc.epochApplyingCache.set height
                 { epochApplyingResult := final.epochApplyingValues,
                   validationAuthors := acc.validationAuthors,
                   validationFailed := false } },
             appState := final.appState }

/-- The method `ApplyNewEpoch` of `ceremony.go`, without the statistics it
collects; `none` stands for a run-time panic. -/
def ApplyNewEpoch (env : Collaborators) (vc : ValidationCeremony) (height : Nat)
    (appState : StateDB) : Option ApplyResult :=
  match applyFromCache env vc height appState with
  | some result => some result
  | none => applyComputed env vc height appState

/-- A stand-in for the arithmetic of `float32` in examples: exact arithmetic
on finite values. -/
def testFloatOps : FloatOps :=
  { add := fun a b =>
      match a, b with
      | .finite x, .finite y => .finite (x + y)
      | _, _ => .nan,
    div := fun a b =>
      match a, b with
      | .finite x, .finite y => if y = 0 then .nan else .finite (x / y)
      | _, _ => .nan,
    ofUInt32 := fun n => .finite n }

/-- Sample collaborators: every candidate is approved, every flip is
qualified and every candidate answers all its flips correctly. -/
def testEnv : Collaborators :=
  { calculateApprovedCandidates := fun candidates => candidates,
    requiredFlips := fun _ => 0,
    networkSize := 3,
    qualifyFlips := fun totalFlipsCount _ _ =>
      List.replicate totalFlipsCount { status := Qualified, answer := .Left },
    qualifyCandidate := fun _ _ flipsToSolve _ _ =>
      { flipPoint := .finite flipsToSolve.length,
        qualifiedFlipsCount := flipsToSolve.length,
        noQual := false },
    rlpHash := testHash,
    floatOps := testFloatOps }

/-- Sample collaborators that approve nobody. -/
def testEnvNoApproval : Collaborators :=
  { testEnv with calculateApprovedCandidates := fun _ => [] }

/-- A sample ceremony of epoch 5: candidates 20 and 21, each the author of one
flip and assigned the flip of the other, and the non-candidate 30. -/
def testEpochCeremony : ValidationCeremony :=
  { flips := [[0], [1]],
    flipsPerAuthor := ⟨[(0, [[0]]), (1, [[1]])]⟩,
    flipAuthorMap := ⟨[(0, 20), (1, 21)]⟩,
    candidates := [{ Address := 20 }, { Address := 21 }],
    nonCandidates := [30],
    epoch := 5,
    shortFlipsPerCandidate := [[1], [0]],
    longFlipsPerCandidate := [[1], [0]] }

/-- A sample state: 20 is a Candidate, 21 a Newbie born in epoch 2, 30 holds
an invite; the god address is 1. -/
def testState : StateDB :=
  { identities := fun addr =>
      if addr = 20 then some { State := .Candidate }
      else if addr = 21 then some { State := .Newbie, Birthday := 2 }
      else if addr = 30 then some { State := .Invite }
      else none,
    godAddress := 1 }

/-! ## Sizes of the sessions and the flip lottery -/

/-- The conversion of an integer to Go's 64 bit `int` (two's complement
wrap-around). -/
def wrapInt64 (x : Int) : Int :=
  (x + 2 ^ 63) % 2 ^ 64 - 2 ^ 63

/-- The conversion of an integer to Go's 64 bit `uint`. -/
def wrapUInt64 (x : Int) : Nat :=
  (x % 2 ^ 64).toNat

/-- What `calculateCeremonyCandidates` obtains from code that is not part of
the sources: the lottery assigner `SortFlips`, the constants of package
`common`, and the address of the node. -/
structure LotteryCollaborators where
  /-- The function `SortFlips`, the lottery assigner. -/
  SortFlips : GoMap Nat (List Bytes) → List candidate → List Bytes → Int → Bytes → Bool →
    GoMap Int Bool → List (List Int)
  /-- The value of `common.ShortSessionFlipsCount()`. -/
  ShortSessionFlipsCount : Nat
  /-- The value of `common.ShortSessionExtraFlipsCount()`. -/
  ShortSessionExtraFlipsCount : Nat
  /-- The constant `common.LongSessionTesters`. -/
  LongSessionTesters : Nat
  /-- The function `common.ReverseBytes`. -/
  ReverseBytes : Bytes → Bytes
  /-- The value of `vc.secStore.GetAddress()`. -/
  selfAddress : Address

/-- The method `ShortSessionFlipsCount` of `ceremony.go`. -/
def ShortSessionFlipsCount (env : LotteryCollaborators) : Nat :=
  env.ShortSessionFlipsCount

/-- The method `LongSessionFlipsCount` of `ceremony.go`, in the arithmetic of
`int` and `uint`. -/
def LongSessionFlipsCount (env : LotteryCollaborators) (vc : ValidationCeremony) : Nat :=
  if vc.candidates.length = 0 then 1
  else
    let count := wrapUInt64
      (Int.tdiv (wrapInt64 ((vc.flips.length : Int) * (env.LongSessionTesters : Int)))
        (vc.candidates.length : Int))
    if count = 0 then 1 else count

/-- The inner loop that marks the flips of one candidate as chosen. -/
def markChosen : List Int → GoMap Int Bool → GoMap Int Bool
  | [], chosenFlips => chosenFlips
  | f :: rest, chosenFlips => markChosen rest (chosenFlips.set f true)

/-- The loop of `calculateCeremonyCandidates` that builds `chosenFlips`. -/
def chosenFlipsOf : List (List Int) → GoMap Int Bool → GoMap Int Bool
  | [], chosenFlips => chosenFlips
  | a :: rest, chosenFlips => chosenFlipsOf rest (markChosen a chosenFlips)

/-- The method `calculateCeremonyCandidates` of `ceremony.go` after its two
early returns, for a lottery seed `seed` and a ceremony `vc` that holds the
result of `getCandidatesAndFlips`: both sessions are assigned and the flips of
the node are selected.  `none` stands for a run-time panic of
`getFlipsToSolve`. -/
def calculateCeremonyCandidates (env : LotteryCollaborators) (vc : ValidationCeremony)
    (seed : Bytes) : Option ValidationCeremony :=
  let shortFlipsPerCandidate := env.SortFlips vc.flipsPerAuthor vc.candidates vc.flips
    (wrapInt64 (((ShortSessionFlipsCount env + env.ShortSessionExtraFlipsCount) % 2 ^ 64 : Nat)
      : Int))
    seed false {}
  let chosenFlips := chosenFlipsOf shortFlipsPerCandidate {}
  let longFlipsPerCandidate := env.SortFlips vc.flipsPerAuthor vc.candidates vc.flips
    (wrapInt64 ((LongSessionFlipsCount env vc : Nat) : Int)) (env.ReverseBytes seed) true
    chosenFlips
  match getFlipsToSolve env.selfAddress vc.candidates shortFlipsPerCandidate vc.flips with
  | none => none
  | some shortFlipsToSolve =>
    match getFlipsToSolve env.selfAddress vc.candidates longFlipsPerCandidate vc.flips with
    | none => none
    | some longFlipsToSolve =>
      some { vc with
        shortFlipsPerCandidate := shortFlipsPerCandidate,
        longFlipsPerCandidate := longFlipsPerCandidate,
        shortFlipsToSolve := shortFlipsToSolve,
        longFlipsToSolve := longFlipsToSolve }

/-- A sample lottery assigner: every candidate is assigned `k` times the flip
of index 0. -/
def testSortFlips (_ : GoMap Nat (List Bytes)) (candidates : List candidate)
    (_ : List Bytes) (k : Int) (_ : Bytes) (_ : Bool) (_ : GoMap Int Bool) : List (List Int) :=
  candidates.map (fun _ => List.replicate k.toNat 0)

/-- Sample lottery collaborators: five short flips and two extra flips per
candidate, ten long session testers; the node has address 20. -/
def testLotteryEnv : LotteryCollaborators :=
  { SortFlips := testSortFlips,
    ShortSessionFlipsCount := 5,
    ShortSessionExtraFlipsCount := 2,
    LongSessionTesters := 10,
    ReverseBytes := List.reverse,
    selfAddress := 20 }

/-! ## Ceremony transactions and the flip key -/

/-- Modelled from the spec: the part of the per-epoch store `EpochDb` that
`sendTx` uses, which is not part of the sources: the own transaction stored
for each transaction kind (`readOwnTx`, `writeOwnTx`) and the markers of the
own transactions that the mempool admitted (`hasSuccessfulOwnTx`). -/
structure EpochDb where
  ownTxs : GoMap Nat Bytes := {}
  successfulOwnTxs : GoSet Hash := {}

namespace EpochDb

/-- Modelled from the spec: `ReadOwnTx`, `nil` when no transaction of the kind
is stored. -/
def ReadOwnTx (db : EpochDb) (txType : Nat) : Option Bytes :=
  db.ownTxs.get? txType

/-- Modelled from the spec: `WriteOwnTx`. -/
def WriteOwnTx (db : EpochDb) (txType : Nat) (txBytes : Bytes) : EpochDb :=
  { db with ownTxs := db.ownTxs.set txType txBytes }

/-- Modelled from the spec: `RemoveOwnTx`. -/
def RemoveOwnTx (db : EpochDb) (txType : Nat) : EpochDb :=
  { db with ownTxs := db.ownTxs.delete txType }

/-- Modelled from the spec: `HasSuccessfulOwnTx`. -/
def HasSuccessfulOwnTx (db : EpochDb) (hash : Hash) : Bool :=
  db.successfulOwnTxs.Contains hash

/-- Modelled from the spec: `WriteSuccessfulOwnTx`. -/
def WriteSuccessfulOwnTx (db : EpochDb) (hash : Hash) : EpochDb :=
  { db with successfulOwnTxs := db.successfulOwnTxs.Add hash }

end EpochDb

/-- The message `types.FlipKey` with its signature. -/
structure FlipKey where
  Key : Bytes := []
  Epoch : Nat := 0
  Signature : Bytes := []
  deriving DecidableEq, Repr

/-- What `sendTx` and `broadcastFlipKey` obtain from code that is not part of
the sources, for a type `Tx` of transactions: building, signing and encoding
of transactions, the answer of the mempool, the flip key and the clock. -/
structure TxCollaborators (Tx : Type) where
  /-- The empty transaction `&types.Transaction{}`. -/
  emptyTx : Tx
  /-- The call of `blockchain.BuildTx` for a transaction kind and a payload. -/
  BuildTx : Nat → Bytes → Tx
  /-- The method `vc.secStore.SignTx`; `none` is an error. -/
  SignTx : Tx → Option Tx
  /-- The function `rlp.EncodeToBytes`. -/
  EncodeToBytes : Tx → Bytes
  /-- The function `rlp.DecodeBytes`; `none` is an error. -/
  DecodeBytes : Bytes → Option Tx
  /-- The method `Hash` of a transaction. -/
  Hash : Tx → Hash
  /-- The error of `vc.mempool.Add`, which may depend on everything submitted
  before: `true` when the transaction is rejected. -/
  mempoolRejects : List Tx → Tx → Bool
  /-- The value of `vc.shouldInteractWithNetwork()`. -/
  shouldInteractWithNetwork : Bool
  /-- The value of `vc.secStore.GetAddress()`. -/
  selfAddress : Address
  /-- The value of `vc.appState.State.Epoch()`. -/
  epoch : Nat
  /-- The encoded key of `vc.flipper.GetFlipEncryptionKey()`. -/
  flipKey : Bytes
  /-- The method `vc.secStore.SignFlipKey`; `none` is an error. -/
  SignFlipKey : FlipKey → Option FlipKey

/-- The state that `sendTx` and `broadcastFlipKey` read and write: the flag
`vc.keySent`, the per-epoch store, and the calls made so far to
`vc.keysPool.Add`, `vc.mempool.Add` and `vc.secStore.SignTx`, in order. -/
structure EngineState (Tx : Type) where
  keySent : Bool := false
  epochDb : EpochDb := {}
  keysPool : List FlipKey := []
  submitted : List Tx := []
  signed : List Tx := []

/-- The statements of `sendTx` from `vc.mempool.Add(signedTx)` on. -/
def sendTxSubmit {Tx : Type} (env : TxCollaborators Tx) (s : EngineState Tx) (txType : Nat)
    (signedTx : Tx) : EngineState Tx × Hash × Bool :=
  let err := env.mempoolRejects s.submitted signedTx
  let s := { s with submitted := s.submitted ++ [signedTx] }
  let s :=
    if err then
      if !s.epochDb.HasSuccessfulOwnTx (env.Hash signedTx) then
        { s with epochDb := s.epochDb.RemoveOwnTx txType }
      else s
    else { s with epochDb := s.epochDb.WriteSuccessfulOwnTx (env.Hash signedTx) }
  (s, env.Hash signedTx, err)

/-- The method `sendTx` of `ceremony.go`: the state after the call, the hash
it returns and whether it returns an error.  The zero hash is `0`. -/
def sendTx {Tx : Type} (env : TxCollaborators Tx) (s : EngineState Tx) (txType : Nat)
    (payload : Bytes) : EngineState Tx × Hash × Bool :=
  match s.epochDb.ReadOwnTx txType with
  | some existTx =>
    let signedTx := (env.DecodeBytes existTx).getD env.emptyTx
    sendTxSubmit env s txType signedTx
  | none =>
    let tx := env.BuildTx txType payload
    let s := { s with signed := s.signed ++ [tx] }
    match env.SignTx tx with
    | none => (s, 0, true)
    | some signedTx =>
      let txBytes := env.EncodeToBytes signedTx
      let s := { s with epochDb := s.epochDb.WriteOwnTx txType txBytes }
      sendTxSubmit env s txType signedTx

/-- Later calls of `sendTx` for one transaction kind, one per payload: the
final state and the result of each call. -/
def sendTxAll {Tx : Type} (env : TxCollaborators Tx) (txType : Nat) :
    List Bytes → EngineState Tx → EngineState Tx × List (Hash × Bool)
  | [], s => (s, [])
  | payload :: rest, s =>
    let r := sendTx env s txType payload
    let rs := sendTxAll env txType rest r.1
    (rs.1, (r.2.1, r.2.2) :: rs.2)

/-- The method `shouldBroadcastFlipKey` of `ceremony.go`. -/
def shouldBroadcastFlipKey {Tx : Type} (env : TxCollaborators Tx) (appState : StateDB) : Bool :=
  let identity := appState.GetIdentity env.selfAddress
  decide (identity.Flips.length > 0)

/-- The method `broadcastFlipKey` of `ceremony.go`. -/
def broadcastFlipKey {Tx : Type} (env : TxCollaborators Tx) (appState : StateDB)
    (s : EngineState Tx) : EngineState Tx :=
  if s.keySent || !env.shouldInteractWithNetwork || !shouldBroadcastFlipKey env appState then s
  else
    let msg : FlipKey := { Key := env.flipKey, Epoch := env.epoch }
    match env.SignFlipKey msg with
    | none => s
    | some signedMsg =>
      { s with keysPool := s.keysPool ++ [signedMsg], keySent := true }

/-- Sample collaborators for transactions that are byte strings: signing
appends a byte, the encoding is the identity, the hash is the first byte, and
the mempool rejects everything after the first submission. -/
def testTxEnv : TxCollaborators Bytes :=
  { emptyTx := [],
    BuildTx := fun txType payload => txType :: payload,
    SignTx := fun tx => some (tx ++ [255]),
    EncodeToBytes := fun tx => tx,
    DecodeBytes := fun b => some b,
    Hash := fun tx => tx.headD 0,
    mempoolRejects := fun submitted _ => decide (submitted ≠ []),
    shouldInteractWithNetwork := true,
    selfAddress := 20,
    epoch := 5,
    flipKey := [7],
    SignFlipKey := fun msg => some { msg with Signature := [9] } }

/-- A sample state in which the node, address 20, has made one flip. -/
def testFlipState : StateDB :=
  { identities := fun addr =>
      if addr = 20 then some { State := .Newbie, Flips := [{ Cid := [1] }] } else none }

/-! ## The database `BackedMemDb` -/

/-- A model of a store of the interface `db.DB` of package `tm-db`, which is
outside the repository: the entries of the store in ascending key order.  Keys
are compared as `bytes.Compare` does; the development only uses that this is a
linear order, so the type of keys is any linearly ordered type. -/
structure DB (K V : Type) where
  entries : List (K × V) := []

namespace DB

variable {K V : Type} [LinearOrder K]

/-- The method `Get` of a store: `none` stands for the `nil` of a missing key. -/
def Get (d : DB K V) (key : K) : Option V :=
  (d.entries.find? (fun e => decide (e.1 = key))).map Prod.snd

/-- The method `Has` of a store. -/
def Has (d : DB K V) (key : K) : Bool :=
  (d.Get key).isSome

/-- Insertion into entries in ascending key order; the entry of an existing
key is replaced. -/
def insert : List (K × V) → K → V → List (K × V)
  | [], key, value => [(key, value)]
  | e :: rest, key, value =>
    if key < e.1 then (key, value) :: e :: rest
    else if key = e.1 then (key, value) :: rest
    else e :: insert rest key value

/-- The method `Set` of a store. -/
def Set (d : DB K V) (key : K) (value : V) : DB K V :=
  ⟨insert d.entries key value⟩

/-- The method `Delete` of a store. -/
def Delete (d : DB K V) (key : K) : DB K V :=
  ⟨d.entries.filter (fun e => !decide (e.1 = key))⟩

/-- The domain of an iterator: the keys from `start` on and before `end`,
where `nil`, here `none`, is no bound. -/
def inDomain (start end_ : Option K) (key : K) : Bool :=
  (match start with
    | none => true
    | some s => decide (s ≤ key))
  && (match end_ with
    | none => true
    | some e => decide (key < e))

/-- The method `Iterator` of a store.  An iterator of the interface
`db.Iterator` is the list of the entries it still has to visit: it is valid
when the list is not empty, its key and value are those of the head, and
`Next` drops the head. -/
def Iterator (d : DB K V) (start end_ : Option K) : List (K × V) :=
  d.entries.filter (fun e => inDomain start end_ e.1)

/-- The method `ReverseIterator` of a store. -/
def ReverseIterator (d : DB K V) (start end_ : Option K) : List (K × V) :=
  (d.Iterator start end_).reverse

end DB

/-- The struct `BackedMemDb` of `backed_mem_db.go`. -/
structure BackedMemDb (K V : Type) where
  inner : DB K V := {}
  permanent : DB K V := {}
  touched : GoSet K := {}

/-- The function `NewBackedMemDb` of `backed_mem_db.go`. -/
def NewBackedMemDb {K V : Type} (permanent : DB K V) : BackedMemDb K V :=
  { inner := {}, permanent := permanent, touched := {} }

namespace BackedMemDb

variable {K V : Type} [LinearOrder K]

/-- The method `touch`. -/
def touch (db : BackedMemDb K V) (key : K) : BackedMemDb K V :=
  { db with touched := db.touched.Add key }

/-- The method `Get`. -/
def Get (db : BackedMemDb K V) (key : K) : Option V :=
  if db.touched.Contains key then db.inner.Get key else db.permanent.Get key

/-- The method `Has`. -/
def Has (db : BackedMemDb K V) (key : K) : Bool :=
  if db.touched.Contains key then db.inner.Has key else db.permanent.Has key

/-- The method `Set`. -/
def Set (db : BackedMemDb K V) (key : K) (value : V) : BackedMemDb K V :=
  ({ db with inner := db.inner.Set key value }).touch key

/-- The method `Delete`. -/
def Delete (db : BackedMemDb K V) (key : K) : BackedMemDb K V :=
  ({ db with inner := db.inner.Delete key }).touch key

end BackedMemDb

/-- A call of `Set` or of `Delete`. -/
inductive DbOp (K V : Type) where
  | set (key : K) (value : V)
  | delete (key : K)

/-- The database after a call. -/
def DbOp.apply {K V : Type} [LinearOrder K] (db : BackedMemDb K V) : DbOp K V → BackedMemDb K V
  | .set key value => db.Set key value
  | .delete key => db.Delete key

/-- The database reached from `NewBackedMemDb(permanent)` by a sequence of
calls of `Set` and `Delete`. -/
def reached {K V : Type} [LinearOrder K] (permanent : DB K V) (ops : List (DbOp K V)) :
    BackedMemDb K V :=
  ops.foldl DbOp.apply (NewBackedMemDb permanent)

/-- The struct `iterator` of `backed_mem_db.go`; `none` is a `nil` key or
value. -/
structure iterator (K V : Type) where
  db : BackedMemDb K V
  innerKeys : List K
  permanentIter : List (K × V)
  isReverse : Bool
  valid : Bool
  key : Option K := none
  value : Option V := none
  emptyPermanentIter : Bool := false
  empty : Bool := false

namespace iterator

variable {K V : Type} [LinearOrder K]

/-- The method `takeInnerKey`. -/
def takeInnerKey (it : iterator K V) : iterator K V :=
  match it.innerKeys with
  | [] => { it with valid := false, empty := false }
  | k :: rest =>
    { it with
      key := some k,
      value := it.db.Get k,
      innerKeys := rest,
      empty := rest.isEmpty && it.emptyPermanentIter }

/-- The method `compare`. -/
def compare (it : iterator K V) (key1 key2 : K) : Bool :=
  if it.isReverse then decide (key1 ≥ key2) else decide (key1 ≤ key2)

/-- The method `Valid`. -/
def Valid (it : iterator K V) : Bool := it.valid

/-- The method `nextPermanent`. -/
def nextPermanent (it : iterator K V) : iterator K V :=
  let it := if !it.permanentIter.isEmpty then { it with permanentIter := it.permanentIter.tail }
    else it
  { it with emptyPermanentIter := it.permanentIter.isEmpty }

/-- The loop `for !it.emptyPermanentIter` of the method `Next` and the call of
`takeInnerKey` after it.  Every turn of the loop that does not return advances
the permanent iterator, so `fuel` bounds the number of turns; `none` stands
for a run-time panic (the key of an invalid iterator) or for lack of fuel. -/
def nextLoop : Nat → iterator K V → Option (iterator K V)
  | 0, _ => none
  | fuel + 1, it =>
    if it.emptyPermanentIter then some it.takeInnerKey
    else
      match it.permanentIter with
      | [] => none
      | (permKey, permValue) :: _ =>
        if (match it.innerKeys with
            | innerKey :: _ => it.compare innerKey permKey
            | [] => false) then
          if it.innerKeys.head? = some permKey then some it.nextPermanent.takeInnerKey
          else some it.takeInnerKey
        else if it.db.touched.Contains permKey then nextLoop fuel it.nextPermanent
        else some { it.nextPermanent with key := some permKey, value := some permValue }

/-- The method `Next`. -/
def Next (it : iterator K V) : Option (iterator K V) :=
  if it.empty then some { it with valid := false }
  else nextLoop (it.permanentIter.length + 1) it

/-- The method `Key`. -/
def Key (it : iterator K V) : Option K := it.key

/-- The method `Value`. -/
def Value (it : iterator K V) : Option V := it.value

/-- The loop `for ; it.Valid(); it.Next()` that reads key and value of every
position: what the iterator yields.  `fuel` bounds the number of positions;
`none` stands for a run-time panic or for lack of fuel. -/
def collect : Nat → iterator K V → Option (List (Option K × Option V))
  | 0, _ => none
  | fuel + 1, it =>
    if it.Valid then
      match it.Next with
      | none => none
      | some next => (collect fuel next).map (fun rest => (it.Key, it.Value) :: rest)
    else some []

end iterator

/-- The function `newIterator` of `backed_mem_db.go`. -/
def newIterator {K V : Type} [LinearOrder K] (db : BackedMemDb K V) (innerKeys : List K)
    (permanentIter : List (K × V)) (isReverse : Bool) : Option (iterator K V) :=
  let it : iterator K V :=
    { db := db, innerKeys := innerKeys, permanentIter := permanentIter,
      isReverse := isReverse, valid := true }
  let it := { it with emptyPermanentIter := permanentIter.isEmpty }
  it.Next

/-- The method `Iterator` of `BackedMemDb`. -/
def BackedMemDb.Iterator {K V : Type} [LinearOrder K] (db : BackedMemDb K V)
    (start end_ : Option K) : Option (iterator K V) :=
  let innerKeys := (db.inner.Iterator start end_).map Prod.fst
  newIterator db innerKeys (db.permanent.Iterator start end_) false

/-- The method `ReverseIterator` of `BackedMemDb`. -/
def BackedMemDb.ReverseIterator {K V : Type} [LinearOrder K] (db : BackedMemDb K V)
    (start end_ : Option K) : Option (iterator K V) :=
  let innerKeys := (db.inner.ReverseIterator start end_).map Prod.fst
  newIterator db innerKeys (db.permanent.ReverseIterator start end_) true

/-- The entries that an iterator yields from a position on, as a function of
the inner keys and of the permanent entries that it still has to visit: the
merge that the method `Next` carries out one step at a time.  `cmp` is the
comparison of the method `compare`, `touched` the test of the set `touched`
and `get` the method `Get` of the database. -/
def mergeEntries {K V : Type} [DecidableEq K] (cmp : K → K → Bool) (touched : K → Bool)
    (get : K → Option V) : List K → List (K × V) → List (K × Option V)
  | [], [] => []
  | innerKey :: innerKeys, [] =>
    (innerKey, get innerKey) :: mergeEntries cmp touched get innerKeys []
  | [], (permKey, permValue) :: perm =>
    if touched permKey then mergeEntries cmp touched get [] perm
    else (permKey, some permValue) :: mergeEntries cmp touched get [] perm
  | innerKey :: innerKeys, (permKey, permValue) :: perm =>
    if cmp innerKey permKey then
      if innerKey = permKey then
        (innerKey, get innerKey) :: mergeEntries cmp touched get innerKeys perm
      else
        (innerKey, get innerKey) ::
          mergeEntries cmp touched get innerKeys ((permKey, permValue) :: perm)
    else if touched permKey then mergeEntries cmp touched get (innerKey :: innerKeys) perm
    else (permKey, some permValue) :: mergeEntries cmp touched get (innerKey :: innerKeys) perm
termination_by innerKeys perm => innerKeys.length + perm.length

/-- The entries that the iterator `it` yields after its current position. -/
def iterator.remaining {K V : Type} [LinearOrder K] (it : iterator K V) :
    List (K × Option V) :=
  mergeEntries
    (fun key1 key2 => if it.isReverse then decide (key1 ≥ key2) else decide (key1 ≤ key2))
    it.db.touched.Contains it.db.Get it.innerKeys it.permanentIter

/-- A sample permanent store with keys `[1]`, `[3]` and `[5]`. -/
def testPermanent : DB Bytes Bytes :=
  ⟨[([1], [10]), ([3], [30]), ([5], [50])]⟩

/-- Sample calls: a new key, a deleted permanent key, an overwritten permanent
key, and a key that is set and deleted again. -/
def testOps : List (DbOp Bytes Bytes) :=
  [.set [2] [20], .delete [3], .set [5] [55], .set [7] [70], .delete [7], .set [0, 1] [1]]

/-! ## Lemmas on Go maps -/

namespace GoMap

variable {K V : Type} [DecidableEq K]

theorem find?_setList (l : List (K × V)) (k k' : K) (v : V) :
    (setList l k v).find? (fun p => decide (p.1 = k')) =
      if k = k' then some (k, v) else l.find? (fun p => decide (p.1 = k')) := by
  induction l with
  | nil =>
    by_cases h : k = k' <;> simp [setList, h]
  | cons p rest ih =>
    by_cases hp : p.1 = k
    · by_cases h : k = k'
      · simp [setList, hp, h]
      · have hp' : ¬ p.1 = k' := by rw [hp]; exact h
        simp [setList, hp, h, hp']
    · by_cases hp' : p.1 = k'
      · have h : ¬ k = k' := by rw [← hp']; exact fun e => hp e.symm
        have h' : ¬ k' = k := fun e => h e.symm
        simp [setList, hp', h, h']
      · simp [setList, hp, hp', ih]

theorem get?_set (m : GoMap K V) (k k' : K) (v : V) :
    (m.set k v).get? k' = if k = k' then some v else m.get? k' := by
  unfold get? set
  rw [find?_setList]
  by_cases h : k = k' <;> simp [h]

theorem get?_empty (k : K) : (({} : GoMap K V)).get? k = none := rfl

theorem contains_set (m : GoMap K V) (k k' : K) (v : V) :
    (m.set k v).contains k' = (decide (k = k') || m.contains k') := by
  unfold contains
  rw [get?_set]
  by_cases h : k = k' <;> simp [h]

theorem keys_setList (l : List (K × V)) (k : K) (v : V) :
    (setList l k v).map Prod.fst =
      if k ∈ l.map Prod.fst then l.map Prod.fst else l.map Prod.fst ++ [k] := by
  induction l with
  | nil => simp [setList]
  | cons p rest ih =>
    by_cases hp : p.1 = k
    · simp [setList, hp]
    · have hp' : ¬ k = p.1 := fun e => hp e.symm
      by_cases hmem : k ∈ rest.map Prod.fst
      · rw [if_pos hmem] at ih
        have hmem' : ∃ x, (k, x) ∈ rest := by simpa using hmem
        simp [setList, hp, hp', ih, hmem']
      · rw [if_neg hmem] at ih
        have hmem' : ¬ ∃ x, (k, x) ∈ rest := by simpa using hmem
        simp [setList, hp, hp', ih, hmem']

theorem nodup_keys_set (m : GoMap K V) (k : K) (v : V) (h : m.keys.Nodup) :
    (m.set k v).keys.Nodup := by
  unfold keys set at *
  rw [keys_setList]
  by_cases hmem : k ∈ m.entries.map Prod.fst
  · rw [if_pos hmem]; exact h
  · rw [if_neg hmem]
    rw [List.nodup_append]
    refine ⟨h, List.nodup_singleton k, ?_⟩
    intro a ha hb
    rw [List.mem_singleton] at hb
    subst hb
    exact hmem ha

theorem get?_of_mem (l : List (K × V)) (hl : (l.map Prod.fst).Nodup) (k : K) (v : V)
    (hmem : (k, v) ∈ l) :
    (l.find? (fun p => decide (p.1 = k))).map Prod.snd = some v := by
  induction l with
  | nil => simp at hmem
  | cons p rest ih =>
    rw [List.map_cons, List.nodup_cons] at hl
    rcases List.mem_cons.mp hmem with h | h
    · subst h
      simp
    · have hne : ¬ p.1 = k := by
        intro e
        apply hl.1
        rw [e]
        exact List.mem_map.mpr ⟨(k, v), h, rfl⟩
      simp only [List.find?_cons, hne, decide_False]
      exact ih hl.2 h

theorem mem_of_get? (l : List (K × V)) (k : K) (v : V)
    (h : (l.find? (fun p => decide (p.1 = k))).map Prod.snd = some v) : (k, v) ∈ l := by
  rw [Option.map_eq_some'] at h
  obtain ⟨p, hp, hv⟩ := h
  have h1 := List.mem_of_find?_eq_some hp
  have h2 := List.find?_some hp
  simp only [decide_eq_true_eq] at h2
  have : p = (k, v) := by
    cases p
    simp_all
  rw [← this]
  exact h1

theorem find?_filter_ne (l : List (K × V)) (k k' : K) (h : ¬ k = k') :
    (l.filter (fun p => !decide (p.1 = k))).find? (fun p => decide (p.1 = k')) =
      l.find? (fun p => decide (p.1 = k')) := by
  induction l with
  | nil => rfl
  | cons p rest ih =>
    by_cases hp : p.1 = k
    · have hp' : ¬ p.1 = k' := by rw [hp]; exact h
      rw [List.filter_cons, List.find?_cons]
      simp only [hp, h, decide_True, decide_False, Bool.not_true, Bool.false_eq_true,
        if_false]
      exact ih
    · rw [List.filter_cons]
      simp only [hp, decide_False, Bool.not_false, if_true]
      rw [List.find?_cons, List.find?_cons, ih]

theorem get?_delete (m : GoMap K V) (k k' : K) :
    (m.delete k).get? k' = if k = k' then none else m.get? k' := by
  unfold get? delete
  by_cases h : k = k'
  · subst h
    rw [if_pos rfl, Option.map_eq_none', List.find?_eq_none]
    intro p hp
    have := (List.mem_filter.mp hp).2
    simpa using this
  · rw [if_neg h, find?_filter_ne _ _ _ h]

theorem setList_ne_nil (l : List (K × V)) (k : K) (v : V) : setList l k v ≠ [] := by
  cases l with
  | nil => simp [setList]
  | cons p rest =>
    rw [setList]
    split <;> simp

theorem setList_of_not_mem (l : List (K × V)) (k : K) (v : V)
    (h : k ∉ l.map Prod.fst) : setList l k v = l ++ [(k, v)] := by
  induction l with
  | nil => rfl
  | cons p rest ih =>
    rw [List.map_cons, List.mem_cons, not_or] at h
    rw [setList, if_neg (fun e => h.1 e.symm), ih h.2]
    rfl

theorem mem_keys_set (m : GoMap K V) (k k' : K) (v : V) :
    k' ∈ (m.set k v).keys ↔ k' ∈ m.keys ∨ k' = k := by
  unfold keys set
  rw [keys_setList]
  by_cases hmem : k ∈ m.entries.map Prod.fst
  · rw [if_pos hmem]
    constructor
    · intro h
      exact Or.inl h
    · rintro (h | h)
      · exact h
      · rw [h]; exact hmem
  · rw [if_neg hmem]
    simp

theorem contains_iff_mem_keys (m : GoMap K V) (k : K) :
    m.contains k = true ↔ k ∈ m.keys := by
  unfold contains get? keys
  constructor
  · intro h
    rw [Option.isSome_iff_exists] at h
    obtain ⟨v, hv⟩ := h
    have := mem_of_get? m.entries k v hv
    exact List.mem_map.mpr ⟨(k, v), this, rfl⟩
  · intro h
    obtain ⟨p, hp, hk⟩ := List.mem_map.mp h
    rw [Option.isSome_map', List.find?_isSome]
    exact ⟨p, hp, by simp [hk]⟩

end GoMap

/-! ## Lemmas on the loops of `analizeAuthors` -/

theorem analizeAuthorsLoop_eq_foldl (rlpHash : Bytes → Hash) (vc : ValidationCeremony)
    (quals : List FlipQualification) :
    ∀ (i : Nat) (acc : AuthorsAcc), quals.length + i ≤ vc.flips.length →
      analizeAuthorsLoop rlpHash vc i quals acc =
        some ((quals.zip (vc.flips.drop i)).foldl
          (fun acc p => analizeAuthorsBody acc (flipAuthor rlpHash vc p.2) p.1) acc) := by
  induction quals with
  | nil => intro i acc _; simp [analizeAuthorsLoop]
  | cons item rest ih =>
    intro i acc hlen
    have hi : i < vc.flips.length := by
      simp only [List.length_cons] at hlen
      omega
    have hrest : rest.length + (i + 1) ≤ vc.flips.length := by
      simp only [List.length_cons] at hlen
      omega
    rw [analizeAuthorsLoop, List.getElem?_eq_getElem hi]
    simp only
    rw [ih (i + 1) _ hrest, List.drop_eq_getElem_cons hi]
    rfl

theorem analizeAuthorsBody_badAuthors (acc : AuthorsAcc) (author : Address)
    (item : FlipQualification) :
    (analizeAuthorsBody acc author item).badAuthors =
      if item.wrongWords || decide (item.status = QualifiedByNone)
          || decide (item.answer = Answer.Inappropriate) then
        acc.badAuthors.set author ()
      else acc.badAuthors := rfl

theorem analizeAuthorsBody_madeFlips (acc : AuthorsAcc) (author : Address)
    (item : FlipQualification) :
    (analizeAuthorsBody acc author item).madeFlips =
      acc.madeFlips.set author ((acc.madeFlips.get? author).getD 0 + 1) := rfl

theorem analizeAuthorsBody_nonQualifiedFlips (acc : AuthorsAcc) (author : Address)
    (item : FlipQualification) :
    (analizeAuthorsBody acc author item).nonQualifiedFlips =
      if item.status = NotQualified then
        acc.nonQualifiedFlips.set author ((acc.nonQualifiedFlips.get? author).getD 0 + 1)
      else acc.nonQualifiedFlips := rfl

theorem authored_append (rlpHash : Bytes → Hash) (vc : ValidationCeremony)
    (ps : List (FlipQualification × Bytes)) (p : FlipQualification × Bytes) (a : Address) :
    ((ps ++ [p]).filter (fun p => decide (flipAuthor rlpHash vc p.2 = a))).map Prod.fst =
      (ps.filter (fun p => decide (flipAuthor rlpHash vc p.2 = a))).map Prod.fst
        ++ (if flipAuthor rlpHash vc p.2 = a then [p.1] else []) := by
  by_cases ha : flipAuthor rlpHash vc p.2 = a <;> simp [List.filter_append, ha]

/-- After the first loop an author is marked bad exactly when one of its
flips has wrong words, is qualified by none or is reported inappropriate. -/
theorem fold_badAuthors (rlpHash : Bytes → Hash) (vc : ValidationCeremony)
    (ps : List (FlipQualification × Bytes)) (a : Address) :
    (ps.foldl (fun acc p => analizeAuthorsBody acc (flipAuthor rlpHash vc p.2) p.1)
        {}).badAuthors.contains a = true ↔
      ∃ q ∈ (ps.filter (fun p => decide (flipAuthor rlpHash vc p.2 = a))).map Prod.fst,
        q.wrongWords = true ∨ q.status = QualifiedByNone ∨ q.answer = Answer.Inappropriate := by
  induction ps using List.reverseRecOn with
  | nil => simp [GoMap.contains, GoMap.get?]
  | append_singleton ps p ih =>
    rw [List.foldl_append, List.foldl_cons, List.foldl_nil, analizeAuthorsBody_badAuthors]
    by_cases hb : (p.1.wrongWords || decide (p.1.status = QualifiedByNone)
        || decide (p.1.answer = Answer.Inappropriate)) = true
    · rw [if_pos hb, GoMap.contains_set, Bool.or_eq_true, ih]
      have hb' : p.1.wrongWords = true ∨ p.1.status = QualifiedByNone
          ∨ p.1.answer = Answer.Inappropriate := by
        simpa [or_assoc] using hb
      by_cases ha : flipAuthor rlpHash vc p.2 = a
      · simp only [List.filter_append, List.map_append, List.mem_append, ha, decide_True,
          List.filter_cons, List.filter_nil, if_true, List.map_cons, List.map_nil,
          List.mem_singleton]
        constructor
        · intro _
          exact ⟨p.1, Or.inr rfl, hb'⟩
        · intro _
          exact Or.inl trivial
      · simp [List.filter_append, ha]
    · rw [if_neg hb, ih]
      have hb' : ¬ (p.1.wrongWords = true ∨ p.1.status = QualifiedByNone
          ∨ p.1.answer = Answer.Inappropriate) := by
        simpa [or_assoc] using hb
      by_cases ha : flipAuthor rlpHash vc p.2 = a
      · simp only [List.filter_append, List.map_append, List.mem_append, ha, decide_True,
          List.filter_cons, List.filter_nil, if_true, List.map_cons, List.map_nil,
          List.mem_singleton]
        constructor
        · rintro ⟨q, hq, hc⟩
          exact ⟨q, Or.inl hq, hc⟩
        · rintro ⟨q, hq | hq, hc⟩
          · exact ⟨q, hq, hc⟩
          · subst hq
            exact absurd hc hb'
      · simp [List.filter_append, ha]

/-- After the first loop `madeFlips` counts the flips of every author. -/
theorem fold_madeFlips (rlpHash : Bytes → Hash) (vc : ValidationCeremony)
    (ps : List (FlipQualification × Bytes)) (a : Address) :
    ((ps.foldl (fun acc p => analizeAuthorsBody acc (flipAuthor rlpHash vc p.2) p.1)
        {}).madeFlips.get? a).getD 0 =
      ((ps.filter (fun p => decide (flipAuthor rlpHash vc p.2 = a))).map Prod.fst).length := by
  induction ps using List.reverseRecOn with
  | nil => simp [GoMap.get?]
  | append_singleton ps p ih =>
    rw [List.foldl_append, List.foldl_cons, List.foldl_nil, analizeAuthorsBody_madeFlips,
      GoMap.get?_set]
    by_cases ha : flipAuthor rlpHash vc p.2 = a
    · rw [if_pos ha, ha, Option.getD_some, ih]
      simp [List.filter_append, ha]
    · rw [if_neg ha, ih]
      simp [List.filter_append, ha]

/-- After the first loop `nonQualifiedFlips` has an entry exactly for the
authors with a not qualified flip, and the entry counts those flips. -/
theorem fold_nonQualifiedFlips (rlpHash : Bytes → Hash) (vc : ValidationCeremony)
    (ps : List (FlipQualification × Bytes)) (a : Address) :
    (ps.foldl (fun acc p => analizeAuthorsBody acc (flipAuthor rlpHash vc p.2) p.1)
        {}).nonQualifiedFlips.get? a =
      if (((ps.filter (fun p => decide (flipAuthor rlpHash vc p.2 = a))).map Prod.fst).countP
          (fun q => decide (q.status = NotQualified))) = 0 then none
      else some (((ps.filter (fun p => decide (flipAuthor rlpHash vc p.2 = a))).map
          Prod.fst).countP (fun q => decide (q.status = NotQualified))) := by
  induction ps using List.reverseRecOn with
  | nil => simp [GoMap.get?]
  | append_singleton ps p ih =>
    rw [List.foldl_append, List.foldl_cons, List.foldl_nil,
      analizeAuthorsBody_nonQualifiedFlips, authored_append, List.countP_append]
    generalize ((ps.filter (fun p => decide (flipAuthor rlpHash vc p.2 = a))).map
      Prod.fst).countP (fun q => decide (q.status = NotQualified)) = c at ih ⊢
    by_cases hs : p.1.status = NotQualified
    · rw [if_pos hs, GoMap.get?_set]
      by_cases ha : flipAuthor rlpHash vc p.2 = a
      · rw [if_pos ha, if_pos ha, ha, ih]
        have h1 : List.countP (fun q => decide (q.status = NotQualified)) [p.1] = 1 := by
          simp [hs]
        rw [h1]
        by_cases hc : c = 0
        · simp [hc]
        · simp [hc]
      · rw [if_neg ha, if_neg ha, ih]
        simp
    · rw [if_neg hs, ih]
      have h0 : List.countP (fun q => decide (q.status = NotQualified))
          (if flipAuthor rlpHash vc p.2 = a then [p.1] else []) = 0 := by
        by_cases ha : flipAuthor rlpHash vc p.2 = a <;> simp [ha, hs]
      rw [h0]
      simp

theorem fold_nonQualifiedFlips_nodup (rlpHash : Bytes → Hash) (vc : ValidationCeremony)
    (ps : List (FlipQualification × Bytes)) :
    (ps.foldl (fun acc p => analizeAuthorsBody acc (flipAuthor rlpHash vc p.2) p.1)
        {}).nonQualifiedFlips.keys.Nodup := by
  induction ps using List.reverseRecOn with
  | nil => simp [GoMap.keys]
  | append_singleton ps p ih =>
    rw [List.foldl_append, List.foldl_cons, List.foldl_nil,
      analizeAuthorsBody_nonQualifiedFlips]
    split
    · exact GoMap.nodup_keys_set _ _ _ ih
    · exact ih

/-- The second loop adds to the bad authors the keys of the visited entries
whose count equals the number of flips made. -/
theorem markNonQualified_contains (madeFlips : GoMap Address Nat)
    (entries : List (Address × Nat)) :
    ∀ (badAuthors : GoMap Address Unit) (a : Address),
      (markNonQualified madeFlips entries badAuthors).contains a = true ↔
        badAuthors.contains a = true
          ∨ ∃ n, (a, n) ∈ entries ∧ (madeFlips.get? a).getD 0 = n := by
  induction entries with
  | nil => intro badAuthors a; simp [markNonQualified]
  | cons e rest ih =>
    intro badAuthors a
    obtain ⟨author, nonQual⟩ := e
    rw [markNonQualified, ih]
    by_cases hc : (madeFlips.get? author).getD 0 = nonQual
    · rw [if_pos hc, GoMap.contains_set]
      constructor
      · rintro (h | ⟨n, hn, hm⟩)
        · rw [Bool.or_eq_true, decide_eq_true_eq] at h
          rcases h with h | h
          · subst h
            exact Or.inr ⟨nonQual, List.mem_cons_self _ _, hc⟩
          · exact Or.inl h
        · exact Or.inr ⟨n, List.mem_cons_of_mem _ hn, hm⟩
      · rintro (h | ⟨n, hn, hm⟩)
        · left
          rw [Bool.or_eq_true]
          exact Or.inr h
        · rcases List.mem_cons.mp hn with h | h
          · left
            rw [Bool.or_eq_true, decide_eq_true_eq]
            left
            exact (Prod.mk.inj h).1.symm
          · exact Or.inr ⟨n, h, hm⟩
    · rw [if_neg hc]
      constructor
      · rintro (h | ⟨n, hn, hm⟩)
        · exact Or.inl h
        · exact Or.inr ⟨n, List.mem_cons_of_mem _ hn, hm⟩
      · rintro (h | ⟨n, hn, hm⟩)
        · exact Or.inl h
        · rcases List.mem_cons.mp hn with h | h
          · have h1 := (Prod.mk.inj h).1
            have h2 := (Prod.mk.inj h).2
            subst h1
            subst h2
            exact absurd hm hc
          · exact Or.inr ⟨n, h, hm⟩

theorem analizeAuthorsBody_goodAuthors (acc : AuthorsAcc) (author : Address)
    (item : FlipQualification) :
    (analizeAuthorsBody acc author item).goodAuthors =
      if item.status = Qualified ∨ item.status = WeaklyQualified then
        if item.status = Qualified then
          acc.goodAuthors.set author
            { (match acc.goodAuthors.get? author with
                | some vr => vr
                | none => {}) with
              StrongFlips := (match acc.goodAuthors.get? author with
                | some vr => vr
                | none => {}).StrongFlips + 1 }
        else
          acc.goodAuthors.set author
            { (match acc.goodAuthors.get? author with
                | some vr => vr
                | none => {}) with
              WeakFlips := (match acc.goodAuthors.get? author with
                | some vr => vr
                | none => {}).WeakFlips + 1 }
      else acc.goodAuthors := rfl

/-- After the first loop `goodAuthors` has an entry exactly for the authors
with a qualified or weakly qualified flip; the entry counts the flips of
either kind and has no successful invites. -/
theorem fold_goodAuthors (rlpHash : Bytes → Hash) (vc : ValidationCeremony)
    (ps : List (FlipQualification × Bytes)) (a : Address) :
    (ps.foldl (fun acc p => analizeAuthorsBody acc (flipAuthor rlpHash vc p.2) p.1)
        {}).goodAuthors.get? a =
      if (((ps.filter (fun p => decide (flipAuthor rlpHash vc p.2 = a))).map Prod.fst).countP
            (fun q => decide (q.status = Qualified)))
          + (((ps.filter (fun p => decide (flipAuthor rlpHash vc p.2 = a))).map Prod.fst).countP
            (fun q => decide (q.status = WeaklyQualified))) = 0 then none
      else some
        { StrongFlips :=
            ((ps.filter (fun p => decide (flipAuthor rlpHash vc p.2 = a))).map Prod.fst).countP
              (fun q => decide (q.status = Qualified)),
          WeakFlips :=
            ((ps.filter (fun p => decide (flipAuthor rlpHash vc p.2 = a))).map Prod.fst).countP
              (fun q => decide (q.status = WeaklyQualified)),
          SuccessfulInvites := 0 } := by
  induction ps using List.reverseRecOn with
  | nil => simp [GoMap.get?]
  | append_singleton ps p ih =>
    rw [List.foldl_append, List.foldl_cons, List.foldl_nil,
      analizeAuthorsBody_goodAuthors, authored_append, List.countP_append, List.countP_append]
    generalize ((ps.filter (fun p => decide (flipAuthor rlpHash vc p.2 = a))).map
      Prod.fst).countP (fun q => decide (q.status = Qualified)) = cq at ih ⊢
    generalize ((ps.filter (fun p => decide (flipAuthor rlpHash vc p.2 = a))).map
      Prod.fst).countP (fun q => decide (q.status = WeaklyQualified)) = cw at ih ⊢
    by_cases ha : flipAuthor rlpHash vc p.2 = a
    · rw [if_pos ha, ha]
      by_cases hq : p.1.status = Qualified
      · have hw : ¬ p.1.status = WeaklyQualified := by
          rw [hq]; decide
        rw [if_pos (Or.inl hq), if_pos hq, GoMap.get?_set, if_pos rfl, ih]
        have h1 : List.countP (fun q => decide (q.status = Qualified)) [p.1] = 1 := by
          simp [hq]
        have h2 : List.countP (fun q => decide (q.status = WeaklyQualified)) [p.1] = 0 := by
          simp [hw]
        rw [h1, h2]
        by_cases hc : cq + cw = 0
        · have hcq : cq = 0 := by omega
          have hcw : cw = 0 := by omega
          simp [hcq, hcw]
        · have hc' : ¬ (cq + 1 + (cw + 0) = 0) := by omega
          simp [hc, hc']
      · by_cases hw : p.1.status = WeaklyQualified
        · rw [if_pos (Or.inr hw), if_neg hq, GoMap.get?_set, if_pos rfl, ih]
          have h1 : List.countP (fun q => decide (q.status = Qualified)) [p.1] = 0 := by
            simp [hq]
          have h2 : List.countP (fun q => decide (q.status = WeaklyQualified)) [p.1] = 1 := by
            simp [hw]
          rw [h1, h2]
          by_cases hc : cq + cw = 0
          · have hcq : cq = 0 := by omega
            have hcw : cw = 0 := by omega
            simp [hcq, hcw]
          · have hc' : ¬ (cq + 0 + (cw + 1) = 0) := by omega
            simp [hc, hc']
        · have hn : ¬ (p.1.status = Qualified ∨ p.1.status = WeaklyQualified) := by
            rintro (h | h)
            · exact hq h
            · exact hw h
          rw [if_neg hn, ih]
          have h1 : List.countP (fun q => decide (q.status = Qualified)) [p.1] = 0 := by
            simp [hq]
          have h2 : List.countP (fun q => decide (q.status = WeaklyQualified)) [p.1] = 0 := by
            simp [hw]
          rw [h1, h2]
          simp
    · rw [if_neg ha]
      generalize List.foldl (fun acc p => analizeAuthorsBody acc (flipAuthor rlpHash vc p.2) p.1)
        {} ps = acc at ih ⊢
      have hfin : acc.goodAuthors.get? a =
          if cq + 0 + (cw + 0) = 0 then none
          else some { StrongFlips := cq + 0, WeakFlips := cw + 0, SuccessfulInvites := 0 } := by
        rw [ih]
        simp
      simp only [List.countP_nil]
      split
      · split
        · rw [GoMap.get?_set, if_neg ha, hfin]
        · rw [GoMap.get?_set, if_neg ha, hfin]
      · exact hfin

/-- The third loop removes exactly the visited authors. -/
theorem deleteBad_get? (authors : List Address) :
    ∀ (goodAuthors : GoMap Address ValidationResult) (a : Address),
      (deleteBad authors goodAuthors).get? a =
        if a ∈ authors then none else goodAuthors.get? a := by
  induction authors with
  | nil => intro goodAuthors a; simp [deleteBad]
  | cons b rest ih =>
    intro goodAuthors a
    rw [deleteBad, ih, GoMap.get?_delete]
    by_cases h1 : a ∈ rest
    · simp [h1]
    · by_cases h2 : b = a
      · simp [h2]
      · have h3 : ¬ a = b := fun e => h2 e.symm
        simp [h1, h2, h3]

/-! ## Lemmas on sets and on the loops of `getNotApprovedFlips` -/

theorem GoSet.mem_Add {α : Type} [DecidableEq α] (s : GoSet α) (x y : α) :
    y ∈ (s.Add x).elems ↔ y ∈ s.elems ∨ y = x := by
  unfold GoSet.Add
  by_cases h : x ∈ s.elems
  · rw [if_pos h]
    constructor
    · intro hy
      exact Or.inl hy
    · rintro (hy | hy)
      · exact hy
      · rw [hy]; exact h
  · rw [if_neg h]
    simp

theorem GoSet.nodup_Add {α : Type} [DecidableEq α] (s : GoSet α) (x : α)
    (hs : s.elems.Nodup) : (s.Add x).elems.Nodup := by
  unfold GoSet.Add
  by_cases h : x ∈ s.elems
  · rw [if_pos h]; exact hs
  · rw [if_neg h]
    rw [List.nodup_append]
    refine ⟨hs, List.nodup_singleton x, ?_⟩
    intro a ha hb
    rw [List.mem_singleton] at hb
    subst hb
    exact h ha

theorem addFlipPositions_mem (flips : List Bytes) (fs : List Bytes) :
    ∀ (result : GoSet Int) (x : Int),
      x ∈ (addFlipPositions flips fs result).elems ↔
        x ∈ result.elems ∨ ∃ f ∈ fs, flipPos flips f = x := by
  induction fs with
  | nil => intro result x; simp [addFlipPositions]
  | cons f rest ih =>
    intro result x
    rw [addFlipPositions, ih, GoSet.mem_Add]
    constructor
    · rintro ((h | h) | ⟨g, hg, hx⟩)
      · exact Or.inl h
      · exact Or.inr ⟨f, List.mem_cons_self _ _, h.symm⟩
      · exact Or.inr ⟨g, List.mem_cons_of_mem _ hg, hx⟩
    · rintro (h | ⟨g, hg, hx⟩)
      · exact Or.inl (Or.inl h)
      · rcases List.mem_cons.mp hg with h | h
        · subst h
          exact Or.inl (Or.inr hx.symm)
        · exact Or.inr ⟨g, h, hx⟩

theorem addFlipPositions_nodup (flips : List Bytes) (fs : List Bytes) :
    ∀ (result : GoSet Int), result.elems.Nodup →
      (addFlipPositions flips fs result).elems.Nodup := by
  induction fs with
  | nil => intro result h; exact h
  | cons f rest ih =>
    intro result h
    rw [addFlipPositions]
    exact ih _ (GoSet.nodup_Add _ _ h)

theorem getNotApprovedFlipsLoop_mem (requiredFlips : Address → Nat) (vc : ValidationCeremony)
    (approvedCandidates : GoSet Address) (cs : List candidate) :
    ∀ (i : Nat) (result : GoSet Int) (x : Int),
      x ∈ (getNotApprovedFlipsLoop requiredFlips vc approvedCandidates i cs result).elems ↔
        x ∈ result.elems ∨ ∃ (j : Nat) (c : candidate) (f : Bytes),
          cs[j]? = some c ∧ approvedCandidates.Contains c.Address = false
            ∧ 0 < requiredFlips c.Address
            ∧ f ∈ (vc.flipsPerAuthor.get? (i + j)).getD [] ∧ flipPos vc.flips f = x := by
  induction cs with
  | nil => intro i result x; simp [getNotApprovedFlipsLoop]
  | cons c rest ih =>
    intro i result x
    rw [getNotApprovedFlipsLoop, ih]
    constructor
    · rintro (h | ⟨j, c', f, hj, ha, hr, hf, hx⟩)
      · by_cases hcond : (!approvedCandidates.Contains c.Address
            && decide (requiredFlips c.Address > 0)) = true
        · rw [if_pos hcond, addFlipPositions_mem] at h
          rcases h with h | ⟨f, hf, hx⟩
          · exact Or.inl h
          · simp only [Bool.and_eq_true, Bool.not_eq_true', decide_eq_true_eq] at hcond
            exact Or.inr ⟨0, c, f, by simp, hcond.1, hcond.2, by simpa using hf, hx⟩
        · rw [if_neg hcond] at h
          exact Or.inl h
      · refine Or.inr ⟨j + 1, c', f, by simpa using hj, ha, hr, ?_, hx⟩
        have : i + (j + 1) = i + 1 + j := by omega
        rw [this]
        exact hf
    · rintro (h | ⟨j, c', f, hj, ha, hr, hf, hx⟩)
      · left
        split
        · rw [addFlipPositions_mem]
          exact Or.inl h
        · exact h
      · cases j with
        | zero =>
          have hc : c = c' := by simpa using hj
          subst hc
          left
          have hcond : (!approvedCandidates.Contains c.Address
              && decide (requiredFlips c.Address > 0)) = true := by
            simp [ha, hr]
          rw [if_pos hcond, addFlipPositions_mem]
          exact Or.inr ⟨f, by simpa using hf, hx⟩
        | succ j =>
          refine Or.inr ⟨j, c', f, by simpa using hj, ha, hr, ?_, hx⟩
          have : i + 1 + j = i + (j + 1) := by omega
          rw [this]
          exact hf

theorem getNotApprovedFlipsLoop_nodup (requiredFlips : Address → Nat)
    (vc : ValidationCeremony) (approvedCandidates : GoSet Address) (cs : List candidate) :
    ∀ (i : Nat) (result : GoSet Int), result.elems.Nodup →
      (getNotApprovedFlipsLoop requiredFlips vc approvedCandidates i cs result).elems.Nodup := by
  induction cs with
  | nil => intro i result h; exact h
  | cons c rest ih =>
    intro i result h
    rw [getNotApprovedFlipsLoop]
    apply ih
    split
    · exact addFlipPositions_nodup _ _ _ h
    · exact h

/-! ## Lemmas on the loops of `getFlipsToSolve` -/

theorem solveFlips_spec (allFlips : List Bytes) (hne : allFlips ≠ []) (myFlips : List Int)
    (hnonneg : ∀ idx ∈ myFlips, 0 ≤ idx) :
    ∃ result, solveFlips allFlips myFlips = some result ∧
      result.map some =
        myFlips.map (fun idx => allFlips[(idx % (allFlips.length : Int)).toNat]?) := by
  induction myFlips with
  | nil => exact ⟨[], rfl, rfl⟩
  | cons idx rest ih =>
    obtain ⟨r, hr, hmap⟩ := ih (fun i hi => hnonneg i (List.mem_cons_of_mem _ hi))
    have hidx : 0 ≤ idx := hnonneg idx (List.mem_cons_self _ _)
    have hlen : 0 < allFlips.length := List.length_pos.mpr hne
    have hlen' : (0 : Int) < (allFlips.length : Int) := by exact_mod_cast hlen
    have hmod : Int.tmod idx (allFlips.length : Int) = idx % (allFlips.length : Int) :=
      Int.tmod_eq_emod hidx (le_of_lt hlen')
    have h0 : 0 ≤ idx % (allFlips.length : Int) := Int.emod_nonneg _ (ne_of_gt hlen')
    have h1 : idx % (allFlips.length : Int) < (allFlips.length : Int) :=
      Int.emod_lt_of_pos _ hlen'
    have h2 : (idx % (allFlips.length : Int)).toNat < allFlips.length :=
      (Int.toNat_lt h0).mpr h1
    refine ⟨allFlips[(idx % (allFlips.length : Int)).toNat] :: r, ?_, ?_⟩
    · rw [solveFlips, if_neg (by omega), hmod, if_neg (by omega),
        List.getElem?_eq_getElem h2, hr]
      rfl
    · rw [List.map_cons, List.map_cons, hmap, List.getElem?_eq_getElem h2]

theorem getFlipsToSolveFrom_first (self : Address) (flipsPerCandidate : List (List Int))
    (flipCids : List Bytes) (ps : List candidate) :
    ∀ (k i : Nat) (c : candidate), ps[i]? = some c → c.Address = self →
      (∀ (j : Nat) (c' : candidate), j < i → ps[j]? = some c' → c'.Address ≠ self) →
      getFlipsToSolveFrom self flipsPerCandidate flipCids k ps =
        match flipsPerCandidate[k + i]? with
        | none => none
        | some myFlips => solveFlips flipCids myFlips := by
  induction ps with
  | nil => intro k i c hi; simp at hi
  | cons p rest ih =>
    intro k i c hi hc hfirst
    cases i with
    | zero =>
      have hp : p = c := by simpa using hi
      subst hp
      rw [getFlipsToSolveFrom, if_pos hc]
      rfl
    | succ i =>
      have hp : p.Address ≠ self := hfirst 0 p (by omega) (by simp)
      rw [getFlipsToSolveFrom, if_neg hp,
        ih (k + 1) i c (by simpa using hi) hc
          (fun j c' hj hc' => hfirst (j + 1) c' (by omega) (by simpa using hc'))]
      have : k + 1 + i = k + (i + 1) := by omega
      rw [this]

theorem getFlipsToSolveFrom_absent (self : Address) (flipsPerCandidate : List (List Int))
    (flipCids : List Bytes) (ps : List candidate) :
    ∀ (k : Nat), (∀ c ∈ ps, c.Address ≠ self) →
      getFlipsToSolveFrom self flipsPerCandidate flipCids k ps = some [] := by
  induction ps with
  | nil => intro k _; rfl
  | cons p rest ih =>
    intro k h
    rw [getFlipsToSolveFrom, if_neg (h p (List.mem_cons_self _ _))]
    exact ih (k + 1) (fun c hc => h c (List.mem_cons_of_mem _ hc))

/-! ## Lemmas on `ApplyNewEpoch` -/

theorem analizeAuthors_isSome (rlpHash : Bytes → Hash) (vc : ValidationCeremony)
    (qualifications : List FlipQualification)
    (hlen : qualifications.length ≤ vc.flips.length) :
    ∃ authors, analizeAuthors rlpHash vc qualifications = some authors := by
  have hloop := analizeAuthorsLoop_eq_foldl rlpHash vc qualifications 0 {}
    (by simpa using hlen)
  exact ⟨_, by rw [analizeAuthors, hloop]⟩

theorem candidateValue_isSome (env : Collaborators) (vc : ValidationCeremony)
    (appState : StateDB) (inp : EpochInputs) (idx : Nat) (c : candidate)
    (hshort : idx < vc.shortFlipsPerCandidate.length)
    (hlong : idx < vc.longFlipsPerCandidate.length) :
    ∃ iv, candidateValue env vc appState inp idx c = some iv := by
  unfold candidateValue
  rw [List.getElem?_eq_getElem hshort, List.getElem?_eq_getElem hlong]
  exact ⟨_, rfl⟩

/-- The candidate loop returns when every candidate has its short and long
flips, and its count stays zero exactly when it was zero and no candidate of
the loop becomes Verified or Newbie. -/
theorem candidatesLoop_spec (env : Collaborators) (vc : ValidationCeremony)
    (appState : StateDB) (inp : EpochInputs) (god : Address) (cs : List candidate) :
    ∀ (idx : Nat) (acc : EpochAcc),
      idx + cs.length ≤ vc.shortFlipsPerCandidate.length →
      idx + cs.length ≤ vc.longFlipsPerCandidate.length →
      ∃ acc', candidatesLoop env vc appState inp god idx cs acc = some acc' ∧
        (acc'.intermediateIdentitiesCount = 0 ↔
          acc.intermediateIdentitiesCount = 0 ∧
            ∀ (j : Nat) (c : candidate) (iv : Identity × cacheValue), cs[j]? = some c →
              candidateValue env vc appState inp (idx + j) c = some iv →
              iv.2.state ≠ .Verified ∧ iv.2.state ≠ .Newbie) := by
  induction cs with
  | nil =>
    intro idx acc _ _
    exact ⟨acc, rfl, by simp⟩
  | cons c rest ih =>
    intro idx acc hshort hlong
    simp only [List.length_cons] at hshort hlong
    obtain ⟨iv, hiv⟩ := candidateValue_isSome env vc appState inp idx c (by omega) (by omega)
    obtain ⟨acc', hloop, hcount⟩ := ih (idx + 1)
      { validationAuthors := incSuccessfulInvites acc.validationAuthors god iv.1 iv.2.state,
        epochApplyingValues := acc.epochApplyingValues.set c.Address iv.2,
        intermediateIdentitiesCount :=
          if iv.2.state = .Verified ∨ iv.2.state = .Newbie then
            acc.intermediateIdentitiesCount + 1
          else acc.intermediateIdentitiesCount } (by omega) (by omega)
    refine ⟨acc', ?_, ?_⟩
    · rw [candidatesLoop, hiv]
      exact hloop
    · rw [hcount]
      simp only
      constructor
      · rintro ⟨h0, hrest⟩
        by_cases hv : iv.2.state = .Verified ∨ iv.2.state = .Newbie
        · rw [if_pos hv] at h0
          omega
        · rw [if_neg hv] at h0
          refine ⟨h0, ?_⟩
          intro j c' iv' hj hiv'
          cases j with
          | zero =>
            have hc : c = c' := by simpa using hj
            subst hc
            rw [Nat.add_zero, hiv, Option.some.injEq] at hiv'
            subst hiv'
            exact ⟨fun h => hv (Or.inl h), fun h => hv (Or.inr h)⟩
          | succ j =>
            apply hrest j c' iv' (by simpa using hj)
            have : idx + 1 + j = idx + (j + 1) := by omega
            rw [this]
            exact hiv'
      · rintro ⟨h0, hall⟩
        have hv := hall 0 c iv (by simp) (by rw [Nat.add_zero]; exact hiv)
        have hv' : ¬ (iv.2.state = .Verified ∨ iv.2.state = .Newbie) := by
          rintro (h | h)
          · exact hv.1 h
          · exact hv.2 h
        rw [if_neg hv']
        refine ⟨h0, ?_⟩
        intro j c' iv' hj hiv'
        apply hall (j + 1) c' iv' (by simpa using hj)
        have : idx + (j + 1) = idx + 1 + j := by omega
        rw [this]
        exact hiv'

/-- The validation of an epoch returns when every candidate has its short and
long flips and every qualification has its flip. -/
theorem computeValidation_spec (env : Collaborators) (vc : ValidationCeremony)
    (appState : StateDB)
    (hshort : vc.candidates.length ≤ vc.shortFlipsPerCandidate.length)
    (hlong : vc.candidates.length ≤ vc.longFlipsPerCandidate.length)
    (hqual : (epochInputs env vc).flipQualification.length ≤ vc.flips.length) :
    ∃ acc, computeValidation env vc appState = some acc ∧
      (acc.intermediateIdentitiesCount = 0 ↔
        ∀ (idx : Nat) (c : candidate) (iv : Identity × cacheValue),
          vc.candidates[idx]? = some c →
          candidateValue env vc appState (epochInputs env vc) idx c = some iv →
          iv.2.state ≠ .Verified ∧ iv.2.state ≠ .Newbie) := by
  obtain ⟨⟨bad, good⟩, hauth⟩ :=
    analizeAuthors_isSome env.rlpHash vc (epochInputs env vc).flipQualification hqual
  obtain ⟨acc, hloop, hcount⟩ := candidatesLoop_spec env vc appState (epochInputs env vc)
    appState.GodAddress vc.candidates 0
    { validationAuthors := { BadAuthors := bad, GoodAuthors := good } }
    (by omega) (by omega)
  refine ⟨acc, ?_, ?_⟩
  · unfold computeValidation
    simp only [hauth]
    exact hloop
  · rw [hcount]
    simp

theorem ApplyNewEpoch_of_uncached (env : Collaborators) (vc : ValidationCeremony)
    (height : Nat) (appState : StateDB)
    (hcache : vc.epochApplyingCache.get? height = none) :
    ApplyNewEpoch env vc height appState = applyComputed env vc height appState := by
  unfold ApplyNewEpoch applyFromCache
  rw [hcache]

theorem applyAllOnState_append (fl : FloatOps) (l₁ l₂ : List (Address × cacheValue)) :
    ∀ (acc : StateDB × Nat),
      applyAllOnState fl (l₁ ++ l₂) acc = applyAllOnState fl l₂ (applyAllOnState fl l₁ acc) := by
  induction l₁ with
  | nil => intro acc; rfl
  | cons p rest ih =>
    intro acc
    obtain ⟨addr, value⟩ := p
    rw [List.cons_append, applyAllOnState, applyAllOnState, ih]

/-- The loop over the non-candidates appends one value per address to the
values of the epoch, and what it writes to the state is what applying these
values in order writes. -/
theorem nonCandidatesLoop_spec (fl : FloatOps) (epoch : Nat) (addrs : List Address) :
    ∀ (acc : NonCandidatesAcc), addrs.Nodup →
      (∀ addr ∈ addrs, addr ∉ acc.epochApplyingValues.keys) →
      ∃ added : List (Address × cacheValue),
        (nonCandidatesLoop fl epoch addrs acc).epochApplyingValues.entries =
            acc.epochApplyingValues.entries ++ added
          ∧ applyAllOnState fl added (acc.appState, acc.identitiesCount) =
            ((nonCandidatesLoop fl epoch addrs acc).appState,
              (nonCandidatesLoop fl epoch addrs acc).identitiesCount) := by
  induction addrs with
  | nil =>
    intro acc _ _
    exact ⟨[], by simp [nonCandidatesLoop], rfl⟩
  | cons addr rest ih =>
    intro acc hnodup hfresh
    rw [List.nodup_cons] at hnodup
    have hnot : addr ∉ acc.epochApplyingValues.keys := hfresh addr (List.mem_cons_self _ _)
    rw [nonCandidatesLoop]
    generalize nonCandidateValue epoch (acc.appState.GetIdentity addr) = value
    obtain ⟨added, hentries, happlied⟩ := ih
      { appState := (applyOnState fl acc.appState acc.identitiesCount addr value).1,
        identitiesCount := (applyOnState fl acc.appState acc.identitiesCount addr value).2,
        epochApplyingValues := acc.epochApplyingValues.set addr value }
      hnodup.2
      (by
        intro a ha hmem
        rcases (GoMap.mem_keys_set _ _ _ _).mp hmem with h | h
        · exact hfresh a (List.mem_cons_of_mem _ ha) h
        · subst h
          exact hnodup.1 ha)
    refine ⟨(addr, value) :: added, ?_, ?_⟩
    · rw [hentries]
      show GoMap.setList acc.epochApplyingValues.entries addr value ++ added = _
      rw [GoMap.setList_of_not_mem _ _ _ hnot, List.append_assoc]
      rfl
    · rw [applyAllOnState]
      exact happlied

/-- The candidate loop only adds addresses of its candidates to the values,
and it leaves no count without a value. -/
theorem candidatesLoop_values (env : Collaborators) (vc : ValidationCeremony)
    (appState : StateDB) (inp : EpochInputs) (god : Address) (cs : List candidate) :
    ∀ (idx : Nat) (acc acc' : EpochAcc),
      candidatesLoop env vc appState inp god idx cs acc = some acc' →
      (∀ addr ∈ acc'.epochApplyingValues.keys,
          addr ∈ acc.epochApplyingValues.keys ∨ ∃ c ∈ cs, c.Address = addr)
        ∧ ((acc.intermediateIdentitiesCount ≠ 0 → acc.epochApplyingValues.entries ≠ []) →
            acc'.intermediateIdentitiesCount ≠ 0 → acc'.epochApplyingValues.entries ≠ []) := by
  induction cs with
  | nil =>
    intro idx acc acc' h
    rw [candidatesLoop, Option.some.injEq] at h
    subst h
    exact ⟨fun addr ha => Or.inl ha, fun h => h⟩
  | cons c rest ih =>
    intro idx acc acc' h
    rw [candidatesLoop] at h
    cases hiv : candidateValue env vc appState inp idx c with
    | none =>
      rw [hiv] at h
      exact absurd h (by simp)
    | some iv =>
      rw [hiv] at h
      obtain ⟨hkeys, hne⟩ := ih _ _ _ h
      refine ⟨?_, ?_⟩
      · intro addr ha
        rcases hkeys addr ha with h1 | ⟨c', hc', hc''⟩
        · rcases (GoMap.mem_keys_set _ _ _ _).mp h1 with h2 | h2
          · exact Or.inl h2
          · exact Or.inr ⟨c, List.mem_cons_self _ _, h2.symm⟩
        · exact Or.inr ⟨c', List.mem_cons_of_mem _ hc', hc''⟩
      · intro _ hcount
        exact hne (fun _ => GoMap.setList_ne_nil _ _ _) hcount

theorem computeValidation_values (env : Collaborators) (vc : ValidationCeremony)
    (appState : StateDB) (acc : EpochAcc)
    (h : computeValidation env vc appState = some acc) :
    (∀ addr ∈ acc.epochApplyingValues.keys, ∃ c ∈ vc.candidates, c.Address = addr)
      ∧ (acc.intermediateIdentitiesCount ≠ 0 → acc.epochApplyingValues.entries ≠ []) := by
  unfold computeValidation at h
  simp only at h
  cases hauth : analizeAuthors env.rlpHash vc (epochInputs env vc).flipQualification with
  | none =>
    rw [hauth] at h
    exact absurd h (by simp)
  | some authors =>
    rw [hauth] at h
    obtain ⟨hkeys, hne⟩ := candidatesLoop_values _ _ _ _ _ _ _ _ _ h
    refine ⟨?_, ?_⟩
    · intro addr ha
      rcases hkeys addr ha with h1 | h1
      · simp [GoMap.keys] at h1
      · exact h1
    · exact hne (fun h0 => absurd rfl h0)

theorem applyFromCache_vc (env : Collaborators) (vc : ValidationCeremony) (height : Nat)
    (appState : StateDB) (r : ApplyResult)
    (h : applyFromCache env vc height appState = some r) : r.vc = vc := by
  unfold applyFromCache at h
  cases hc : vc.epochApplyingCache.get? height with
  | none => rw [hc] at h; exact absurd h (by simp)
  | some applyingCache =>
    rw [hc] at h
    simp only at h
    split at h
    · rw [Option.some.injEq] at h
      rw [← h]
    · split at h
      · rw [Option.some.injEq] at h
        rw [← h]
      · exact absurd h (by simp)

/-- An uncached call of `ApplyNewEpoch` returns when every candidate has its
short and long flips and every qualification has its flip. -/
theorem ApplyNewEpoch_isSome (env : Collaborators) (vc : ValidationCeremony)
    (height : Nat) (appState : StateDB)
    (hcache : vc.epochApplyingCache.get? height = none)
    (hshort : vc.candidates.length ≤ vc.shortFlipsPerCandidate.length)
    (hlong : vc.candidates.length ≤ vc.longFlipsPerCandidate.length)
    (hqual : (epochInputs env vc).flipQualification.length ≤ vc.flips.length) :
    ∃ r, ApplyNewEpoch env vc height appState = some r := by
  obtain ⟨acc, hacc, _⟩ := computeValidation_spec env vc appState hshort hlong hqual
  rw [ApplyNewEpoch_of_uncached env vc height appState hcache]
  unfold applyComputed
  rw [hacc]
  simp only
  split
  · exact ⟨_, rfl⟩
  · exact ⟨_, rfl⟩

/-! ## Independence of the iteration order -/

theorem StateDB.updateIdentity_same (s : StateDB) (a : Address) (f g : Identity → Identity) :
    (s.updateIdentity a f).updateIdentity a g = s.updateIdentity a (fun i => g (f i)) := by
  unfold StateDB.updateIdentity
  simp only [StateDB.mk.injEq, and_true]
  funext x
  by_cases hx : x = a <;> simp [hx]

theorem StateDB.updateIdentity_comm (s : StateDB) (a b : Address) (f g : Identity → Identity)
    (h : a ≠ b) :
    (s.updateIdentity a f).updateIdentity b g = (s.updateIdentity b g).updateIdentity a f := by
  unfold StateDB.updateIdentity
  simp only [StateDB.mk.injEq, and_true]
  funext x
  by_cases hxa : x = a
  · have hxb : ¬ x = b := by rw [hxa]; exact h
    simp [hxa, h]
  · by_cases hxb : x = b
    · have hba : ¬ b = a := fun e => h e.symm
      simp [hxb, hba]
    · simp [hxa, hxb]

theorem applyOnState_fst (fl : FloatOps) (appState : StateDB) (n : Nat) (addr : Address)
    (value : cacheValue) :
    (applyOnState fl appState n addr value).1 =
      appState.updateIdentity addr (fun identity =>
        { identity with
          State := value.state,
          QualifiedFlips := (identity.QualifiedFlips + value.shortQualifiedFlipsCount) % 2 ^ 32,
          ShortFlipPoints := fl.add identity.ShortFlipPoints value.shortFlipPoint,
          Birthday := value.birthday }) := by
  unfold applyOnState StateDB.SetState StateDB.AddQualifiedFlipsCount
    StateDB.AddShortFlipPoints StateDB.SetBirthday
  simp only [StateDB.updateIdentity_same]

theorem applyOnState_snd (fl : FloatOps) (appState : StateDB) (n : Nat) (addr : Address)
    (value : cacheValue) :
    (applyOnState fl appState n addr value).2 =
      n + (if value.state = .Verified ∨ value.state = .Newbie then 1 else 0) := by
  unfold applyOnState
  simp only
  split <;> rfl

/-- Outcomes applied to two different addresses can be applied in either
order. -/
theorem applyOnState_comm (fl : FloatOps) (acc : StateDB × Nat) (a b : Address)
    (v w : cacheValue) (h : a ≠ b) :
    applyOnState fl (applyOnState fl acc.1 acc.2 a v).1 (applyOnState fl acc.1 acc.2 a v).2 b w =
      applyOnState fl (applyOnState fl acc.1 acc.2 b w).1 (applyOnState fl acc.1 acc.2 b w).2
        a v := by
  apply Prod.ext
  · rw [applyOnState_fst, applyOnState_fst, applyOnState_fst, applyOnState_fst,
      StateDB.updateIdentity_comm _ a b _ _ h]
  · rw [applyOnState_snd, applyOnState_snd, applyOnState_snd, applyOnState_snd]
    omega

/-- Applying the values of a map does not depend on the order in which the
map is iterated: two enumerations of entries with distinct addresses leave the
same state and the same count. -/
theorem applyAllOnState_perm (fl : FloatOps) (l₁ l₂ : List (Address × cacheValue))
    (hperm : l₁.Perm l₂) (hnodup : (l₁.map Prod.fst).Nodup) :
    ∀ acc : StateDB × Nat, applyAllOnState fl l₁ acc = applyAllOnState fl l₂ acc := by
  induction hperm with
  | nil => intro acc; rfl
  | cons p _ ih =>
    intro acc
    obtain ⟨addr, value⟩ := p
    rw [List.map_cons, List.nodup_cons] at hnodup
    rw [applyAllOnState, applyAllOnState, ih hnodup.2]
  | swap p q l =>
    intro acc
    obtain ⟨a, v⟩ := p
    obtain ⟨b, w⟩ := q
    have hne : b ≠ a := by
      intro e
      rw [List.map_cons, List.map_cons, List.nodup_cons] at hnodup
      apply hnodup.1
      rw [e]
      exact List.mem_cons_self _ _
    rw [applyAllOnState, applyAllOnState, applyAllOnState, applyAllOnState,
      applyOnState_comm fl acc b a w v hne]
  | trans h₁ _ ih₁ ih₂ =>
    intro acc
    rw [ih₁ hnodup, ih₂ ((h₁.map Prod.fst).nodup_iff.mp hnodup)]

/-! ## Lemmas on `flipPos` -/

theorem flipPosFrom_first (flip : Bytes) (flips : List Bytes) :
    ∀ (k i : Nat), flips[i]? = some flip → (∀ j, j < i → flips[j]? ≠ some flip) →
      flipPosFrom flip k flips = ((k + i : Nat) : Int) := by
  induction flips with
  | nil => intro k i hi; simp at hi
  | cons cur rest ih =>
    intro k i hi hfirst
    cases i with
    | zero =>
      have hc : cur = flip := by simpa using hi
      rw [flipPosFrom, if_pos hc]
      rfl
    | succ i =>
      have hc : ¬ cur = flip := by
        intro e
        exact hfirst 0 (by omega) (by simp [e])
      rw [flipPosFrom, if_neg hc,
        ih (k + 1) i (by simpa using hi)
          (fun j hj => by
            have := hfirst (j + 1) (by omega)
            simpa using this)]
      congr 1
      omega

theorem flipPosFrom_absent (flip : Bytes) (flips : List Bytes) :
    ∀ (k : Nat), flip ∉ flips → flipPosFrom flip k flips = -1 := by
  induction flips with
  | nil => intro k _; rfl
  | cons cur rest ih =>
    intro k h
    rw [List.mem_cons, not_or] at h
    rw [flipPosFrom, if_neg (fun e => h.1 e.symm)]
    exact ih (k + 1) h.2

/-! ## Lemmas on the sizes of the sessions -/

theorem wrapInt64_of_lt (x : Int) (h0 : 0 ≤ x) (h1 : x < 2 ^ 63) : wrapInt64 x = x := by
  unfold wrapInt64
  omega

theorem solveFlips_length (allFlips : List Bytes) (hne : allFlips ≠ []) (myFlips : List Int)
    (hnonneg : ∀ idx ∈ myFlips, 0 ≤ idx) :
    ∃ result, solveFlips allFlips myFlips = some result ∧ result.length = myFlips.length := by
  obtain ⟨r, hr, hmap⟩ := solveFlips_spec allFlips hne myFlips hnonneg
  refine ⟨r, hr, ?_⟩
  have := congrArg List.length hmap
  simpa using this

/-- With a non-empty flip list, as many assignments as participants and
non-negative indices, `getFlipsToSolve` returns; for a participant it returns
as many flips as one of the assignments has. -/
theorem getFlipsToSolveFrom_total (self : Address) (flipsPerCandidate : List (List Int))
    (flipCids : List Bytes) (hne : flipCids ≠ [])
    (hnonneg : ∀ l ∈ flipsPerCandidate, ∀ idx ∈ l, 0 ≤ idx) (ps : List candidate) :
    ∀ k : Nat, k + ps.length ≤ flipsPerCandidate.length →
      ∃ result, getFlipsToSolveFrom self flipsPerCandidate flipCids k ps = some result ∧
        ((∃ c ∈ ps, c.Address = self) →
          ∃ l ∈ flipsPerCandidate, result.length = l.length) := by
  induction ps with
  | nil =>
    intro k _
    exact ⟨[], rfl, by simp⟩
  | cons p rest ih =>
    intro k hk
    simp only [List.length_cons] at hk
    by_cases hp : p.Address = self
    · have hlt : k < flipsPerCandidate.length := by omega
      obtain ⟨r, hr, hlen⟩ := solveFlips_length flipCids hne flipsPerCandidate[k]
        (hnonneg _ (List.getElem_mem hlt))
      refine ⟨r, ?_, fun _ => ⟨flipsPerCandidate[k], List.getElem_mem hlt, hlen⟩⟩
      rw [getFlipsToSolveFrom, if_pos hp, List.getElem?_eq_getElem hlt]
      exact hr
    · obtain ⟨r, hr, hprop⟩ := ih (k + 1) (by omega)
      refine ⟨r, ?_, ?_⟩
      · rw [getFlipsToSolveFrom, if_neg hp]
        exact hr
      · rintro ⟨c, hc, hself⟩
        rcases List.mem_cons.mp hc with h | h
        · subst h
          exact absurd hself hp
        · exact hprop ⟨c, h, hself⟩

/-! ## Lemmas on the classes of authors -/

/-- The bad authors that `analizeAuthors` returns. -/
theorem analizeAuthors_bad_iff (rlpHash : Bytes → Hash) (vc : ValidationCeremony)
    (qualifications : List FlipQualification)
    (hlen : qualifications.length ≤ vc.flips.length) :
    ∃ badAuthors goodAuthors,
      analizeAuthors rlpHash vc qualifications = some (badAuthors, goodAuthors) ∧
      ∀ a : Address, badAuthors.contains a = true ↔
        (∃ q ∈ flipsAuthoredBy rlpHash vc qualifications a,
            q.wrongWords = true ∨ q.status = QualifiedByNone
              ∨ q.answer = Answer.Inappropriate)
          ∨ (flipsAuthoredBy rlpHash vc qualifications a ≠ []
              ∧ ∀ q ∈ flipsAuthoredBy rlpHash vc qualifications a,
                  q.status = NotQualified) := by
  have hloop := analizeAuthorsLoop_eq_foldl rlpHash vc qualifications 0 {}
    (by simpa using hlen)
  rw [List.drop_zero] at hloop
  refine ⟨_, _, by rw [analizeAuthors, hloop], ?_⟩
  intro a
  rw [markNonQualified_contains, fold_badAuthors]
  unfold flipsAuthoredBy
  apply or_congr Iff.rfl
  have hmade := fold_madeFlips rlpHash vc (qualifications.zip vc.flips) a
  have hnq := fold_nonQualifiedFlips rlpHash vc (qualifications.zip vc.flips) a
  have hnd := fold_nonQualifiedFlips_nodup rlpHash vc (qualifications.zip vc.flips)
  generalize List.foldl (fun acc p => analizeAuthorsBody acc (flipAuthor rlpHash vc p.2) p.1)
    {} (qualifications.zip vc.flips) = acc at hmade hnq hnd ⊢
  generalize ((qualifications.zip vc.flips).filter
    (fun p => decide (flipAuthor rlpHash vc p.2 = a))).map Prod.fst = F at hmade hnq ⊢
  rw [hmade]
  constructor
  · rintro ⟨n, hn, hlenF⟩
    have hget := GoMap.get?_of_mem acc.nonQualifiedFlips.entries hnd a n hn
    change acc.nonQualifiedFlips.get? a = some n at hget
    rw [hnq] at hget
    by_cases hc : F.countP (fun q => decide (q.status = NotQualified)) = 0
    · rw [if_pos hc] at hget
      exact absurd hget (by simp)
    · rw [if_neg hc, Option.some.injEq] at hget
      have hall : F.countP (fun q => decide (q.status = NotQualified)) = F.length := by
        rw [hget, hlenF]
      refine ⟨?_, ?_⟩
      · intro hF
        apply hc
        rw [hF]
        rfl
      · intro q hq
        have := (List.countP_eq_length.mp hall) q hq
        simpa using this
  · rintro ⟨hne, hall⟩
    have hcount : F.countP (fun q => decide (q.status = NotQualified)) = F.length := by
      rw [List.countP_eq_length]
      intro q hq
      simpa using hall q hq
    have hpos : F.length ≠ 0 := by
      intro h0
      exact hne (List.length_eq_zero.mp h0)
    refine ⟨F.length, ?_, rfl⟩
    apply GoMap.mem_of_get?
    change acc.nonQualifiedFlips.get? a = some F.length
    rw [hnq, hcount, if_neg hpos]

/-- The good authors that `analizeAuthors` returns. -/
theorem analizeAuthors_good_iff (rlpHash : Bytes → Hash) (vc : ValidationCeremony)
    (qualifications : List FlipQualification)
    (hlen : qualifications.length ≤ vc.flips.length) :
    ∃ badAuthors goodAuthors,
      analizeAuthors rlpHash vc qualifications = some (badAuthors, goodAuthors) ∧
      ∀ a : Address,
        (goodAuthors.contains a = true ↔
          badAuthors.contains a = false
            ∧ ∃ q ∈ flipsAuthoredBy rlpHash vc qualifications a,
                q.status = Qualified ∨ q.status = WeaklyQualified)
        ∧ ∀ vr : ValidationResult, goodAuthors.get? a = some vr →
            vr.StrongFlips = (flipsAuthoredBy rlpHash vc qualifications a).countP
                (fun q => decide (q.status = Qualified))
              ∧ vr.WeakFlips = (flipsAuthoredBy rlpHash vc qualifications a).countP
                (fun q => decide (q.status = WeaklyQualified))
              ∧ vr.SuccessfulInvites = 0 := by
  have hloop := analizeAuthorsLoop_eq_foldl rlpHash vc qualifications 0 {}
    (by simpa using hlen)
  rw [List.drop_zero] at hloop
  refine ⟨_, _, by rw [analizeAuthors, hloop], ?_⟩
  intro a
  have hgood := fold_goodAuthors rlpHash vc (qualifications.zip vc.flips) a
  unfold flipsAuthoredBy
  generalize List.foldl (fun acc p => analizeAuthorsBody acc (flipAuthor rlpHash vc p.2) p.1)
    {} (qualifications.zip vc.flips) = acc at hgood ⊢
  generalize ((qualifications.zip vc.flips).filter
    (fun p => decide (flipAuthor rlpHash vc p.2 = a))).map Prod.fst = F at hgood ⊢
  generalize markNonQualified acc.madeFlips acc.nonQualifiedFlips.entries acc.badAuthors
    = bad
  have hdel := deleteBad_get? bad.keys acc.goodAuthors a
  have hex : (∃ q ∈ F, q.status = Qualified ∨ q.status = WeaklyQualified) ↔
      ¬ (F.countP (fun q => decide (q.status = Qualified))
        + F.countP (fun q => decide (q.status = WeaklyQualified)) = 0) := by
    constructor
    · rintro ⟨q, hq, hs | hs⟩ h0
      · have : 0 < F.countP (fun q => decide (q.status = Qualified)) :=
          List.countP_pos_iff.mpr ⟨q, hq, by simpa using hs⟩
        omega
      · have : 0 < F.countP (fun q => decide (q.status = WeaklyQualified)) :=
          List.countP_pos_iff.mpr ⟨q, hq, by simpa using hs⟩
        omega
    · intro h0
      by_cases hq : 0 < F.countP (fun q => decide (q.status = Qualified))
      · obtain ⟨q, hq1, hq2⟩ := List.countP_pos_iff.mp hq
        exact ⟨q, hq1, Or.inl (by simpa using hq2)⟩
      · have hw : 0 < F.countP (fun q => decide (q.status = WeaklyQualified)) := by omega
        obtain ⟨q, hq1, hq2⟩ := List.countP_pos_iff.mp hw
        exact ⟨q, hq1, Or.inr (by simpa using hq2)⟩
  by_cases hb : a ∈ bad.keys
  · have hbc : bad.contains a = true := (GoMap.contains_iff_mem_keys bad a).mpr hb
    rw [if_pos hb] at hdel
    refine ⟨?_, ?_⟩
    · unfold GoMap.contains at hbc ⊢
      rw [hdel, hbc]
      simp
    · intro vr hvr
      rw [hdel] at hvr
      exact absurd hvr (by simp)
  · have hbc : bad.contains a = false := by
      cases hc : bad.contains a
      · rfl
      · exact absurd ((GoMap.contains_iff_mem_keys bad a).mp hc) hb
    rw [if_neg hb, hgood] at hdel
    refine ⟨?_, ?_⟩
    · rw [hex, hbc]
      unfold GoMap.contains
      rw [hdel]
      split <;> simp_all
    · intro vr hvr
      rw [hdel] at hvr
      split at hvr
      · exact absurd hvr (by simp)
      · rw [Option.some.injEq] at hvr
        subst hvr
        exact ⟨rfl, rfl, rfl⟩

theorem mem_flipsAuthoredBy (rlpHash : Bytes → Hash) (vc : ValidationCeremony)
    (qualifications : List FlipQualification) (a : Address) (q : FlipQualification)
    (h : q ∈ flipsAuthoredBy rlpHash vc qualifications a) : q ∈ qualifications := by
  unfold flipsAuthoredBy at h
  obtain ⟨p, hp, hq⟩ := List.mem_map.mp h
  have hz := (List.mem_filter.mp hp).1
  obtain ⟨x, y⟩ := p
  have := (List.of_mem_zip hz).1
  simp only at hq
  rw [← hq]
  exact this

/-! ## Lemmas on `sendTx` -/

theorem GoSet.Add_of_Contains {α : Type} [DecidableEq α] (s : GoSet α) (x : α)
    (h : s.Contains x = true) : s.Add x = s := by
  unfold GoSet.Contains at h
  unfold GoSet.Add
  rw [if_pos (by simpa using h)]

theorem GoSet.Contains_Add {α : Type} [DecidableEq α] (s : GoSet α) (x : α) :
    (s.Add x).Contains x = true := by
  unfold GoSet.Contains
  rw [decide_eq_true_eq, GoSet.mem_Add]
  exact Or.inr rfl

/-- A call of `sendTx` in a state that holds the stored transaction `tx` of
the kind, already admitted once: `tx` is submitted again and nothing else
changes. -/
theorem sendTx_of_stored {Tx : Type} (env : TxCollaborators Tx) (s : EngineState Tx)
    (txType : Nat) (payload : Bytes) (tx : Tx)
    (hstored : s.epochDb.ReadOwnTx txType = some (env.EncodeToBytes tx))
    (hsuccess : s.epochDb.HasSuccessfulOwnTx (env.Hash tx) = true)
    (hround : env.DecodeBytes (env.EncodeToBytes tx) = some tx) :
    sendTx env s txType payload =
      ({ s with submitted := s.submitted ++ [tx] }, env.Hash tx,
        env.mempoolRejects s.submitted tx) := by
  unfold sendTx
  rw [hstored]
  simp only [hround, Option.getD_some]
  unfold sendTxSubmit
  simp only [hsuccess, Bool.not_true, Bool.false_eq_true, if_false]
  have hw : s.epochDb.WriteSuccessfulOwnTx (env.Hash tx) = s.epochDb := by
    unfold EpochDb.WriteSuccessfulOwnTx
    unfold EpochDb.HasSuccessfulOwnTx at hsuccess
    rw [GoSet.Add_of_Contains _ _ hsuccess]
  rw [hw]
  cases env.mempoolRejects s.submitted tx <;> rfl

theorem sendTxAll_of_stored {Tx : Type} (env : TxCollaborators Tx) (txType : Nat) (tx : Tx)
    (hround : env.DecodeBytes (env.EncodeToBytes tx) = some tx) (payloads : List Bytes) :
    ∀ s : EngineState Tx,
      s.epochDb.ReadOwnTx txType = some (env.EncodeToBytes tx) →
      s.epochDb.HasSuccessfulOwnTx (env.Hash tx) = true →
      (∀ r ∈ (sendTxAll env txType payloads s).2, r.1 = env.Hash tx)
        ∧ (sendTxAll env txType payloads s).1 =
            { s with submitted := s.submitted ++ List.replicate payloads.length tx } := by
  induction payloads with
  | nil =>
    intro s _ _
    simp [sendTxAll]
  | cons payload rest ih =>
    intro s hstored hsuccess
    have hcall := sendTx_of_stored env s txType payload tx hstored hsuccess hround
    obtain ⟨hres, hstate⟩ := ih { s with submitted := s.submitted ++ [tx] } hstored hsuccess
    rw [sendTxAll, hcall]
    simp only
    refine ⟨?_, ?_⟩
    · intro r hr
      rcases List.mem_cons.mp hr with h | h
      · rw [h]
      · exact hres r h
    · rw [hstate]
      simp only [List.length_cons, List.replicate_succ, List.append_assoc,
        List.singleton_append]

/-! ## Lemmas on the iterator of `BackedMemDb` -/

theorem iterator.remaining_nil {K V : Type} [LinearOrder K] (it : iterator K V)
    (hinner : it.innerKeys = []) (hperm : it.permanentIter = []) : it.remaining = [] := by
  unfold iterator.remaining
  rw [hinner, hperm, mergeEntries]

theorem iterator.takeInnerKey_spec {K V : Type} [LinearOrder K] (it : iterator K V)
    (hperm : it.permanentIter = []) (hflag : it.emptyPermanentIter = true) :
    it.takeInnerKey.db = it.db ∧ it.takeInnerKey.isReverse = it.isReverse ∧
    it.takeInnerKey.emptyPermanentIter = it.takeInnerKey.permanentIter.isEmpty ∧
    (it.takeInnerKey.empty = true →
      it.takeInnerKey.innerKeys = [] ∧ it.takeInnerKey.permanentIter = []) ∧
    ((it.takeInnerKey.valid = false ∧ it.remaining = []) ∨
      (it.takeInnerKey.valid = it.valid ∧
        ∃ k, it.takeInnerKey.key = some k ∧
          it.remaining = (k, it.takeInnerKey.value) :: it.takeInnerKey.remaining ∧
          it.takeInnerKey.innerKeys.length + it.takeInnerKey.permanentIter.length
            < it.innerKeys.length + it.permanentIter.length)) := by
  obtain ⟨db, innerKeys, permanentIter, isReverse, valid, key, value, flag, empty⟩ := it
  simp only at hperm hflag
  subst hperm hflag
  cases innerKeys with
  | nil =>
    simp [iterator.takeInnerKey, iterator.remaining, mergeEntries]
  | cons k rest =>
    simp [iterator.takeInnerKey, iterator.remaining, mergeEntries]

theorem iterator.nextLoop_spec {K V : Type} [LinearOrder K] :
    ∀ (fuel : Nat) (it : iterator K V), it.permanentIter.length < fuel →
      it.emptyPermanentIter = it.permanentIter.isEmpty → it.empty = false →
      ∃ next, iterator.nextLoop fuel it = some next ∧
        next.db = it.db ∧ next.isReverse = it.isReverse ∧
        next.emptyPermanentIter = next.permanentIter.isEmpty ∧
        (next.empty = true → next.innerKeys = [] ∧ next.permanentIter = []) ∧
        ((next.valid = false ∧ it.remaining = []) ∨
          (next.valid = it.valid ∧
            ∃ k, next.key = some k ∧
              it.remaining = (k, next.value) :: next.remaining ∧
              next.innerKeys.length + next.permanentIter.length
                < it.innerKeys.length + it.permanentIter.length)) := by
  intro fuel
  induction fuel with
  | zero => intro it h; omega
  | succ fuel ih =>
    intro it hfuel hflag hempty
    obtain ⟨db, innerKeys, permanentIter, isReverse, valid, key, value, flag, empty⟩ := it
    simp only at hfuel hflag hempty
    subst hflag hempty
    cases permanentIter with
    | nil =>
      rw [iterator.nextLoop]
      simp only [List.isEmpty_nil, if_true]
      exact ⟨_, rfl, iterator.takeInnerKey_spec _ rfl rfl⟩
    | cons e perm =>
      obtain ⟨permKey, permValue⟩ := e
      rw [iterator.nextLoop]
      simp only [List.isEmpty_cons, Bool.false_eq_true, if_false]
      have hskip : db.touched.Contains permKey = true →
          ∃ next, iterator.nextLoop fuel (iterator.nextPermanent ⟨db, innerKeys,
              (permKey, permValue) :: perm, isReverse, valid, key, value, false, false⟩)
              = some next ∧
            next.db = db ∧ next.isReverse = isReverse ∧
            next.emptyPermanentIter = next.permanentIter.isEmpty ∧
            (next.empty = true → next.innerKeys = [] ∧ next.permanentIter = []) ∧
            ((next.valid = false ∧
                mergeEntries (fun key1 key2 =>
                  if isReverse then decide (key1 ≥ key2) else decide (key1 ≤ key2))
                  db.touched.Contains db.Get innerKeys perm = []) ∨
              (next.valid = valid ∧
                ∃ k, next.key = some k ∧
                  mergeEntries (fun key1 key2 =>
                    if isReverse then decide (key1 ≥ key2) else decide (key1 ≤ key2))
                    db.touched.Contains db.Get innerKeys perm
                    = (k, next.value) :: next.remaining ∧
                  next.innerKeys.length + next.permanentIter.length
                    < innerKeys.length + perm.length)) := by
        intro _
        exact ih
          (iterator.nextPermanent ⟨db, innerKeys, (permKey, permValue) :: perm, isReverse,
            valid, key, value, false, false⟩)
          (by simp [iterator.nextPermanent] at hfuel ⊢; omega)
          (by simp [iterator.nextPermanent]) (by simp [iterator.nextPermanent])
      cases innerKeys with
      | nil =>
        simp only [if_false, Bool.false_eq_true]
        by_cases htouched : db.touched.Contains permKey = true
        · rw [if_pos htouched]
          obtain ⟨next, hnext, h1, h2, h3, h4, h5⟩ := hskip htouched
          refine ⟨next, hnext, h1, h2, h3, h4, ?_⟩
          simp only [iterator.remaining]
          rw [mergeEntries, if_pos htouched]
          rcases h5 with h5 | ⟨h5, k, h6, h7, h8⟩
          · exact Or.inl h5
          · exact Or.inr ⟨h5, k, h6, h7, by simp only [List.length_cons]; omega⟩
        · rw [if_neg htouched]
          refine ⟨_, rfl, ?_⟩
          simp [iterator.nextPermanent, iterator.remaining, mergeEntries, htouched]
      | cons innerKey innerKeys =>
        simp only [List.head?_cons, Option.some.injEq]
        by_cases hcmp : iterator.compare ⟨db, innerKey :: innerKeys,
            (permKey, permValue) :: perm, isReverse, valid, key, value, false, false⟩
            innerKey permKey = true
        · rw [if_pos hcmp]
          have hcmp2 : (if isReverse = true then decide (innerKey ≥ permKey)
              else decide (innerKey ≤ permKey)) = true := hcmp
          by_cases heq : innerKey = permKey
          · rw [if_pos heq]
            refine ⟨_, rfl, ?_⟩
            simp only [iterator.remaining]
            rw [mergeEntries, if_pos hcmp2, if_pos heq]
            simp [iterator.nextPermanent, iterator.takeInnerKey, iterator.remaining]
            omega
          · rw [if_neg heq]
            refine ⟨_, rfl, ?_⟩
            simp only [iterator.remaining]
            rw [mergeEntries, if_pos hcmp2, if_neg heq]
            simp [iterator.nextPermanent, iterator.takeInnerKey, iterator.remaining]
        · rw [if_neg hcmp]
          have hcmp2 : ¬ (if isReverse = true then decide (innerKey ≥ permKey)
              else decide (innerKey ≤ permKey)) = true := hcmp
          by_cases htouched : db.touched.Contains permKey = true
          · rw [if_pos htouched]
            obtain ⟨next, hnext, h1, h2, h3, h4, h5⟩ := hskip htouched
            refine ⟨next, hnext, h1, h2, h3, h4, ?_⟩
            simp only [iterator.remaining]
            rw [mergeEntries, if_neg hcmp2, if_pos htouched]
            rcases h5 with h5 | ⟨h5, k, h6, h7, h8⟩
            · exact Or.inl h5
            · exact Or.inr ⟨h5, k, h6, h7, by simp only [List.length_cons] at h8 ⊢; omega⟩
          · rw [if_neg htouched]
            refine ⟨_, rfl, ?_⟩
            simp only [iterator.remaining]
            rw [mergeEntries, if_neg hcmp2, if_neg htouched]
            simp [iterator.nextPermanent, iterator.remaining]

theorem iterator.Next_spec {K V : Type} [LinearOrder K] (it : iterator K V)
    (hflag : it.emptyPermanentIter = it.permanentIter.isEmpty)
    (hempty : it.empty = true → it.innerKeys = [] ∧ it.permanentIter = []) :
    ∃ next, it.Next = some next ∧
      next.db = it.db ∧ next.isReverse = it.isReverse ∧
      next.emptyPermanentIter = next.permanentIter.isEmpty ∧
      (next.empty = true → next.innerKeys = [] ∧ next.permanentIter = []) ∧
      ((next.valid = false ∧ it.remaining = []) ∨
        (next.valid = it.valid ∧
          ∃ k, next.key = some k ∧
            it.remaining = (k, next.value) :: next.remaining ∧
            next.innerKeys.length + next.permanentIter.length
              < it.innerKeys.length + it.permanentIter.length)) := by
  unfold iterator.Next
  by_cases he : it.empty = true
  · rw [if_pos he]
    exact ⟨_, rfl, rfl, rfl, hflag, hempty,
      Or.inl ⟨rfl, iterator.remaining_nil it (hempty he).1 (hempty he).2⟩⟩
  · rw [if_neg he]
    exact iterator.nextLoop_spec _ it (Nat.lt_succ_self _) hflag (by simpa using he)

theorem iterator.collect_spec {K V : Type} [LinearOrder K] :
    ∀ (fuel : Nat) (it : iterator K V),
      it.emptyPermanentIter = it.permanentIter.isEmpty →
      (it.empty = true → it.innerKeys = [] ∧ it.permanentIter = []) →
      0 < fuel →
      (it.valid = true → it.innerKeys.length + it.permanentIter.length + 1 < fuel) →
      iterator.collect fuel it = some (if it.valid then
        (it.key, it.value) :: it.remaining.map (fun e => (some e.1, e.2)) else []) := by
  intro fuel
  induction fuel with
  | zero => intro it _ _ h; omega
  | succ fuel ih =>
    intro it hflag hempty _ hfuel
    rw [iterator.collect]
    unfold iterator.Valid iterator.Key iterator.Value
    by_cases hvalid : it.valid = true
    · rw [if_pos hvalid, if_pos hvalid]
      have hfuel := hfuel hvalid
      obtain ⟨next, hnext, _, _, h3, h4, h5⟩ := iterator.Next_spec it hflag hempty
      rw [hnext]
      show Option.map (fun rest => (it.key, it.value) :: rest) (iterator.collect fuel next) = _
      rcases h5 with ⟨h5, hnil⟩ | ⟨h5, k, h6, h7, h8⟩
      · rw [ih next h3 h4 (by omega) (by intro h; rw [h5] at h; exact absurd h (by decide)),
          h5, hnil]
        rfl
      · rw [ih next h3 h4 (by omega) (by intro _; omega), h5, if_pos hvalid, h7, h6]
        rfl
    · rw [if_neg hvalid, if_neg hvalid]

theorem newIterator_spec {K V : Type} [LinearOrder K] (db : BackedMemDb K V)
    (innerKeys : List K) (permanentIter : List (K × V)) (isReverse : Bool) (fuel : Nat)
    (hfuel : innerKeys.length + permanentIter.length < fuel) :
    ∃ it, newIterator db innerKeys permanentIter isReverse = some it ∧
      it.collect fuel = some ((mergeEntries
        (fun key1 key2 => if isReverse then decide (key1 ≥ key2) else decide (key1 ≤ key2))
        db.touched.Contains db.Get innerKeys permanentIter).map (fun e => (some e.1, e.2))) := by
  unfold newIterator
  obtain ⟨next, hnext, _, _, h3, h4, h5⟩ := iterator.Next_spec
    (⟨db, innerKeys, permanentIter, isReverse, true, none, none, permanentIter.isEmpty, false⟩ :
      iterator K V) rfl (by intro h; cases h)
  refine ⟨next, hnext, ?_⟩
  rcases h5 with ⟨h5, hnil⟩ | ⟨h5, k, h6, h7, h8⟩
  · rw [iterator.collect_spec fuel next h3 h4 (by omega)
      (by intro h; rw [h5] at h; exact absurd h (by decide)), h5]
    simp only [iterator.remaining] at hnil
    rw [hnil]
    rfl
  · simp only [iterator.remaining] at h7 h8
    rw [iterator.collect_spec fuel next h3 h4 (by omega) (by intro _; omega),
      h5, h7, h6]
    rfl

theorem mergeEntries_mem {K V : Type} [DecidableEq K] (cmp : K → K → Bool)
    (touched : K → Bool) (get : K → Option V) (innerKeys : List K) (perm : List (K × V)) :
    (∀ k ∈ innerKeys, touched k = true) →
    ∀ k, k ∈ (mergeEntries cmp touched get innerKeys perm).map Prod.fst ↔
      k ∈ innerKeys ∨ (k ∈ perm.map Prod.fst ∧ touched k = false) := by
  induction innerKeys, perm using mergeEntries.induct cmp touched get with
  | case1 => intro _ k; simp [mergeEntries]
  | case2 innerKey innerKeys ih =>
    intro h k
    rw [mergeEntries, List.map_cons, List.mem_cons,
      ih (fun x hx => h x (List.mem_cons_of_mem _ hx))]
    simp
  | case3 permKey permValue perm ht ih =>
    intro h k
    rw [mergeEntries, if_pos ht, ih h]
    simp only [List.not_mem_nil, false_or, List.map_cons, List.mem_cons]
    constructor
    · rintro ⟨h1, h2⟩; exact ⟨Or.inr h1, h2⟩
    · rintro ⟨h1 | h1, h2⟩
      · rw [h1, ht] at h2; cases h2
      · exact ⟨h1, h2⟩
  | case4 permKey permValue perm ht ih =>
    intro h k
    rw [mergeEntries, if_neg ht, List.map_cons, List.mem_cons, ih h]
    simp only [List.not_mem_nil, false_or, List.map_cons, List.mem_cons]
    constructor
    · rintro (h1 | ⟨h1, h2⟩)
      · exact ⟨Or.inl h1, by rw [h1]; simpa using ht⟩
      · exact ⟨Or.inr h1, h2⟩
    · rintro ⟨h1 | h1, h2⟩
      · exact Or.inl h1
      · exact Or.inr ⟨h1, h2⟩
  | case5 innerKeys permKey permValue perm hc ih =>
    intro h k
    rw [mergeEntries, if_pos hc, if_pos rfl, List.map_cons, List.mem_cons,
      ih (fun x hx => h x (List.mem_cons_of_mem _ hx))]
    simp only [List.map_cons, List.mem_cons]
    have hk := h permKey (List.mem_cons_self _ _)
    constructor
    · rintro (h1 | h1 | ⟨h1, h2⟩)
      · exact Or.inl (Or.inl h1)
      · exact Or.inl (Or.inr h1)
      · exact Or.inr ⟨Or.inr h1, h2⟩
    · rintro ((h1 | h1) | ⟨h1 | h1, h2⟩)
      · exact Or.inl h1
      · exact Or.inr (Or.inl h1)
      · rw [h1, hk] at h2; cases h2
      · exact Or.inr (Or.inr ⟨h1, h2⟩)
  | case6 innerKey innerKeys permKey permValue perm hc hne ih =>
    intro h k
    rw [mergeEntries, if_pos hc, if_neg hne, List.map_cons, List.mem_cons,
      ih (fun x hx => h x (List.mem_cons_of_mem _ hx))]
    simp only [List.map_cons, List.mem_cons]
    rw [or_assoc]
  | case7 innerKey innerKeys permKey permValue perm hc ht ih =>
    intro h k
    rw [mergeEntries, if_neg hc, if_pos ht, ih h]
    simp only [List.map_cons, List.mem_cons]
    constructor
    · rintro (h1 | ⟨h1, h2⟩)
      · exact Or.inl h1
      · exact Or.inr ⟨Or.inr h1, h2⟩
    · rintro (h1 | ⟨h1 | h1, h2⟩)
      · exact Or.inl h1
      · rw [h1, ht] at h2; cases h2
      · exact Or.inr ⟨h1, h2⟩
  | case8 innerKey innerKeys permKey permValue perm hc ht ih =>
    intro h k
    rw [mergeEntries, if_neg hc, if_neg ht, List.map_cons, List.mem_cons, ih h]
    simp only [List.map_cons, List.mem_cons]
    constructor
    · rintro (h1 | h1 | ⟨h1, h2⟩)
      · exact Or.inr ⟨Or.inl h1, by rw [h1]; simpa using ht⟩
      · exact Or.inl h1
      · exact Or.inr ⟨Or.inr h1, h2⟩
    · rintro (h1 | ⟨h1 | h1, h2⟩)
      · exact Or.inr (Or.inl h1)
      · exact Or.inl h1
      · exact Or.inr (Or.inr ⟨h1, h2⟩)

theorem mergeEntries_value {K V : Type} [DecidableEq K] (cmp : K → K → Bool)
    (touched : K → Bool) (get : K → Option V) (innerKeys : List K) (perm : List (K × V)) :
    (∀ e ∈ perm, touched e.1 = false → get e.1 = some e.2) →
    ∀ e ∈ mergeEntries cmp touched get innerKeys perm, e.2 = get e.1 := by
  induction innerKeys, perm using mergeEntries.induct cmp touched get with
  | case1 => intro _ e he; simp [mergeEntries] at he
  | case2 innerKey innerKeys ih =>
    intro h e he
    rw [mergeEntries, List.mem_cons] at he
    rcases he with he | he
    · rw [he]
    · exact ih h e he
  | case3 permKey permValue perm ht ih =>
    intro h e he
    rw [mergeEntries, if_pos ht] at he
    exact ih (fun x hx => h x (List.mem_cons_of_mem _ hx)) e he
  | case4 permKey permValue perm ht ih =>
    intro h e he
    rw [mergeEntries, if_neg ht, List.mem_cons] at he
    rcases he with he | he
    · rw [he]
      exact (h (permKey, permValue) (List.mem_cons_self _ _) (by simpa using ht)).symm
    · exact ih (fun x hx => h x (List.mem_cons_of_mem _ hx)) e he
  | case5 innerKeys permKey permValue perm hc ih =>
    intro h e he
    rw [mergeEntries, if_pos hc, if_pos rfl, List.mem_cons] at he
    rcases he with he | he
    · rw [he]
    · exact ih (fun x hx => h x (List.mem_cons_of_mem _ hx)) e he
  | case6 innerKey innerKeys permKey permValue perm hc hne ih =>
    intro h e he
    rw [mergeEntries, if_pos hc, if_neg hne, List.mem_cons] at he
    rcases he with he | he
    · rw [he]
    · exact ih h e he
  | case7 innerKey innerKeys permKey permValue perm hc ht ih =>
    intro h e he
    rw [mergeEntries, if_neg hc, if_pos ht] at he
    exact ih (fun x hx => h x (List.mem_cons_of_mem _ hx)) e he
  | case8 innerKey innerKeys permKey permValue perm hc ht ih =>
    intro h e he
    rw [mergeEntries, if_neg hc, if_neg ht, List.mem_cons] at he
    rcases he with he | he
    · rw [he]
      exact (h (permKey, permValue) (List.mem_cons_self _ _) (by simpa using ht)).symm
    · exact ih (fun x hx => h x (List.mem_cons_of_mem _ hx)) e he

theorem mergeEntries_sorted {K V : Type} [DecidableEq K] (r : K → K → Prop)
    (htrans : ∀ a b c, r a b → r b c → r a c) (cmp : K → K → Bool)
    (hcmp : ∀ a b, cmp a b = true → a ≠ b → r a b)
    (hncmp : ∀ a b, ¬ cmp a b = true → r b a)
    (touched : K → Bool) (get : K → Option V) (innerKeys : List K) (perm : List (K × V)) :
    (∀ k ∈ innerKeys, touched k = true) →
    innerKeys.Pairwise r → (perm.map Prod.fst).Pairwise r →
    ((mergeEntries cmp touched get innerKeys perm).map Prod.fst).Pairwise r := by
  induction innerKeys, perm using mergeEntries.induct cmp touched get with
  | case1 => intro _ _ _; simp [mergeEntries]
  | case2 innerKey innerKeys ih =>
    intro h hi hp
    have ht := fun x hx => h x (List.mem_cons_of_mem innerKey hx)
    rw [List.pairwise_cons] at hi
    rw [mergeEntries, List.map_cons, List.pairwise_cons]
    refine ⟨fun y hy => ?_, ih ht hi.2 hp⟩
    rw [mergeEntries_mem cmp touched get _ _ ht] at hy
    rcases hy with hy | ⟨hy, _⟩
    · exact hi.1 y hy
    · simp at hy
  | case3 permKey permValue perm ht ih =>
    intro h hi hp
    rw [List.map_cons, List.pairwise_cons] at hp
    rw [mergeEntries, if_pos ht]
    exact ih h hi hp.2
  | case4 permKey permValue perm ht ih =>
    intro h hi hp
    rw [List.map_cons, List.pairwise_cons] at hp
    rw [mergeEntries, if_neg ht, List.map_cons, List.pairwise_cons]
    refine ⟨fun y hy => ?_, ih h hi hp.2⟩
    rw [mergeEntries_mem cmp touched get _ _ h] at hy
    rcases hy with hy | ⟨hy, _⟩
    · simp at hy
    · exact hp.1 y hy
  | case5 innerKeys permKey permValue perm hc ih =>
    intro h hi hp
    have ht := fun x hx => h x (List.mem_cons_of_mem permKey hx)
    rw [List.pairwise_cons] at hi
    rw [List.map_cons, List.pairwise_cons] at hp
    rw [mergeEntries, if_pos hc, if_pos rfl, List.map_cons, List.pairwise_cons]
    refine ⟨fun y hy => ?_, ih ht hi.2 hp.2⟩
    rw [mergeEntries_mem cmp touched get _ _ ht] at hy
    rcases hy with hy | ⟨hy, _⟩
    · exact hi.1 y hy
    · exact hp.1 y hy
  | case6 innerKey innerKeys permKey permValue perm hc hne ih =>
    intro h hi hp
    have ht := fun x hx => h x (List.mem_cons_of_mem innerKey hx)
    have hlt := hcmp innerKey permKey hc hne
    rw [List.pairwise_cons] at hi
    rw [mergeEntries, if_pos hc, if_neg hne, List.map_cons, List.pairwise_cons]
    refine ⟨fun y hy => ?_, ih ht hi.2 hp⟩
    rw [mergeEntries_mem cmp touched get _ _ ht] at hy
    rw [List.map_cons, List.pairwise_cons] at hp
    rcases hy with hy | ⟨hy, _⟩
    · exact hi.1 y hy
    · rw [List.map_cons, List.mem_cons] at hy
      rcases hy with hy | hy
      · rw [hy]; exact hlt
      · exact htrans _ _ _ hlt (hp.1 y hy)
  | case7 innerKey innerKeys permKey permValue perm hc ht ih =>
    intro h hi hp
    rw [List.map_cons, List.pairwise_cons] at hp
    rw [mergeEntries, if_neg hc, if_pos ht]
    exact ih h hi hp.2
  | case8 innerKey innerKeys permKey permValue perm hc ht ih =>
    intro h hi hp
    have hlt := hncmp innerKey permKey hc
    rw [List.map_cons, List.pairwise_cons] at hp
    rw [mergeEntries, if_neg hc, if_neg ht, List.map_cons, List.pairwise_cons]
    refine ⟨fun y hy => ?_, ih h hi hp.2⟩
    rw [mergeEntries_mem cmp touched get _ _ h] at hy
    rw [List.pairwise_cons] at hi
    rcases hy with hy | ⟨hy, _⟩
    · rw [List.mem_cons] at hy
      rcases hy with hy | hy
      · rw [hy]; exact hlt
      · exact htrans _ _ _ hlt (hi.1 y hy)
    · exact hp.1 y hy

theorem DB.mem_insert {K V : Type} [LinearOrder K] (key : K) (value : V) :
    ∀ (entries : List (K × V)) (e : K × V),
      e ∈ DB.insert entries key value → e = (key, value) ∨ e ∈ entries := by
  intro entries
  induction entries with
  | nil => intro e he; simpa [DB.insert] using he
  | cons x rest ih =>
    intro e he
    rw [DB.insert] at he
    split_ifs at he with h1 h2
    · rw [List.mem_cons] at he
      exact he
    · rw [List.mem_cons] at he
      rcases he with he | he
      · exact Or.inl he
      · exact Or.inr (List.mem_cons_of_mem _ he)
    · rw [List.mem_cons] at he
      rcases he with he | he
      · exact Or.inr (by rw [he]; exact List.mem_cons_self _ _)
      · rcases ih e he with h | h
        · exact Or.inl h
        · exact Or.inr (List.mem_cons_of_mem _ h)

theorem DB.insert_sorted {K V : Type} [LinearOrder K] (key : K) (value : V) :
    ∀ (entries : List (K × V)), entries.Pairwise (fun a b => a.1 < b.1) →
      (DB.insert entries key value).Pairwise (fun a b => a.1 < b.1) := by
  intro entries
  induction entries with
  | nil => intro _; simp [DB.insert]
  | cons x rest ih =>
    intro h
    rw [DB.insert]
    rw [List.pairwise_cons] at h
    split_ifs with h1 h2
    · rw [List.pairwise_cons]
      refine ⟨fun y hy => ?_, List.pairwise_cons.2 h⟩
      rw [List.mem_cons] at hy
      rcases hy with hy | hy
      · rw [hy]; exact h1
      · exact lt_trans h1 (h.1 y hy)
    · rw [List.pairwise_cons]
      refine ⟨fun y hy => ?_, h.2⟩
      have := h.1 y hy
      rw [← h2] at this
      exact this
    · rw [List.pairwise_cons]
      refine ⟨fun y hy => ?_, ih h.2⟩
      rcases DB.mem_insert key value rest y hy with hy | hy
      · rw [hy]
        exact lt_of_le_of_ne (not_lt.1 h1) (fun h => h2 h.symm)
      · exact h.1 y hy

theorem DB.Get_of_mem {K V : Type} [LinearOrder K] (d : DB K V)
    (hsorted : d.entries.Pairwise (fun a b => a.1 < b.1)) (key : K) (value : V)
    (hmem : (key, value) ∈ d.entries) : d.Get key = some value := by
  unfold DB.Get
  obtain ⟨entries⟩ := d
  simp only at hsorted hmem ⊢
  induction entries with
  | nil => simp at hmem
  | cons x rest ih =>
    rw [List.pairwise_cons] at hsorted
    rw [List.mem_cons] at hmem
    rcases hmem with hmem | hmem
    · rw [← hmem]
      simp
    · have hlt := hsorted.1 _ hmem
      have hne : ¬ x.1 = key := ne_of_lt hlt
      rw [List.find?_cons]
      simp only [hne, decide_False]
      exact ih hsorted.2 hmem

theorem DB.Has_iff {K V : Type} [LinearOrder K] (d : DB K V) (key : K) :
    d.Has key = true ↔ key ∈ d.entries.map Prod.fst := by
  unfold DB.Has DB.Get
  simp [List.find?_isSome]

theorem DB.mem_Iterator_keys {K V : Type} [LinearOrder K] (d : DB K V)
    (start end_ : Option K) (key : K) :
    key ∈ (d.Iterator start end_).map Prod.fst ↔
      DB.inDomain start end_ key = true ∧ d.Has key = true := by
  rw [DB.Has_iff]
  unfold DB.Iterator
  simp only [List.mem_map, List.mem_filter]
  constructor
  · rintro ⟨e, ⟨he, hd⟩, rfl⟩
    exact ⟨hd, e, he, rfl⟩
  · rintro ⟨hd, e, he, rfl⟩
    exact ⟨e, ⟨he, hd⟩, rfl⟩

theorem reached_inv {K V : Type} [LinearOrder K] (permanent : DB K V)
    (ops : List (DbOp K V)) :
    (reached permanent ops).permanent = permanent ∧
    (reached permanent ops).inner.entries.Pairwise (fun a b => a.1 < b.1) ∧
    ∀ k, (reached permanent ops).inner.Has k = true →
      (reached permanent ops).touched.Contains k = true := by
  unfold reached
  have hgen : ∀ (ops : List (DbOp K V)) (db : BackedMemDb K V),
      db.inner.entries.Pairwise (fun a b => a.1 < b.1) →
      (∀ k, db.inner.Has k = true → db.touched.Contains k = true) →
      (ops.foldl DbOp.apply db).permanent = db.permanent ∧
      (ops.foldl DbOp.apply db).inner.entries.Pairwise (fun a b => a.1 < b.1) ∧
      ∀ k, (ops.foldl DbOp.apply db).inner.Has k = true →
        (ops.foldl DbOp.apply db).touched.Contains k = true := by
    intro ops
    induction ops with
    | nil => intro db h1 h2; exact ⟨rfl, h1, h2⟩
    | cons op rest ih =>
      intro db h1 h2
      rw [List.foldl_cons]
      cases op with
      | set key value =>
        have := ih (db.Set key value) (DB.insert_sorted key value _ h1) (by
          intro k hk
          unfold BackedMemDb.Set BackedMemDb.touch at hk ⊢
          simp only at hk ⊢
          unfold GoSet.Contains
          rw [decide_eq_true_eq, GoSet.mem_Add]
          rw [DB.Has_iff] at hk
          unfold DB.Set at hk
          simp only [List.mem_map] at hk
          obtain ⟨e, he, rfl⟩ := hk
          rcases DB.mem_insert key value _ e he with h | h
          · rw [h]; exact Or.inr rfl
          · have := h2 e.1 ((DB.Has_iff _ _).2 (List.mem_map_of_mem _ h))
            unfold GoSet.Contains at this
            exact Or.inl (by simpa using this))
        exact this
      | delete key =>
        have := ih (db.Delete key) (List.Pairwise.filter _ h1) (by
          intro k hk
          unfold BackedMemDb.Delete BackedMemDb.touch at hk ⊢
          simp only at hk ⊢
          unfold GoSet.Contains
          rw [decide_eq_true_eq, GoSet.mem_Add]
          rw [DB.Has_iff] at hk
          unfold DB.Delete at hk
          simp only [List.mem_map, List.mem_filter] at hk
          obtain ⟨e, ⟨he, _⟩, rfl⟩ := hk
          have := h2 e.1 ((DB.Has_iff _ _).2 (List.mem_map_of_mem _ he))
          unfold GoSet.Contains at this
          exact Or.inl (by simpa using this))
        exact this
  exact hgen ops (NewBackedMemDb permanent) (by simp [NewBackedMemDb])
    (by intro k hk; simp [NewBackedMemDb, DB.Has, DB.Get] at hk)

theorem DB.Iterator_sorted {K V : Type} [LinearOrder K] (d : DB K V)
    (hsorted : d.entries.Pairwise (fun a b => a.1 < b.1)) (start end_ : Option K) :
    ((d.Iterator start end_).map Prod.fst).Pairwise (fun a b => a < b) := by
  rw [List.pairwise_map]
  exact List.Pairwise.filter _ hsorted

theorem DB.ReverseIterator_sorted {K V : Type} [LinearOrder K] (d : DB K V)
    (hsorted : d.entries.Pairwise (fun a b => a.1 < b.1)) (start end_ : Option K) :
    ((d.ReverseIterator start end_).map Prod.fst).Pairwise (fun a b => a > b) := by
  unfold DB.ReverseIterator
  rw [List.map_reverse, List.pairwise_reverse]
  exact DB.Iterator_sorted d hsorted start end_

theorem DB.mem_ReverseIterator_keys {K V : Type} [LinearOrder K] (d : DB K V)
    (start end_ : Option K) (key : K) :
    key ∈ (d.ReverseIterator start end_).map Prod.fst ↔
      DB.inDomain start end_ key = true ∧ d.Has key = true := by
  unfold DB.ReverseIterator
  rw [List.map_reverse, List.mem_reverse]
  exact DB.mem_Iterator_keys d start end_ key

theorem newIterator_merge {K V : Type} [LinearOrder K] (db : BackedMemDb K V)
    (dom : K → Bool) (isReverse : Bool) (fuel : Nat) (r : K → K → Prop)
    (htrans : ∀ a b c, r a b → r b c → r a c)
    (hcmp : ∀ a b : K, (if isReverse then decide (a ≥ b) else decide (a ≤ b)) = true →
      a ≠ b → r a b)
    (hncmp : ∀ a b : K, ¬ (if isReverse then decide (a ≥ b) else decide (a ≤ b)) = true →
      r b a)
    (innerIter permIter : List (K × V))
    (hinner : (innerIter.map Prod.fst).Pairwise r)
    (hperm : (permIter.map Prod.fst).Pairwise r)
    (hinnerKeys : ∀ k, k ∈ innerIter.map Prod.fst ↔ dom k = true ∧ db.inner.Has k = true)
    (hpermKeys : ∀ k, k ∈ permIter.map Prod.fst ↔ dom k = true ∧ db.permanent.Has k = true)
    (hsub : ∀ e ∈ permIter, e ∈ db.permanent.entries)
    (hsorted : db.permanent.entries.Pairwise (fun a b => a.1 < b.1))
    (htouched : ∀ k, db.inner.Has k = true → db.touched.Contains k = true)
    (hfuel : innerIter.length + permIter.length < fuel) :
    ∃ (it : iterator K V) (keys : List K),
      newIterator db (innerIter.map Prod.fst) permIter isReverse = some it ∧
      it.collect fuel = some (keys.map (fun k => (some k, db.Get k))) ∧
      keys.Pairwise r ∧
      ∀ k, k ∈ keys ↔ dom k = true ∧
        (db.inner.Has k = true ∨
          (db.permanent.Has k = true ∧ db.touched.Contains k = false)) := by
  obtain ⟨it, hit, hcollect⟩ := newIterator_spec db (innerIter.map Prod.fst) permIter isReverse
    fuel (by rw [List.length_map]; exact hfuel)
  have ht : ∀ k ∈ innerIter.map Prod.fst, db.touched.Contains k = true :=
    fun k hk => htouched k ((hinnerKeys k).1 hk).2
  refine ⟨it, (mergeEntries
    (fun key1 key2 => if isReverse then decide (key1 ≥ key2) else decide (key1 ≤ key2))
    db.touched.Contains db.Get (innerIter.map Prod.fst) permIter).map Prod.fst, hit, ?_, ?_, ?_⟩
  · rw [hcollect, List.map_map]
    congr 1
    apply List.map_congr_left
    intro e he
    have := mergeEntries_value _ _ _ _ _ (by
      intro x hx hxt
      unfold BackedMemDb.Get
      rw [hxt]
      exact DB.Get_of_mem _ hsorted x.1 x.2 (hsub x hx)) e he
    simp only [Function.comp]
    rw [this]
  · exact mergeEntries_sorted r htrans _ hcmp hncmp _ _ _ _ ht hinner hperm
  · intro k
    rw [mergeEntries_mem _ _ _ _ _ ht, hinnerKeys, hpermKeys]
    constructor
    · rintro (⟨h1, h2⟩ | ⟨⟨h1, h2⟩, h3⟩)
      · exact ⟨h1, Or.inl h2⟩
      · exact ⟨h1, Or.inr ⟨h2, h3⟩⟩
    · rintro ⟨h1, h2 | ⟨h2, h3⟩⟩
      · exact Or.inl ⟨h1, h2⟩
      · exact Or.inr ⟨⟨h1, h2⟩, h3⟩

/-! ## Properties of the identity transition -/

/-- C1: a Candidate that has done all its required flips stays Candidate if
`ns ∨ (nl ∧ s ≥ 0.5)`; otherwise it is Killed if
`missed ∨ s < 0.5 ∨ l < 0.75`; otherwise it becomes Newbie. -/
theorem determineNewIdentityState_candidate (identity : Identity) (s l t : float32)
    (q : Nat) (missed ns nl : Bool)
    (hState : identity.State = .Candidate)
    (hDone : identity.HasDoneAllRequiredFlips = true) :
    determineNewIdentityState identity s l t q missed ns nl =
      if ns = true ∨ (nl = true ∧ s.ge (.finite (1 / 2)) = true) then
        IdentityState.Candidate
      else if missed = true ∨ s.lt (.finite (1 / 2)) = true
          ∨ l.lt (.finite (3 / 4)) = true then
        IdentityState.Killed
      else
        IdentityState.Newbie := by
  simp only [determineNewIdentityState, hState, hDone, MinShortScore, MinLongScore,
    Bool.not_true, Bool.false_eq_true, if_false, Bool.or_eq_true, Bool.and_eq_true, or_assoc]

theorem determineNewIdentityState_candidate_witness :
    determineNewIdentityState { State := .Candidate } (.finite (1 / 2)) (.finite (3 / 4))
      (.finite (3 / 4)) 11 false false false = IdentityState.Newbie := by
  have h := determineNewIdentityState_candidate { State := .Candidate } (.finite (1 / 2))
    (.finite (3 / 4)) (.finite (3 / 4)) 11 false false false rfl (by decide)
  rw [h]
  simp [float32.ge, float32.lt]

/-- C2: a Newbie that has done all its required flips stays Newbie if
`ns ∨ (nl ∧ q > 10 ∧ t ≥ 0.75 ∧ s ≥ 0.5) ∨ (nl ∧ q ≤ 10 ∧ s ≥ 0.5)`; otherwise
it is Killed if missed; otherwise Verified if
`q > 10 ∧ t ≥ 0.75 ∧ s ≥ 0.5 ∧ l ≥ 0.75`; otherwise Newbie if
`q ≤ 10 ∧ s ≥ 0.5 ∧ l ≥ 0.75`; otherwise Killed. -/
theorem determineNewIdentityState_newbie (identity : Identity) (s l t : float32)
    (q : Nat) (missed ns nl : Bool)
    (hState : identity.State = .Newbie)
    (hDone : identity.HasDoneAllRequiredFlips = true) :
    determineNewIdentityState identity s l t q missed ns nl =
      if ns = true ∨ (nl = true ∧ q > 10 ∧ t.ge (.finite (3 / 4)) = true
            ∧ s.ge (.finite (1 / 2)) = true)
          ∨ (nl = true ∧ q ≤ 10 ∧ s.ge (.finite (1 / 2)) = true) then
        IdentityState.Newbie
      else if missed = true then
        IdentityState.Killed
      else if q > 10 ∧ t.ge (.finite (3 / 4)) = true ∧ s.ge (.finite (1 / 2)) = true
          ∧ l.ge (.finite (3 / 4)) = true then
        IdentityState.Verified
      else if q ≤ 10 ∧ s.ge (.finite (1 / 2)) = true ∧ l.ge (.finite (3 / 4)) = true then
        IdentityState.Newbie
      else
        IdentityState.Killed := by
  simp only [determineNewIdentityState, hState, hDone, MinShortScore, MinLongScore,
    MinTotalScore, Bool.not_true, Bool.false_eq_true, if_false, Bool.or_eq_true,
    Bool.and_eq_true, decide_eq_true_eq, or_assoc, and_assoc]

theorem determineNewIdentityState_newbie_witness :
    determineNewIdentityState { State := .Newbie } (.finite (1 / 2)) (.finite (3 / 4))
      (.finite (3 / 4)) 11 false false false = IdentityState.Verified := by
  have h := determineNewIdentityState_newbie { State := .Newbie } (.finite (1 / 2))
    (.finite (3 / 4)) (.finite (3 / 4)) 11 false false false rfl (by decide)
  rw [h]
  simp [float32.ge]

/-- C3: a Verified identity that has done all its required flips stays
Verified if `ns ∨ (nl ∧ t ≥ 0.75 ∧ s ≥ 0.5)`; otherwise it is Suspended if
missed; otherwise Verified if `q > 10 ∧ t ≥ 0.75 ∧ s ≥ 0.5 ∧ l ≥ 0.75`;
otherwise Killed.  In particular a Verified identity that is not missed, has
`q ≤ 10` and answered in both sessions is Killed whatever its scores. -/
theorem determineNewIdentityState_verified (identity : Identity) (s l t : float32)
    (q : Nat) (missed ns nl : Bool)
    (hState : identity.State = .Verified)
    (hDone : identity.HasDoneAllRequiredFlips = true) :
    (determineNewIdentityState identity s l t q missed ns nl =
      if ns = true ∨ (nl = true ∧ t.ge (.finite (3 / 4)) = true
          ∧ s.ge (.finite (1 / 2)) = true) then
        IdentityState.Verified
      else if missed = true then
        IdentityState.Suspended
      else if q > 10 ∧ t.ge (.finite (3 / 4)) = true ∧ s.ge (.finite (1 / 2)) = true
          ∧ l.ge (.finite (3 / 4)) = true then
        IdentityState.Verified
      else
        IdentityState.Killed)
    ∧ (missed = false → ns = false → nl = false → q ≤ 10 →
        determineNewIdentityState identity s l t q missed ns nl = IdentityState.Killed) := by
  have h : determineNewIdentityState identity s l t q missed ns nl =
      if ns = true ∨ (nl = true ∧ t.ge (.finite (3 / 4)) = true
          ∧ s.ge (.finite (1 / 2)) = true) then
        IdentityState.Verified
      else if missed = true then
        IdentityState.Suspended
      else if q > 10 ∧ t.ge (.finite (3 / 4)) = true ∧ s.ge (.finite (1 / 2)) = true
          ∧ l.ge (.finite (3 / 4)) = true then
        IdentityState.Verified
      else
        IdentityState.Killed := by
    simp only [determineNewIdentityState, hState, hDone, MinShortScore, MinLongScore,
      MinTotalScore, Bool.not_true, Bool.false_eq_true, if_false, Bool.or_eq_true,
      Bool.and_eq_true, decide_eq_true_eq, or_assoc, and_assoc]
  refine ⟨h, ?_⟩
  intro hm hns hnl hq
  rw [h, hm, hns, hnl]
  have hq' : ¬ q > 10 := by omega
  simp [hq']

theorem determineNewIdentityState_verified_witness :
    determineNewIdentityState { State := .Verified } (.finite 1) (.finite 1)
      (.finite 1) 10 false false false = IdentityState.Killed :=
  (determineNewIdentityState_verified { State := .Verified } (.finite 1)
    (.finite 1) (.finite 1) 10 false false false rfl (by decide)).2 rfl rfl rfl (by decide)

/-- C4: a Suspended identity that has done all its required flips stays
Suspended if `ns ∨ (nl ∧ t ≥ 0.75 ∧ s ≥ 0.5)`; otherwise it becomes Zombie if
missed; otherwise Verified if `t ≥ 0.75 ∧ s ≥ 0.5 ∧ l ≥ 0.75`; otherwise
Killed. -/
theorem determineNewIdentityState_suspended (identity : Identity) (s l t : float32)
    (q : Nat) (missed ns nl : Bool)
    (hState : identity.State = .Suspended)
    (hDone : identity.HasDoneAllRequiredFlips = true) :
    determineNewIdentityState identity s l t q missed ns nl =
      if ns = true ∨ (nl = true ∧ t.ge (.finite (3 / 4)) = true
          ∧ s.ge (.finite (1 / 2)) = true) then
        IdentityState.Suspended
      else if missed = true then
        IdentityState.Zombie
      else if t.ge (.finite (3 / 4)) = true ∧ s.ge (.finite (1 / 2)) = true
          ∧ l.ge (.finite (3 / 4)) = true then
        IdentityState.Verified
      else
        IdentityState.Killed := by
  simp only [determineNewIdentityState, hState, hDone, MinShortScore, MinLongScore,
    MinTotalScore, Bool.not_true, Bool.false_eq_true, if_false, Bool.or_eq_true,
    Bool.and_eq_true, or_assoc, and_assoc]

theorem determineNewIdentityState_suspended_witness :
    determineNewIdentityState { State := .Suspended } (.finite 1) (.finite (4 / 5))
      (.finite 0) 10 true false false = IdentityState.Zombie := by
  have h := determineNewIdentityState_suspended { State := .Suspended } (.finite 1)
    (.finite (4 / 5)) (.finite 0) 10 true false false rfl (by decide)
  rw [h]
  simp [float32.ge]

/-- C5: a Zombie that has done all its required flips stays Zombie if
`ns ∨ (nl ∧ t ≥ 0.75 ∧ s ≥ 0.5)`; otherwise it is Killed if missed; otherwise
Verified if `t ≥ 0.75 ∧ s ≥ 0.5`, whatever the long score; otherwise Killed. -/
theorem determineNewIdentityState_zombie (identity : Identity) (s l t : float32)
    (q : Nat) (missed ns nl : Bool)
    (hState : identity.State = .Zombie)
    (hDone : identity.HasDoneAllRequiredFlips = true) :
    determineNewIdentityState identity s l t q missed ns nl =
      if ns = true ∨ (nl = true ∧ t.ge (.finite (3 / 4)) = true
          ∧ s.ge (.finite (1 / 2)) = true) then
        IdentityState.Zombie
      else if missed = true then
        IdentityState.Killed
      else if t.ge (.finite (3 / 4)) = true ∧ s.ge (.finite (1 / 2)) = true then
        IdentityState.Verified
      else
        IdentityState.Killed := by
  simp only [determineNewIdentityState, hState, hDone, MinShortScore, MinLongScore,
    MinTotalScore, Bool.not_true, Bool.false_eq_true, if_false, Bool.or_eq_true,
    Bool.and_eq_true, or_assoc, and_assoc]

theorem determineNewIdentityState_zombie_witness :
    determineNewIdentityState { State := .Zombie } (.finite (1 / 2)) (.finite 0)
      (.finite (3 / 4)) 10 false false false = IdentityState.Verified := by
  have h := determineNewIdentityState_zombie { State := .Zombie } (.finite (1 / 2))
    (.finite 0) (.finite (3 / 4)) 10 false false false rfl (by decide)
  rw [h]
  simp [float32.ge]

/-- C6: an identity that has not done all its required flips becomes
Suspended when it was Verified and Killed from every other prior state,
whatever the scores and flags. -/
theorem determineNewIdentityState_flips_not_done (identity : Identity) (s l t : float32)
    (q : Nat) (missed ns nl : Bool)
    (hDone : identity.HasDoneAllRequiredFlips = false) :
    determineNewIdentityState identity s l t q missed ns nl =
      if identity.State = .Verified then IdentityState.Suspended
      else IdentityState.Killed := by
  unfold determineNewIdentityState
  rw [hDone]
  cases identity.State <;> simp

theorem determineNewIdentityState_flips_not_done_witness :
    determineNewIdentityState { State := .Verified, RequiredFlips := 3 } (.finite 1)
        (.finite 1) (.finite 1) 20 false true true = IdentityState.Suspended
      ∧ determineNewIdentityState { State := .Newbie, RequiredFlips := 3 } (.finite 1)
        (.finite 1) (.finite 1) 20 false true true = IdentityState.Killed :=
  ⟨determineNewIdentityState_flips_not_done { State := .Verified, RequiredFlips := 3 }
      (.finite 1) (.finite 1) (.finite 1) 20 false true true (by decide),
    determineNewIdentityState_flips_not_done { State := .Newbie, RequiredFlips := 3 }
      (.finite 1) (.finite 1) (.finite 1) 20 false true true (by decide)⟩

/-- C7 (as stated, refuted): for a non-candidate whose prior state is
Undefined and that has no required flips left, the transition with all scores
zero and `missed = true` yields Undefined, which is not Killed although the
prior state is not Verified. -/
theorem nonCandidate_transition_counterexample :
    determineNewIdentityState { State := .Undefined } (.finite 0) (.finite 0) (.finite 0) 0
        true false false = IdentityState.Undefined
      ∧ ¬ (determineNewIdentityState { State := .Undefined } (.finite 0) (.finite 0)
          (.finite 0) 0 true false false =
            if ({ State := .Undefined } : Identity).State = .Verified then
              IdentityState.Suspended
            else IdentityState.Killed) := by
  constructor <;> simp [determineNewIdentityState, Identity.HasDoneAllRequiredFlips]

/-- C7 (amended): the transition applied to a non-candidate, with all scores
zero, `missed = true` and both `noQual` flags false, yields Suspended when the
prior state is Verified; when the identity has done all its required flips it
yields Undefined from Undefined and Zombie from Suspended; it yields Killed in
every other case. -/
theorem nonCandidate_transition (identity : Identity) :
    determineNewIdentityState identity (.finite 0) (.finite 0) (.finite 0) 0
        true false false =
      if identity.State = .Verified then IdentityState.Suspended
      else if identity.HasDoneAllRequiredFlips = true ∧ identity.State = .Undefined then
        IdentityState.Undefined
      else if identity.HasDoneAllRequiredFlips = true ∧ identity.State = .Suspended then
        IdentityState.Zombie
      else IdentityState.Killed := by
  unfold determineNewIdentityState
  cases identity.HasDoneAllRequiredFlips <;> cases identity.State <;> simp

/-! ## Properties of the birthday rule -/

/-- C8: `determineIdentityBirthday` returns the current epoch when the prior
state is Candidate and the new state is Newbie, the unchanged birthday when the
prior state is Newbie, Verified, Suspended or Zombie, and 0 in every other
case. -/
theorem determineIdentityBirthday_spec (currentEpoch : Nat) (identity : Identity)
    (newState : IdentityState) :
    determineIdentityBirthday currentEpoch identity newState =
      if identity.State = .Candidate ∧ newState = .Newbie then currentEpoch
      else if identity.State = .Newbie ∨ identity.State = .Verified
          ∨ identity.State = .Suspended ∨ identity.State = .Zombie then identity.Birthday
      else 0 := by
  unfold determineIdentityBirthday
  cases identity.State <;> simp

/-- C9 (as stated, refuted): a Candidate with birthday 1 that is Killed in
epoch 2 gets birthday 0; its existing birthday is not preserved. -/
theorem determineIdentityBirthday_candidate_counterexample :
    determineIdentityBirthday 2 { State := .Candidate, Birthday := 1 } IdentityState.Killed = 0
      ∧ determineIdentityBirthday 2 { State := .Candidate, Birthday := 1 }
          IdentityState.Killed
        ≠ ({ State := .Candidate, Birthday := 1 } : Identity).Birthday := by
  constructor <;> simp [determineIdentityBirthday]

/-- C9 (amended): for an identity in state Candidate, `determineIdentityBirthday`
returns the current epoch when the new state is Newbie and 0 otherwise. -/
theorem determineIdentityBirthday_candidate (currentEpoch : Nat) (identity : Identity)
    (newState : IdentityState) (hState : identity.State = .Candidate) :
    determineIdentityBirthday currentEpoch identity newState =
      if newState = .Newbie then currentEpoch else 0 := by
  simp [determineIdentityBirthday, hState]

theorem determineIdentityBirthday_candidate_witness :
    determineIdentityBirthday 7 { State := .Candidate, Birthday := 3 } IdentityState.Newbie = 7
      ∧ determineIdentityBirthday 7 { State := .Candidate, Birthday := 3 }
          IdentityState.Killed = 0 :=
  ⟨determineIdentityBirthday_candidate 7 { State := .Candidate, Birthday := 3 }
      IdentityState.Newbie rfl,
    determineIdentityBirthday_candidate 7 { State := .Candidate, Birthday := 3 }
      IdentityState.Killed rfl⟩

/-! ## Properties of the author analysis -/

/-- C10: when every qualification has its flip, `analizeAuthors` returns, and
it puts an address `a` in `badAuthors` if and only if some flip authored by
`a` has `wrongWords` set, status `QualifiedByNone` or answer `Inappropriate`,
or `a` authored at least one flip and every flip authored by `a` has status
`NotQualified`. -/
theorem analizeAuthors_badAuthors (rlpHash : Bytes → Hash) (vc : ValidationCeremony)
    (qualifications : List FlipQualification)
    (hlen : qualifications.length ≤ vc.flips.length) :
    ∃ badAuthors goodAuthors,
      analizeAuthors rlpHash vc qualifications = some (badAuthors, goodAuthors) ∧
      ∀ a : Address, badAuthors.contains a = true ↔
        (∃ q ∈ flipsAuthoredBy rlpHash vc qualifications a,
            q.wrongWords = true ∨ q.status = QualifiedByNone
              ∨ q.answer = Answer.Inappropriate)
          ∨ (flipsAuthoredBy rlpHash vc qualifications a ≠ []
              ∧ ∀ q ∈ flipsAuthoredBy rlpHash vc qualifications a,
                  q.status = NotQualified) := by
  have hloop := analizeAuthorsLoop_eq_foldl rlpHash vc qualifications 0 {}
    (by simpa using hlen)
  rw [List.drop_zero] at hloop
  refine ⟨_, _, by rw [analizeAuthors, hloop], ?_⟩
  intro a
  rw [markNonQualified_contains, fold_badAuthors]
  unfold flipsAuthoredBy
  apply or_congr Iff.rfl
  have hmade := fold_madeFlips rlpHash vc (qualifications.zip vc.flips) a
  have hnq := fold_nonQualifiedFlips rlpHash vc (qualifications.zip vc.flips) a
  have hnd := fold_nonQualifiedFlips_nodup rlpHash vc (qualifications.zip vc.flips)
  generalize List.foldl (fun acc p => analizeAuthorsBody acc (flipAuthor rlpHash vc p.2) p.1)
    {} (qualifications.zip vc.flips) = acc at hmade hnq hnd ⊢
  generalize ((qualifications.zip vc.flips).filter
    (fun p => decide (flipAuthor rlpHash vc p.2 = a))).map Prod.fst = F at hmade hnq ⊢
  rw [hmade]
  constructor
  · rintro ⟨n, hn, hlenF⟩
    have hget := GoMap.get?_of_mem acc.nonQualifiedFlips.entries hnd a n hn
    change acc.nonQualifiedFlips.get? a = some n at hget
    rw [hnq] at hget
    by_cases hc : F.countP (fun q => decide (q.status = NotQualified)) = 0
    · rw [if_pos hc] at hget
      exact absurd hget (by simp)
    · rw [if_neg hc, Option.some.injEq] at hget
      have hall : F.countP (fun q => decide (q.status = NotQualified)) = F.length := by
        rw [hget, hlenF]
      refine ⟨?_, ?_⟩
      · intro hF
        apply hc
        rw [hF]
        rfl
      · intro q hq
        have := (List.countP_eq_length.mp hall) q hq
        simpa using this
  · rintro ⟨hne, hall⟩
    have hcount : F.countP (fun q => decide (q.status = NotQualified)) = F.length := by
      rw [List.countP_eq_length]
      intro q hq
      simpa using hall q hq
    have hpos : F.length ≠ 0 := by
      intro h0
      exact hne (List.length_eq_zero.mp h0)
    refine ⟨F.length, ?_, rfl⟩
    apply GoMap.mem_of_get?
    change acc.nonQualifiedFlips.get? a = some F.length
    rw [hnq, hcount, if_neg hpos]

theorem analizeAuthors_badAuthors_witness :
    ∃ badAuthors goodAuthors,
      analizeAuthors testHash testCeremony testQualification = some (badAuthors, goodAuthors) ∧
      ∀ a : Address, badAuthors.contains a = true ↔
        (∃ q ∈ flipsAuthoredBy testHash testCeremony testQualification a,
            q.wrongWords = true ∨ q.status = QualifiedByNone
              ∨ q.answer = Answer.Inappropriate)
          ∨ (flipsAuthoredBy testHash testCeremony testQualification a ≠ []
              ∧ ∀ q ∈ flipsAuthoredBy testHash testCeremony testQualification a,
                  q.status = NotQualified) :=
  analizeAuthors_badAuthors testHash testCeremony testQualification (by decide)

/-- C11: when every qualification has its flip, `analizeAuthors` returns, and
it puts an address `a` in `goodAuthors` if and only if `a` is not in
`badAuthors` and authored at least one `Qualified` or `WeaklyQualified` flip;
the entry of such an `a` has `StrongFlips` equal to the number of its
`Qualified` flips, `WeakFlips` equal to the number of its `WeaklyQualified`
flips, and `SuccessfulInvites` equal to 0. -/
theorem analizeAuthors_goodAuthors (rlpHash : Bytes → Hash) (vc : ValidationCeremony)
    (qualifications : List FlipQualification)
    (hlen : qualifications.length ≤ vc.flips.length) :
    ∃ badAuthors goodAuthors,
      analizeAuthors rlpHash vc qualifications = some (badAuthors, goodAuthors) ∧
      ∀ a : Address,
        (goodAuthors.contains a = true ↔
          badAuthors.contains a = false
            ∧ ∃ q ∈ flipsAuthoredBy rlpHash vc qualifications a,
                q.status = Qualified ∨ q.status = WeaklyQualified)
        ∧ ∀ vr : ValidationResult, goodAuthors.get? a = some vr →
            vr.StrongFlips = (flipsAuthoredBy rlpHash vc qualifications a).countP
                (fun q => decide (q.status = Qualified))
              ∧ vr.WeakFlips = (flipsAuthoredBy rlpHash vc qualifications a).countP
                (fun q => decide (q.status = WeaklyQualified))
              ∧ vr.SuccessfulInvites = 0 := by
  have hloop := analizeAuthorsLoop_eq_foldl rlpHash vc qualifications 0 {}
    (by simpa using hlen)
  rw [List.drop_zero] at hloop
  refine ⟨_, _, by rw [analizeAuthors, hloop], ?_⟩
  intro a
  have hgood := fold_goodAuthors rlpHash vc (qualifications.zip vc.flips) a
  unfold flipsAuthoredBy
  generalize List.foldl (fun acc p => analizeAuthorsBody acc (flipAuthor rlpHash vc p.2) p.1)
    {} (qualifications.zip vc.flips) = acc at hgood ⊢
  generalize ((qualifications.zip vc.flips).filter
    (fun p => decide (flipAuthor rlpHash vc p.2 = a))).map Prod.fst = F at hgood ⊢
  generalize markNonQualified acc.madeFlips acc.nonQualifiedFlips.entries acc.badAuthors
    = bad
  have hdel := deleteBad_get? bad.keys acc.goodAuthors a
  have hex : (∃ q ∈ F, q.status = Qualified ∨ q.status = WeaklyQualified) ↔
      ¬ (F.countP (fun q => decide (q.status = Qualified))
        + F.countP (fun q => decide (q.status = WeaklyQualified)) = 0) := by
    constructor
    · rintro ⟨q, hq, hs | hs⟩ h0
      · have : 0 < F.countP (fun q => decide (q.status = Qualified)) :=
          List.countP_pos_iff.mpr ⟨q, hq, by simpa using hs⟩
        omega
      · have : 0 < F.countP (fun q => decide (q.status = WeaklyQualified)) :=
          List.countP_pos_iff.mpr ⟨q, hq, by simpa using hs⟩
        omega
    · intro h0
      by_cases hq : 0 < F.countP (fun q => decide (q.status = Qualified))
      · obtain ⟨q, hq1, hq2⟩ := List.countP_pos_iff.mp hq
        exact ⟨q, hq1, Or.inl (by simpa using hq2)⟩
      · have hw : 0 < F.countP (fun q => decide (q.status = WeaklyQualified)) := by omega
        obtain ⟨q, hq1, hq2⟩ := List.countP_pos_iff.mp hw
        exact ⟨q, hq1, Or.inr (by simpa using hq2)⟩
  by_cases hb : a ∈ bad.keys
  · have hbc : bad.contains a = true := (GoMap.contains_iff_mem_keys bad a).mpr hb
    rw [if_pos hb] at hdel
    refine ⟨?_, ?_⟩
    · unfold GoMap.contains at hbc ⊢
      rw [hdel, hbc]
      simp
    · intro vr hvr
      rw [hdel] at hvr
      exact absurd hvr (by simp)
  · have hbc : bad.contains a = false := by
      cases hc : bad.contains a
      · rfl
      · exact absurd ((GoMap.contains_iff_mem_keys bad a).mp hc) hb
    rw [if_neg hb, hgood] at hdel
    refine ⟨?_, ?_⟩
    · rw [hex, hbc]
      unfold GoMap.contains
      rw [hdel]
      split <;> simp_all
    · intro vr hvr
      rw [hdel] at hvr
      split at hvr
      · exact absurd hvr (by simp)
      · rw [Option.some.injEq] at hvr
        subst hvr
        exact ⟨rfl, rfl, rfl⟩

theorem analizeAuthors_goodAuthors_witness :
    ∃ badAuthors goodAuthors,
      analizeAuthors testHash testCeremony testQualification = some (badAuthors, goodAuthors) ∧
      ∀ a : Address,
        (goodAuthors.contains a = true ↔
          badAuthors.contains a = false
            ∧ ∃ q ∈ flipsAuthoredBy testHash testCeremony testQualification a,
                q.status = Qualified ∨ q.status = WeaklyQualified)
        ∧ ∀ vr : ValidationResult, goodAuthors.get? a = some vr →
            vr.StrongFlips = (flipsAuthoredBy testHash testCeremony testQualification a).countP
                (fun q => decide (q.status = Qualified))
              ∧ vr.WeakFlips = (flipsAuthoredBy testHash testCeremony testQualification a).countP
                (fun q => decide (q.status = WeaklyQualified))
              ∧ vr.SuccessfulInvites = 0 :=
  analizeAuthors_goodAuthors testHash testCeremony testQualification (by decide)

/-! ## Properties of the successful invites -/

/-- C12: `incSuccessfulInvites` changes the authors record if and only if the
invitee's prior state is Candidate, the new state is Newbie, the invitee has an
inviter, and the inviter is in `goodAuthors` or is the god address.  In that
case the inviter's `SuccessfulInvites` increases by exactly 1 (a god entry
absent from `goodAuthors` is created with `SuccessfulInvites = 1` and no
flips), every other entry of `goodAuthors` is unchanged; `badAuthors` is
never changed. -/
theorem incSuccessfulInvites_spec (validationAuthors : ValidationAuthors) (god : Address)
    (invitee : Identity) (newState : IdentityState) :
    (incSuccessfulInvites validationAuthors god invitee newState ≠ validationAuthors ↔
      invitee.State = .Candidate ∧ newState = .Newbie ∧
        ∃ inviter, invitee.Inviter = some inviter ∧
          (validationAuthors.GoodAuthors.contains inviter.Address = true
            ∨ inviter.Address = god))
    ∧ (∀ inviter, invitee.State = .Candidate → newState = .Newbie →
        invitee.Inviter = some inviter →
        (validationAuthors.GoodAuthors.contains inviter.Address = true
            ∨ inviter.Address = god) →
        (∀ vr, validationAuthors.GoodAuthors.get? inviter.Address = some vr →
          (incSuccessfulInvites validationAuthors god invitee newState).GoodAuthors.get?
              inviter.Address =
            some { vr with SuccessfulInvites := vr.SuccessfulInvites + 1 })
        ∧ (validationAuthors.GoodAuthors.get? inviter.Address = none →
          (incSuccessfulInvites validationAuthors god invitee newState).GoodAuthors.get?
              inviter.Address =
            some { StrongFlips := 0, WeakFlips := 0, SuccessfulInvites := 1 })
        ∧ ∀ k, k ≠ inviter.Address →
          (incSuccessfulInvites validationAuthors god invitee newState).GoodAuthors.get? k =
            validationAuthors.GoodAuthors.get? k)
    ∧ (incSuccessfulInvites validationAuthors god invitee newState).BadAuthors =
        validationAuthors.BadAuthors := by
  by_cases hc : invitee.State = .Candidate ∧ newState = .Newbie
  · obtain ⟨hs, hn⟩ := hc
    cases hinv : invitee.Inviter with
    | none =>
      have hres : incSuccessfulInvites validationAuthors god invitee newState
          = validationAuthors := by
        simp [incSuccessfulInvites, hs, hn, hinv]
      rw [hres]
      simp
    | some inviter =>
      cases hget : validationAuthors.GoodAuthors.get? inviter.Address with
      | none =>
        have hcont : validationAuthors.GoodAuthors.contains inviter.Address = false := by
          simp [GoMap.contains, hget]
        by_cases hg : inviter.Address = god
        · have hres : incSuccessfulInvites validationAuthors god invitee newState =
              { validationAuthors with
                GoodAuthors := validationAuthors.GoodAuthors.set god
                  { SuccessfulInvites := 1 } } := by
            have hget' : validationAuthors.GoodAuthors.get? god = none := by
              rw [← hg]; exact hget
            simp [incSuccessfulInvites, hs, hn, hinv, hget', hg]
          have hne : ({ validationAuthors with
              GoodAuthors := validationAuthors.GoodAuthors.set god { SuccessfulInvites := 1 } }
              : ValidationAuthors) ≠ validationAuthors := by
            intro he
            have h1 := congrArg (fun va => va.GoodAuthors.get? god) he
            simp only [GoMap.get?_set, if_true] at h1
            rw [← hg, hget] at h1
            exact absurd h1 (by simp)
          rw [hres]
          refine ⟨?_, ?_, rfl⟩
          · constructor
            · intro _
              exact ⟨hs, hn, inviter, rfl, Or.inr hg⟩
            · intro _
              exact hne
          · intro inviter' _ _ hinv' _
            have hi : inviter = inviter' := by simpa using hinv'
            subst hi
            refine ⟨?_, ?_, ?_⟩
            · intro vr hvr
              rw [hget] at hvr
              exact absurd hvr (by simp)
            · intro _
              show (validationAuthors.GoodAuthors.set god { SuccessfulInvites := 1 }).get?
                inviter.Address = _
              rw [GoMap.get?_set, if_pos hg.symm]
            · intro k hk
              show (validationAuthors.GoodAuthors.set god { SuccessfulInvites := 1 }).get? k = _
              rw [GoMap.get?_set, if_neg]
              rw [← hg]
              exact fun e => hk e.symm
        · have hres : incSuccessfulInvites validationAuthors god invitee newState
              = validationAuthors := by
            simp [incSuccessfulInvites, hs, hn, hinv, hget, hg]
          rw [hres]
          refine ⟨?_, ?_, rfl⟩
          · constructor
            · intro h
              exact absurd rfl h
            · rintro ⟨_, _, inviter', hinv', hor⟩
              have hi : inviter = inviter' := by simpa using hinv'
              subst hi
              rcases hor with h | h
              · rw [hcont] at h
                exact absurd h (by simp)
              · exact absurd h hg
          · intro inviter' _ _ hinv' hor
            have hi : inviter = inviter' := by simpa using hinv'
            subst hi
            rcases hor with h | h
            · rw [hcont] at h
              exact absurd h (by simp)
            · exact absurd h hg
      | some vr =>
        have hcont : validationAuthors.GoodAuthors.contains inviter.Address = true := by
          simp [GoMap.contains, hget]
        have hres : incSuccessfulInvites validationAuthors god invitee newState =
            { validationAuthors with
              GoodAuthors := validationAuthors.GoodAuthors.set inviter.Address
                { vr with SuccessfulInvites := vr.SuccessfulInvites + 1 } } := by
          simp [incSuccessfulInvites, hs, hn, hinv, hget]
        have hne : ({ validationAuthors with
            GoodAuthors := validationAuthors.GoodAuthors.set inviter.Address
              { vr with SuccessfulInvites := vr.SuccessfulInvites + 1 } }
            : ValidationAuthors) ≠ validationAuthors := by
          intro he
          have h1 := congrArg (fun va => va.GoodAuthors.get? inviter.Address) he
          simp only [GoMap.get?_set, if_true] at h1
          rw [hget, Option.some.injEq] at h1
          have h2 := congrArg ValidationResult.SuccessfulInvites h1
          simp at h2
        rw [hres]
        refine ⟨?_, ?_, rfl⟩
        · constructor
          · intro _
            exact ⟨hs, hn, inviter, rfl, Or.inl hcont⟩
          · intro _
            exact hne
        · intro inviter' _ _ hinv' _
          have hi : inviter = inviter' := by simpa using hinv'
          subst hi
          refine ⟨?_, ?_, ?_⟩
          · intro vr' hvr'
            rw [hget, Option.some.injEq] at hvr'
            subst hvr'
            show (validationAuthors.GoodAuthors.set inviter.Address _).get? inviter.Address = _
            rw [GoMap.get?_set, if_pos rfl]
          · intro hnone
            rw [hget] at hnone
            exact absurd hnone (by simp)
          · intro k hk
            show (validationAuthors.GoodAuthors.set inviter.Address _).get? k = _
            rw [GoMap.get?_set, if_neg (fun e => hk e.symm)]
  · have hres : incSuccessfulInvites validationAuthors god invitee newState
        = validationAuthors := by
      unfold incSuccessfulInvites
      rw [if_neg hc]
    rw [hres]
    refine ⟨?_, ?_, rfl⟩
    · constructor
      · intro h
        exact absurd rfl h
      · rintro ⟨h1, h2, _⟩
        exact absurd ⟨h1, h2⟩ hc
    · intro inviter h1 h2
      exact absurd ⟨h1, h2⟩ hc

theorem incSuccessfulInvites_spec_witness :
    (incSuccessfulInvites testAuthors 1 (testInvitee .Candidate 2) .Newbie).GoodAuthors.get? 2 =
        some { StrongFlips := 1, WeakFlips := 1, SuccessfulInvites := 1 }
      ∧ (incSuccessfulInvites testAuthors 1 (testInvitee .Candidate 1) .Newbie).GoodAuthors.get? 1 =
        some { StrongFlips := 0, WeakFlips := 0, SuccessfulInvites := 1 } :=
  ⟨((incSuccessfulInvites_spec testAuthors 1 (testInvitee .Candidate 2) .Newbie).2.1
      { Address := 2 } rfl rfl rfl (Or.inl (by decide))).1
      { StrongFlips := 1, WeakFlips := 1, SuccessfulInvites := 0 } (by decide),
    ((incSuccessfulInvites_spec testAuthors 1 (testInvitee .Candidate 1) .Newbie).2.1
      { Address := 1 } rfl rfl rfl (Or.inr rfl)).2.1 (by decide)⟩

/-- C13 (as stated, refuted): when all four invitees with inviters `G, A, B, G`
transition Candidate→Newbie, the god address is credited twice:
`successfulInvites[G] = 2`, not 1. -/
theorem incSuccessfulInvites_four_candidates_counterexample :
    ((incSuccessfulInvites (incSuccessfulInvites (incSuccessfulInvites (incSuccessfulInvites
        testAuthors 1 (testInvitee .Candidate 1) .Newbie)
        1 (testInvitee .Candidate 2) .Newbie)
        1 (testInvitee .Candidate 3) .Newbie)
        1 (testInvitee .Candidate 1) .Newbie).GoodAuthors.get? 1).map
          ValidationResult.SuccessfulInvites = some 2
      ∧ ((incSuccessfulInvites (incSuccessfulInvites (incSuccessfulInvites (incSuccessfulInvites
        testAuthors 1 (testInvitee .Candidate 1) .Newbie)
        1 (testInvitee .Candidate 2) .Newbie)
        1 (testInvitee .Candidate 3) .Newbie)
        1 (testInvitee .Candidate 1) .Newbie).GoodAuthors.get? 1).map
          ValidationResult.SuccessfulInvites ≠ some 1 := by
  constructor <;> decide

/-- C13 (amended): for distinct addresses `G`, `A` and `B`, starting from
`goodAuthors = {A}` with `SuccessfulInvites = 0`, `badAuthors = {B}` and god
`G` in neither, applying `incSuccessfulInvites` to four invitees that become
Newbie with inviters `G, A, B, G` in that order, the first from prior state
Verified and the other three from Candidate, yields
`successfulInvites[A] = 1`, `successfulInvites[G] = 1` and `B ∉ goodAuthors`:
the record of `A` keeps its flip counts, the record of `G` is new, and the bad
authors are unchanged.  The invitees are any identities with these states and
inviters. -/
theorem incSuccessfulInvites_test_scenario (G A B : Address) (strong weak : Nat)
    (i1 i2 i3 i4 : Identity) (x1 x2 x3 x4 : TxAddr)
    (hGA : G ≠ A) (hGB : G ≠ B) (hAB : A ≠ B) :
    (incSuccessfulInvites (incSuccessfulInvites (incSuccessfulInvites (incSuccessfulInvites
        { BadAuthors := ⟨[(B, ())]⟩,
          GoodAuthors :=
            ⟨[(A, { StrongFlips := strong, WeakFlips := weak, SuccessfulInvites := 0 })]⟩ }
        G { i1 with State := .Verified, Inviter := some { x1 with Address := G } } .Newbie)
        G { i2 with State := .Candidate, Inviter := some { x2 with Address := A } } .Newbie)
        G { i3 with State := .Candidate, Inviter := some { x3 with Address := B } } .Newbie)
        G { i4 with State := .Candidate, Inviter := some { x4 with Address := G } } .Newbie).GoodAuthors.get? A
      = some { StrongFlips := strong, WeakFlips := weak, SuccessfulInvites := 1 }
    ∧ (incSuccessfulInvites (incSuccessfulInvites (incSuccessfulInvites (incSuccessfulInvites
        { BadAuthors := ⟨[(B, ())]⟩,
          GoodAuthors :=
            ⟨[(A, { StrongFlips := strong, WeakFlips := weak, SuccessfulInvites := 0 })]⟩ }
        G { i1 with State := .Verified, Inviter := some { x1 with Address := G } } .Newbie)
        G { i2 with State := .Candidate, Inviter := some { x2 with Address := A } } .Newbie)
        G { i3 with State := .Candidate, Inviter := some { x3 with Address := B } } .Newbie)
        G { i4 with State := .Candidate, Inviter := some { x4 with Address := G } } .Newbie).GoodAuthors.get? G
      = some { StrongFlips := 0, WeakFlips := 0, SuccessfulInvites := 1 }
    ∧ (incSuccessfulInvites (incSuccessfulInvites (incSuccessfulInvites (incSuccessfulInvites
        { BadAuthors := ⟨[(B, ())]⟩,
          GoodAuthors :=
            ⟨[(A, { StrongFlips := strong, WeakFlips := weak, SuccessfulInvites := 0 })]⟩ }
        G { i1 with State := .Verified, Inviter := some { x1 with Address := G } } .Newbie)
        G { i2 with State := .Candidate, Inviter := some { x2 with Address := A } } .Newbie)
        G { i3 with State := .Candidate, Inviter := some { x3 with Address := B } } .Newbie)
        G { i4 with State := .Candidate, Inviter := some { x4 with Address := G } } .Newbie).GoodAuthors.contains B = false
    ∧ (incSuccessfulInvites (incSuccessfulInvites (incSuccessfulInvites (incSuccessfulInvites
        { BadAuthors := ⟨[(B, ())]⟩,
          GoodAuthors :=
            ⟨[(A, { StrongFlips := strong, WeakFlips := weak, SuccessfulInvites := 0 })]⟩ }
        G { i1 with State := .Verified, Inviter := some { x1 with Address := G } } .Newbie)
        G { i2 with State := .Candidate, Inviter := some { x2 with Address := A } } .Newbie)
        G { i3 with State := .Candidate, Inviter := some { x3 with Address := B } } .Newbie)
        G { i4 with State := .Candidate, Inviter := some { x4 with Address := G } } .Newbie).BadAuthors = ⟨[(B, ())]⟩ := by
  have hAG : ¬ A = G := fun h => hGA h.symm
  have hBA : ¬ B = A := fun h => hAB h.symm
  have hBG : ¬ B = G := fun h => hGB h.symm
  have hres : (incSuccessfulInvites (incSuccessfulInvites (incSuccessfulInvites (incSuccessfulInvites
        { BadAuthors := ⟨[(B, ())]⟩,
          GoodAuthors :=
            ⟨[(A, { StrongFlips := strong, WeakFlips := weak, SuccessfulInvites := 0 })]⟩ }
        G { i1 with State := .Verified, Inviter := some { x1 with Address := G } } .Newbie)
        G { i2 with State := .Candidate, Inviter := some { x2 with Address := A } } .Newbie)
        G { i3 with State := .Candidate, Inviter := some { x3 with Address := B } } .Newbie)
        G { i4 with State := .Candidate, Inviter := some { x4 with Address := G } } .Newbie)
      = { BadAuthors := ⟨[(B, ())]⟩,
          GoodAuthors :=
            ⟨[(A, { StrongFlips := strong, WeakFlips := weak, SuccessfulInvites := 1 }),
              (G, { StrongFlips := 0, WeakFlips := 0, SuccessfulInvites := 1 })]⟩ } := by
    simp [incSuccessfulInvites, GoMap.get?, GoMap.set, GoMap.setList, hAG, hBA, hBG, hGA,
      hAB]
  rw [hres]
  refine ⟨?_, ?_, ?_, rfl⟩
  · simp [GoMap.get?]
  · simp [GoMap.get?, hAG]
  · simp [GoMap.contains, GoMap.get?, hAB, hGB]

theorem incSuccessfulInvites_test_scenario_witness :
    (incSuccessfulInvites (incSuccessfulInvites (incSuccessfulInvites (incSuccessfulInvites
        testAuthors
        1 (testInvitee .Verified 1) .Newbie)
        1 (testInvitee .Candidate 2) .Newbie)
        1 (testInvitee .Candidate 3) .Newbie)
        1 (testInvitee .Candidate 1) .Newbie).GoodAuthors.get? 2
      = some { StrongFlips := 1, WeakFlips := 1, SuccessfulInvites := 1 }
    ∧ (incSuccessfulInvites (incSuccessfulInvites (incSuccessfulInvites (incSuccessfulInvites
        testAuthors
        1 (testInvitee .Verified 1) .Newbie)
        1 (testInvitee .Candidate 2) .Newbie)
        1 (testInvitee .Candidate 3) .Newbie)
        1 (testInvitee .Candidate 1) .Newbie).GoodAuthors.get? 1
      = some { StrongFlips := 0, WeakFlips := 0, SuccessfulInvites := 1 }
    ∧ (incSuccessfulInvites (incSuccessfulInvites (incSuccessfulInvites (incSuccessfulInvites
        testAuthors
        1 (testInvitee .Verified 1) .Newbie)
        1 (testInvitee .Candidate 2) .Newbie)
        1 (testInvitee .Candidate 3) .Newbie)
        1 (testInvitee .Candidate 1) .Newbie).GoodAuthors.contains 3 = false
    ∧ (incSuccessfulInvites (incSuccessfulInvites (incSuccessfulInvites (incSuccessfulInvites
        testAuthors
        1 (testInvitee .Verified 1) .Newbie)
        1 (testInvitee .Candidate 2) .Newbie)
        1 (testInvitee .Candidate 3) .Newbie)
        1 (testInvitee .Candidate 1) .Newbie).BadAuthors = ⟨[(3, ())]⟩ :=
  incSuccessfulInvites_test_scenario 1 2 3 1 1 {} {} {} {} {} {} {} {}
    (by decide) (by decide) (by decide)

/-! ## Properties of the not approved flips -/

/-- C14: `getNotApprovedFlips` returns exactly the set of the flip indices
`flipPos(flips, f)` for every flip `f` in `flipsPerAuthor[i]` of every
candidate index `i` whose address is not in the approved set and whose
`requiredFlips` is greater than 0; approved candidates and candidates with no
required flips contribute nothing. -/
theorem getNotApprovedFlips_spec (requiredFlips : Address → Nat) (vc : ValidationCeremony)
    (approvedCandidates : GoSet Address) :
    (getNotApprovedFlips requiredFlips vc approvedCandidates).elems.Nodup
    ∧ ∀ x : Int,
      x ∈ (getNotApprovedFlips requiredFlips vc approvedCandidates).elems ↔
        ∃ (i : Nat) (c : candidate) (f : Bytes),
          vc.candidates[i]? = some c ∧ approvedCandidates.Contains c.Address = false
            ∧ 0 < requiredFlips c.Address
            ∧ f ∈ (vc.flipsPerAuthor.get? i).getD [] ∧ flipPos vc.flips f = x := by
  refine ⟨getNotApprovedFlipsLoop_nodup _ _ _ _ 0 {} List.nodup_nil, ?_⟩
  intro x
  unfold getNotApprovedFlips
  rw [getNotApprovedFlipsLoop_mem]
  simp

/-- The example of `Test_getNotApprovedFlips`: with the second candidate
approved and no flips required of the third, the not approved flips are
`{0, 1, 2}`. -/
theorem getNotApprovedFlips_test :
    (getNotApprovedFlips testRequiredFlips testNotApprovedCeremony ⟨[11]⟩).elems = [0, 1, 2] := by
  decide

/-! ## Properties of the flips to solve -/

/-- C19: for a non-empty flip list and non-negative flip indices,
`getFlipsToSolve` returns `flips[idx mod |flips|]` for every `idx` of
`flipsPerCandidate[i]`, in order and with duplicates kept, where `i` is the
first index with `candidates[i].Address = self`; it returns an empty result
when no candidate has address `self`. -/
theorem getFlipsToSolve_spec (self : Address) (participants : List candidate)
    (flipsPerCandidate : List (List Int)) (flipCids : List Bytes)
    (hflips : flipCids ≠ []) :
    (∀ (i : Nat) (c : candidate) (myFlips : List Int),
        participants[i]? = some c → c.Address = self →
        (∀ (j : Nat) (c' : candidate), j < i → participants[j]? = some c' →
          c'.Address ≠ self) →
        flipsPerCandidate[i]? = some myFlips →
        (∀ idx ∈ myFlips, 0 ≤ idx) →
        ∃ result,
          getFlipsToSolve self participants flipsPerCandidate flipCids = some result ∧
          result.map some =
            myFlips.map (fun idx => flipCids[(idx % (flipCids.length : Int)).toNat]?))
    ∧ ((∀ c ∈ participants, c.Address ≠ self) →
        getFlipsToSolve self participants flipsPerCandidate flipCids = some []) := by
  constructor
  · intro i c myFlips hi hc hfirst hmy hnonneg
    obtain ⟨r, hr, hmap⟩ := solveFlips_spec flipCids hflips myFlips hnonneg
    refine ⟨r, ?_, hmap⟩
    unfold getFlipsToSolve
    rw [getFlipsToSolveFrom_first self flipsPerCandidate flipCids participants 0 i c hi hc
      hfirst, Nat.zero_add, hmy]
    exact hr
  · intro h
    exact getFlipsToSolveFrom_absent self flipsPerCandidate flipCids participants 0 h

theorem getFlipsToSolve_spec_witness :
    (∃ result,
        getFlipsToSolve 7 [{ Address := 7 }, { Address := 1 }] [[0, 1, 6], [4, 2, 8]]
          [[1], [2], [3], [4], [5]] = some result ∧
        result.map some = [some [1], some [2], some [2]])
      ∧ getFlipsToSolve 9 [{ Address := 7 }, { Address := 1 }] [[0, 1, 6], [4, 2, 8]]
          [[1], [2], [3], [4], [5]] = some [] :=
  ⟨(getFlipsToSolve_spec 7 [{ Address := 7 }, { Address := 1 }] [[0, 1, 6], [4, 2, 8]]
      [[1], [2], [3], [4], [5]] (by decide)).1 0 { Address := 7 } [0, 1, 6] rfl rfl
      (fun j _ hj => absurd hj (Nat.not_lt_zero j)) rfl (by decide),
    (getFlipsToSolve_spec 9 [{ Address := 7 }, { Address := 1 }] [[0, 1, 6], [4, 2, 8]]
      [[1], [2], [3], [4], [5]] (by decide)).2 (by decide)⟩

/-! ## Properties of the lottery seed -/

/-- C20 (failing input): for a lottery block at height 99 the code computes
the seed height 1, whereas `max(height + 2 - LotterySeedLag, 2)` is 2. -/
theorem handleFlipLotteryPeriod_seedHeight_at_99 :
    handleFlipLotteryPeriod_seedHeight 99 = 1
      ∧ max (99 + 2 - LotterySeedLag) 2 = 2
      ∧ LotterySeedLag = 100 := by
  decide

/-- Away from height 99, and as long as `height + 2` does not wrap around in
`uint64`, the seed height is `max(height + 2 - LotterySeedLag, 2)`. -/
theorem handleFlipLotteryPeriod_seedHeight_eq_max (height : Nat)
    (hwrap : height + 2 < 2 ^ 64) (h99 : height ≠ 99) :
    handleFlipLotteryPeriod_seedHeight height = max (height + 2 - LotterySeedLag) 2 := by
  unfold handleFlipLotteryPeriod_seedHeight LotterySeedLag
  simp only
  rw [Nat.mod_eq_of_lt hwrap]
  by_cases h : height + 2 > 100
  · rw [if_pos h, Nat.mod_eq_of_lt (by omega)]
    omega
  · rw [if_neg h]
    omega

/-! ## Properties of `ApplyNewEpoch` -/

/-- C15: for every candidate processed by `ApplyNewEpoch` the computed
`missed` flag equals
`!approved ∨ (fullQual ∧ (shortQualified = 0 ∨ longQualified = 0))` where
`fullQual = !noQualShort ∧ !noQualLong`. -/
theorem candidateScores_missed (fl : FloatOps) (shortFlipPoint : float32)
    (shortQualifiedFlipsCount : Nat) (noQualShort : Bool) (longFlipPoint : float32)
    (longQualifiedFlipsCount : Nat) (noQualLong : Bool) (totalFlipPoints : float32)
    (totalQualifiedFlipsCount : Nat) (approved : Bool) :
    (candidateScores fl shortFlipPoint shortQualifiedFlipsCount noQualShort longFlipPoint
        longQualifiedFlipsCount noQualLong totalFlipPoints totalQualifiedFlipsCount
        approved).missed =
      (!approved || ((!noQualShort && !noQualLong)
        && (decide (shortQualifiedFlipsCount = 0) || decide (longQualifiedFlipsCount = 0)))) := by
  unfold candidateScores
  simp only
  by_cases hs : shortQualifiedFlipsCount > 0 <;> by_cases hl : longQualifiedFlipsCount > 0
    <;> cases approved <;> cases noQualShort <;> cases noQualLong
    <;> simp [hs, hl, Nat.pos_iff_ne_zero.mp, Nat.ne_of_gt] <;> omega

/-- C16: an uncached call of `ApplyNewEpoch` (for which no index panics)
returns, and it returns `failed = true` if and only if no candidate's computed
new state is Verified or Newbie; in that case the returned identity count is
the network size of the validators cache and the returned authors are the
computed validation authors. -/
theorem ApplyNewEpoch_failed_iff (env : Collaborators) (vc : ValidationCeremony)
    (height : Nat) (appState : StateDB)
    (hcache : vc.epochApplyingCache.get? height = none)
    (hshort : vc.candidates.length ≤ vc.shortFlipsPerCandidate.length)
    (hlong : vc.candidates.length ≤ vc.longFlipsPerCandidate.length)
    (hqual : (epochInputs env vc).flipQualification.length ≤ vc.flips.length) :
    ∃ r acc, ApplyNewEpoch env vc height appState = some r
      ∧ computeValidation env vc appState = some acc
      ∧ (r.failed = true ↔
          ∀ (idx : Nat) (c : candidate) (iv : Identity × cacheValue),
            vc.candidates[idx]? = some c →
            candidateValue env vc appState (epochInputs env vc) idx c = some iv →
            iv.2.state ≠ .Verified ∧ iv.2.state ≠ .Newbie)
      ∧ (r.failed = true →
          r.identitiesCount = env.networkSize ∧ r.authors = acc.validationAuthors) := by
  obtain ⟨acc, hacc, hcount⟩ := computeValidation_spec env vc appState hshort hlong hqual
  rw [ApplyNewEpoch_of_uncached env vc height appState hcache]
  unfold applyComputed
  rw [hacc]
  simp only
  by_cases h0 : acc.intermediateIdentitiesCount = 0
  · rw [if_pos h0]
    refine ⟨_, acc, rfl, rfl, ?_, ?_⟩
    · constructor
      · intro _
        exact hcount.mp h0
      · intro _
        rfl
    · intro _
      exact ⟨rfl, rfl⟩
  · rw [if_neg h0]
    refine ⟨_, acc, rfl, rfl, ?_, ?_⟩
    · constructor
      · intro hf
        exact absurd hf (by simp)
      · intro hall
        exact absurd (hcount.mpr hall) h0
    · intro hf
      exact absurd hf (by simp)

theorem ApplyNewEpoch_failed_iff_witness :
    ∃ r acc, ApplyNewEpoch testEnvNoApproval testEpochCeremony 100 testState = some r
      ∧ computeValidation testEnvNoApproval testEpochCeremony testState = some acc
      ∧ (r.failed = true ↔
          ∀ (idx : Nat) (c : candidate) (iv : Identity × cacheValue),
            testEpochCeremony.candidates[idx]? = some c →
            candidateValue testEnvNoApproval testEpochCeremony testState
              (epochInputs testEnvNoApproval testEpochCeremony) idx c = some iv →
            iv.2.state ≠ .Verified ∧ iv.2.state ≠ .Newbie)
      ∧ (r.failed = true →
          r.identitiesCount = testEnvNoApproval.networkSize
            ∧ r.authors = acc.validationAuthors) :=
  ApplyNewEpoch_failed_iff testEnvNoApproval testEpochCeremony 100 testState
    rfl (by decide) (by decide) (by decide)

/-- C17: whenever `ApplyNewEpoch` returns `failed = true`, on the first
computation or from the cache, the passed state is returned as it was: no
identity's state, birthday, qualified-flips count or short-flip points is
changed. -/
theorem ApplyNewEpoch_failed_no_mutation (env : Collaborators) (vc : ValidationCeremony)
    (height : Nat) (appState : StateDB) (r : ApplyResult)
    (hcall : ApplyNewEpoch env vc height appState = some r) (hfailed : r.failed = true) :
    r.appState = appState
      ∧ ∀ addr : Address, r.appState.GetIdentity addr = appState.GetIdentity addr := by
  have hstate : r.appState = appState := by
    unfold ApplyNewEpoch at hcall
    cases hfc : applyFromCache env vc height appState with
    | some r' =>
      rw [hfc] at hcall
      simp only [Option.some.injEq] at hcall
      subst hcall
      unfold applyFromCache at hfc
      cases hc : vc.epochApplyingCache.get? height with
      | none => rw [hc] at hfc; exact absurd hfc (by simp)
      | some applyingCache =>
        rw [hc] at hfc
        simp only at hfc
        split at hfc
        · rw [Option.some.injEq] at hfc
          rw [← hfc]
        · split at hfc
          · rw [Option.some.injEq] at hfc
            rw [← hfc] at hfailed
            exact absurd hfailed (by simp)
          · exact absurd hfc (by simp)
    | none =>
      rw [hfc] at hcall
      simp only at hcall
      unfold applyComputed at hcall
      cases hacc : computeValidation env vc appState with
      | none => rw [hacc] at hcall; exact absurd hcall (by simp)
      | some acc =>
        rw [hacc] at hcall
        simp only at hcall
        split at hcall
        · rw [Option.some.injEq] at hcall
          rw [← hcall]
        · rw [Option.some.injEq] at hcall
          rw [← hcall] at hfailed
          exact absurd hfailed (by simp)
  exact ⟨hstate, fun addr => by rw [hstate]⟩

theorem ApplyNewEpoch_failed_no_mutation_witness :
    ∃ r, ApplyNewEpoch testEnvNoApproval testEpochCeremony 100 testState = some r
      ∧ r.failed = true
      ∧ r.appState = testState
      ∧ ∀ addr : Address, r.appState.GetIdentity addr = testState.GetIdentity addr := by
  have hsome : (ApplyNewEpoch testEnvNoApproval testEpochCeremony 100 testState).isSome
      = true := by decide
  obtain ⟨r, hr⟩ := Option.isSome_iff_exists.mp hsome
  have hf : (ApplyNewEpoch testEnvNoApproval testEpochCeremony 100 testState).map
      (fun r => r.failed) = some true := by decide
  rw [hr] at hf
  have hf' : r.failed = true := by simpa using hf
  have h := ApplyNewEpoch_failed_no_mutation testEnvNoApproval testEpochCeremony 100
    testState r hr hf'
  exact ⟨r, hr, hf', h.1, h.2⟩

/-- C18: a second call `ApplyNewEpoch(h)` made after a first call for the same
`h` is served from the cache and is observationally equivalent to the first:
run on the same initial state it returns the same
`(identitiesCount, authors, failed)` triple and leaves the same state, that
is, it applies the same per-address state, birthday, qualified-flips and
short-points updates.  The non-candidates are distinct addresses that are not
candidates, as `getCandidatesAndFlips` builds them. -/
theorem ApplyNewEpoch_memoized (env : Collaborators) (vc : ValidationCeremony)
    (height : Nat) (appState : StateDB) (r₁ : ApplyResult)
    (hnodup : vc.nonCandidates.Nodup)
    (hdisjoint : ∀ addr ∈ vc.nonCandidates, ∀ c ∈ vc.candidates, c.Address ≠ addr)
    (hfirst : ApplyNewEpoch env vc height appState = some r₁) :
    ∃ r₂, applyFromCache env r₁.vc height appState = some r₂
      ∧ ApplyNewEpoch env r₁.vc height appState = some r₂
      ∧ r₂.identitiesCount = r₁.identitiesCount
      ∧ r₂.authors = r₁.authors
      ∧ r₂.failed = r₁.failed
      ∧ r₂.appState = r₁.appState
      ∧ r₂.vc = r₁.vc := by
  have hserved : ∀ r₂, applyFromCache env r₁.vc height appState = some r₂ →
      ApplyNewEpoch env r₁.vc height appState = some r₂ := by
    intro r₂ h
    unfold ApplyNewEpoch
    rw [h]
  unfold ApplyNewEpoch at hfirst
  cases hfc : applyFromCache env vc height appState with
  | some r' =>
    rw [hfc] at hfirst
    simp only [Option.some.injEq] at hfirst
    subst hfirst
    have hvc := applyFromCache_vc env vc height appState r' hfc
    have h2 : applyFromCache env r'.vc height appState = some r' := by
      rw [hvc]; exact hfc
    exact ⟨r', h2, hserved r' h2, rfl, rfl, rfl, rfl, rfl⟩
  | none =>
    rw [hfc] at hfirst
    simp only at hfirst
    unfold applyComputed at hfirst
    cases hacc : computeValidation env vc appState with
    | none => rw [hacc] at hfirst; exact absurd hfirst (by simp)
    | some acc =>
      rw [hacc] at hfirst
      simp only at hfirst
      obtain ⟨hkeys, hne⟩ := computeValidation_values env vc appState acc hacc
      by_cases h0 : acc.intermediateIdentitiesCount = 0
      · rw [if_pos h0, Option.some.injEq] at hfirst
        subst hfirst
        have h2 : applyFromCache env
            { vc with
              epochApplyingCache := vc.epochApplyingCache.set height
                { epochApplyingResult := acc.epochApplyingValues,
                  validationAuthors := acc.validationAuthors,
                  validationFailed := true } } height appState =
            some { identitiesCount := env.networkSize, authors := acc.validationAuthors,
                   failed := true,
                   vc := { vc with
                     epochApplyingCache := vc.epochApplyingCache.set height
                       { epochApplyingResult := acc.epochApplyingValues,
                         validationAuthors := acc.validationAuthors,
                         validationFailed := true } },
                   appState := appState } := by
          unfold applyFromCache
          simp only [GoMap.get?_set, if_true]
        exact ⟨_, h2, hserved _ h2, rfl, rfl, rfl, rfl, rfl⟩
      · rw [if_neg h0, Option.some.injEq] at hfirst
        subst hfirst
        obtain ⟨added, hentries, happlied⟩ := nonCandidatesLoop_spec env.floatOps vc.epoch
          vc.nonCandidates
          { appState := (applyAllOnState env.floatOps acc.epochApplyingValues.entries
              (appState, 0)).1,
            identitiesCount := (applyAllOnState env.floatOps acc.epochApplyingValues.entries
              (appState, 0)).2,
            epochApplyingValues := acc.epochApplyingValues }
          hnodup
          (by
            intro addr ha hmem
            obtain ⟨c, hc, hca⟩ := hkeys addr hmem
            exact hdisjoint addr ha c hc hca)
        generalize nonCandidatesLoop env.floatOps vc.epoch vc.nonCandidates
          { appState := (applyAllOnState env.floatOps acc.epochApplyingValues.entries
              (appState, 0)).1,
            identitiesCount := (applyAllOnState env.floatOps acc.epochApplyingValues.entries
              (appState, 0)).2,
            epochApplyingValues := acc.epochApplyingValues } = final
          at hentries happlied hserved ⊢
        simp only at hentries happlied
        have hlen : final.epochApplyingValues.entries.length > 0 := by
          rw [hentries, List.length_append]
          have := List.length_pos.mpr (hne h0)
          omega
        have hall : applyAllOnState env.floatOps final.epochApplyingValues.entries
            (appState, 0) = (final.appState, final.identitiesCount) := by
          rw [hentries, applyAllOnState_append]
          exact happlied
        have h2 : applyFromCache env
            { vc with
              epochApplyingCache := vc.epochApplyingCache.set height
                { epochApplyingResult := final.epochApplyingValues,
                  validationAuthors := acc.validationAuthors,
                  validationFailed := false } } height appState =
            some { identitiesCount := final.identitiesCount,
                   authors := acc.validationAuthors,
                   failed := false,
                   vc := { vc with
                     epochApplyingCache := vc.epochApplyingCache.set height
                       { epochApplyingResult := final.epochApplyingValues,
                         validationAuthors := acc.validationAuthors,
                         validationFailed := false } },
                   appState := final.appState } := by
          unfold applyFromCache
          simp only [GoMap.get?_set, if_true, Bool.false_eq_true, if_false, hlen, hall]
        exact ⟨_, h2, hserved _ h2, rfl, rfl, rfl, rfl, rfl⟩

theorem ApplyNewEpoch_memoized_witness :
    ∃ r₁ r₂, ApplyNewEpoch testEnv testEpochCeremony 100 testState = some r₁
      ∧ applyFromCache testEnv r₁.vc 100 testState = some r₂
      ∧ ApplyNewEpoch testEnv r₁.vc 100 testState = some r₂
      ∧ r₂.identitiesCount = r₁.identitiesCount
      ∧ r₂.authors = r₁.authors
      ∧ r₂.failed = r₁.failed
      ∧ r₂.appState = r₁.appState
      ∧ r₂.vc = r₁.vc := by
  obtain ⟨r₁, h₁⟩ := ApplyNewEpoch_isSome testEnv testEpochCeremony 100 testState
    rfl (by decide) (by decide) (by decide)
  obtain ⟨r₂, h₂⟩ := ApplyNewEpoch_memoized testEnv testEpochCeremony 100 testState r₁
    (by decide) (by decide) h₁
  exact ⟨r₁, r₂, h₁, h₂⟩

/-! ## Further properties of the identity transition -/

/-- C25: an identity whose prior state is Killed stays Killed, for all scores
and flags and whether or not it has done all its required flips. -/
theorem determineNewIdentityState_killed (identity : Identity) (s l t : float32)
    (q : Nat) (missed ns nl : Bool) (hState : identity.State = .Killed) :
    determineNewIdentityState identity s l t q missed ns nl = IdentityState.Killed := by
  unfold determineNewIdentityState
  rw [hState]
  cases identity.HasDoneAllRequiredFlips <;> rfl

theorem determineNewIdentityState_killed_witness :
    determineNewIdentityState { State := .Killed } (.finite 1) (.finite 1) (.finite 1) 20
        false true true = IdentityState.Killed
      ∧ determineNewIdentityState { State := .Killed, RequiredFlips := 3 } (.finite 0)
        (.finite 0) (.finite 0) 0 true false false = IdentityState.Killed :=
  ⟨determineNewIdentityState_killed { State := .Killed } (.finite 1) (.finite 1) (.finite 1)
      20 false true true rfl,
    determineNewIdentityState_killed { State := .Killed, RequiredFlips := 3 } (.finite 0)
      (.finite 0) (.finite 0) 0 true false false rfl⟩

/-- C29: a missed identity is never promoted: when `missed = true`,
`determineNewIdentityState` returns Newbie only when the prior state is Newbie
and returns Verified only when the prior state is Verified. -/
theorem determineNewIdentityState_missed_not_promoted (identity : Identity)
    (s l t : float32) (q : Nat) (ns nl : Bool) :
    (determineNewIdentityState identity s l t q true ns nl = IdentityState.Newbie →
        identity.State = .Newbie)
      ∧ (determineNewIdentityState identity s l t q true ns nl = IdentityState.Verified →
        identity.State = .Verified) := by
  unfold determineNewIdentityState
  cases identity.HasDoneAllRequiredFlips <;> cases hst : identity.State <;>
    simp only [Bool.not_true, Bool.not_false, Bool.false_eq_true, if_false, if_true] <;>
    refine ⟨?_, ?_⟩ <;> intro h <;> first
      | rfl
      | exact absurd h (by decide)
      | (split_ifs at h <;> simp_all)

theorem determineNewIdentityState_missed_not_promoted_witness :
    determineNewIdentityState { State := .Newbie } (.finite 1) (.finite 1) (.finite 1) 5
        true true false = IdentityState.Newbie
      ∧ ({ State := .Newbie } : Identity).State = IdentityState.Newbie :=
  ⟨by simp [determineNewIdentityState, Identity.HasDoneAllRequiredFlips],
    (determineNewIdentityState_missed_not_promoted { State := .Newbie } (.finite 1)
      (.finite 1) (.finite 1) 5 true false).1
      (by simp [determineNewIdentityState, Identity.HasDoneAllRequiredFlips])⟩

/-! ## Properties of `flipPos` -/

/-- C26: `flipPos(flips, f)` is the smallest index `i` such that `flips[i]`
equals `f` byte for byte, and `-1` when no element of `flips` equals `f`. -/
theorem flipPos_spec (flips : List Bytes) (f : Bytes) :
    (∀ i : Nat, flips[i]? = some f → (∀ j, j < i → flips[j]? ≠ some f) →
        flipPos flips f = (i : Int))
      ∧ (f ∉ flips → flipPos flips f = -1) := by
  constructor
  · intro i hi hfirst
    unfold flipPos
    rw [flipPosFrom_first f flips 0 i hi hfirst, Nat.zero_add]
  · intro h
    exact flipPosFrom_absent f flips 0 h

theorem flipPos_spec_witness :
    flipPos [[1, 2, 3], [1, 2, 3, 4], [2, 3, 4], [1, 2, 3, 4]] [1, 2, 3, 4] = 1
      ∧ flipPos [[1, 2, 3], [1, 2, 3, 4], [2, 3, 4], [1, 2, 3, 4]] [1, 2, 3, 4, 5] = -1
      ∧ flipPos [[1, 2, 3], [1, 2, 3, 4], [2, 3, 4], [1, 2, 3, 4]] [1, 2] = -1 :=
  ⟨(flipPos_spec [[1, 2, 3], [1, 2, 3, 4], [2, 3, 4], [1, 2, 3, 4]] [1, 2, 3, 4]).1 1 rfl
      (by decide),
    (flipPos_spec [[1, 2, 3], [1, 2, 3, 4], [2, 3, 4], [1, 2, 3, 4]] [1, 2, 3, 4, 5]).2
      (by decide),
    (flipPos_spec [[1, 2, 3], [1, 2, 3, 4], [2, 3, 4], [1, 2, 3, 4]] [1, 2]).2 (by decide)⟩

/-! ## Properties of the sizes of the sessions -/

/-- C21: for a non-empty candidate list `LongSessionFlipsCount` returns
`max(1, ⌊|flips| · LongSessionTesters / |candidates|⌋)`, and with no candidates
it returns 1 (the product `|flips| · LongSessionTesters` fits Go's `int`). -/
theorem LongSessionFlipsCount_spec (env : LotteryCollaborators) (vc : ValidationCeremony)
    (hfits : vc.flips.length * env.LongSessionTesters < 2 ^ 63) :
    (vc.candidates ≠ [] →
        LongSessionFlipsCount env vc =
          max 1 (vc.flips.length * env.LongSessionTesters / vc.candidates.length))
      ∧ (vc.candidates = [] → LongSessionFlipsCount env vc = 1) := by
  constructor
  · intro hne
    have hpos : 0 < vc.candidates.length := List.length_pos.mpr hne
    have hwrap : wrapInt64 ((vc.flips.length : Int) * (env.LongSessionTesters : Int)) =
        ((vc.flips.length * env.LongSessionTesters : Nat) : Int) := by
      rw [wrapInt64_of_lt]
      · push_cast; rfl
      · positivity
      · exact_mod_cast hfits
    have hdiv : Int.tdiv ((vc.flips.length * env.LongSessionTesters : Nat) : Int)
        (vc.candidates.length : Int) =
        ((vc.flips.length * env.LongSessionTesters / vc.candidates.length : Nat) : Int) :=
      (Int.ofNat_tdiv _ _).symm
    have hle : vc.flips.length * env.LongSessionTesters / vc.candidates.length
        ≤ vc.flips.length * env.LongSessionTesters := Nat.div_le_self _ _
    unfold LongSessionFlipsCount
    rw [if_neg (by omega)]
    simp only [hwrap, hdiv]
    have hu : wrapUInt64
        ((vc.flips.length * env.LongSessionTesters / vc.candidates.length : Nat) : Int) =
        vc.flips.length * env.LongSessionTesters / vc.candidates.length := by
      unfold wrapUInt64
      generalize vc.flips.length * env.LongSessionTesters / vc.candidates.length = q at hle
      omega
    rw [hu]
    by_cases h0 : vc.flips.length * env.LongSessionTesters / vc.candidates.length = 0
    · rw [if_pos h0, h0]
      rfl
    · rw [if_neg h0]
      omega
  · intro hnil
    unfold LongSessionFlipsCount
    rw [hnil]
    rfl

theorem LongSessionFlipsCount_spec_witness :
    LongSessionFlipsCount testLotteryEnv testEpochCeremony = max 1 (2 * 10 / 2)
      ∧ LongSessionFlipsCount testLotteryEnv {} = 1 :=
  ⟨(LongSessionFlipsCount_spec testLotteryEnv testEpochCeremony (by decide)).1 (by decide),
    (LongSessionFlipsCount_spec testLotteryEnv {} (by decide)).2 rfl⟩

/-- C22 (as stated, refuted): with five short session flips and two extra
flips, each candidate is assigned seven short session flips and the node has
seven short flips to solve, not `ShortSessionFlipsCount = 5`. -/
theorem calculateCeremonyCandidates_short_size_counterexample :
    (calculateCeremonyCandidates testLotteryEnv testEpochCeremony [1, 2, 3]).map
        (fun vc => vc.shortFlipsPerCandidate.map List.length) = some [7, 7]
      ∧ (calculateCeremonyCandidates testLotteryEnv testEpochCeremony [1, 2, 3]).map
        (fun vc => vc.shortFlipsToSolve.length) = some 7
      ∧ ShortSessionFlipsCount testLotteryEnv = 5 := by
  refine ⟨?_, ?_, ?_⟩ <;> decide

/-- C22 (amended): the session size requested from the lottery assigner for
the short session is `ShortSessionFlipsCount + ShortSessionExtraFlipsCount`.
With an assigner that returns one vector of the requested length and of
non-negative indices per candidate, and a non-empty flip list,
`calculateCeremonyCandidates` returns, every `shortFlipsPerCandidate[c]` has
that length, and so has `shortFlipsToSolve` when the node is a candidate. -/
theorem calculateCeremonyCandidates_short_size (env : LotteryCollaborators)
    (vc : ValidationCeremony) (seed : Bytes)
    (hfits : ShortSessionFlipsCount env + env.ShortSessionExtraFlipsCount < 2 ^ 63)
    (hsort : ∀ flipsPerAuthor candidates flips k seed' isLong chosen,
      (env.SortFlips flipsPerAuthor candidates flips k seed' isLong chosen).length
          = candidates.length
        ∧ ∀ l ∈ env.SortFlips flipsPerAuthor candidates flips k seed' isLong chosen,
            l.length = k.toNat ∧ ∀ idx ∈ l, 0 ≤ idx)
    (hflips : vc.flips ≠ []) :
    ∃ vc', calculateCeremonyCandidates env vc seed = some vc'
      ∧ vc'.shortFlipsPerCandidate.length = vc.candidates.length
      ∧ (∀ l ∈ vc'.shortFlipsPerCandidate,
          l.length = ShortSessionFlipsCount env + env.ShortSessionExtraFlipsCount)
      ∧ ((∃ c ∈ vc.candidates, c.Address = env.selfAddress) →
          vc'.shortFlipsToSolve.length =
            ShortSessionFlipsCount env + env.ShortSessionExtraFlipsCount) := by
  have hk : wrapInt64 (((ShortSessionFlipsCount env + env.ShortSessionExtraFlipsCount)
      % 2 ^ 64 : Nat) : Int) =
      ((ShortSessionFlipsCount env + env.ShortSessionExtraFlipsCount : Nat) : Int) := by
    rw [Nat.mod_eq_of_lt (by omega), wrapInt64_of_lt _ (by positivity) (by exact_mod_cast hfits)]
  unfold calculateCeremonyCandidates
  simp only [hk]
  generalize hshort : env.SortFlips vc.flipsPerAuthor vc.candidates vc.flips
    ((ShortSessionFlipsCount env + env.ShortSessionExtraFlipsCount : Nat) : Int) seed false {}
    = shortFlipsPerCandidate
  have hs := hsort vc.flipsPerAuthor vc.candidates vc.flips
    ((ShortSessionFlipsCount env + env.ShortSessionExtraFlipsCount : Nat) : Int) seed false {}
  rw [hshort] at hs
  generalize hlong : env.SortFlips vc.flipsPerAuthor vc.candidates vc.flips
    (wrapInt64 ((LongSessionFlipsCount env vc : Nat) : Int)) (env.ReverseBytes seed) true
    (chosenFlipsOf shortFlipsPerCandidate {}) = longFlipsPerCandidate
  have hl := hsort vc.flipsPerAuthor vc.candidates vc.flips
    (wrapInt64 ((LongSessionFlipsCount env vc : Nat) : Int)) (env.ReverseBytes seed) true
    (chosenFlipsOf shortFlipsPerCandidate {})
  rw [hlong] at hl
  obtain ⟨rs, hrs, hrslen⟩ := getFlipsToSolveFrom_total env.selfAddress shortFlipsPerCandidate
    vc.flips hflips (fun l hl' => (hs.2 l hl').2) vc.candidates 0 (by omega)
  obtain ⟨rl, hrl, _⟩ := getFlipsToSolveFrom_total env.selfAddress longFlipsPerCandidate
    vc.flips hflips (fun l hl' => (hl.2 l hl').2) vc.candidates 0 (by omega)
  unfold getFlipsToSolve
  rw [hrs, hrl]
  refine ⟨_, rfl, hs.1, ?_, ?_⟩
  · intro l hmem
    have := (hs.2 l hmem).1
    simpa using this
  · intro hself
    obtain ⟨l, hmem, hlen⟩ := hrslen hself
    show rs.length = _
    rw [hlen]
    have := (hs.2 l hmem).1
    simpa using this

theorem calculateCeremonyCandidates_short_size_witness :
    ∃ vc', calculateCeremonyCandidates testLotteryEnv testEpochCeremony [1, 2, 3] = some vc'
      ∧ vc'.shortFlipsPerCandidate.length = testEpochCeremony.candidates.length
      ∧ (∀ l ∈ vc'.shortFlipsPerCandidate,
          l.length = ShortSessionFlipsCount testLotteryEnv
            + testLotteryEnv.ShortSessionExtraFlipsCount)
      ∧ ((∃ c ∈ testEpochCeremony.candidates, c.Address = testLotteryEnv.selfAddress) →
          vc'.shortFlipsToSolve.length =
            ShortSessionFlipsCount testLotteryEnv
              + testLotteryEnv.ShortSessionExtraFlipsCount) :=
  calculateCeremonyCandidates_short_size testLotteryEnv testEpochCeremony [1, 2, 3]
    (by decide)
    (by
      intro flipsPerAuthor candidates flips k seed' isLong chosen
      refine ⟨by simp [testLotteryEnv, testSortFlips], ?_⟩
      intro l hl
      simp only [testLotteryEnv, testSortFlips, List.mem_map] at hl
      obtain ⟨_, _, rfl⟩ := hl
      refine ⟨by simp, ?_⟩
      intro idx hidx
      rw [List.mem_replicate] at hidx
      omega)
    (by decide)

/-! ## Further properties of the authors -/

/-- C27: for a qualification vector whose statuses are among `NotQualified`,
`Qualified`, `WeaklyQualified` and `QualifiedByNone` (and in which every
qualification has its flip), `analizeAuthors` returns a partition of the flip
authors: an address that authored at least one flip is in exactly one of
`badAuthors` and `goodAuthors`, and an address that authored no flip is in
neither. -/
theorem analizeAuthors_partition (rlpHash : Bytes → Hash) (vc : ValidationCeremony)
    (qualifications : List FlipQualification)
    (hlen : qualifications.length ≤ vc.flips.length)
    (hstatus : ∀ q ∈ qualifications, q.status = NotQualified ∨ q.status = Qualified
      ∨ q.status = WeaklyQualified ∨ q.status = QualifiedByNone) :
    ∃ badAuthors goodAuthors,
      analizeAuthors rlpHash vc qualifications = some (badAuthors, goodAuthors) ∧
      ∀ a : Address,
        (flipsAuthoredBy rlpHash vc qualifications a ≠ [] →
          (badAuthors.contains a = true ∧ goodAuthors.contains a = false)
            ∨ (badAuthors.contains a = false ∧ goodAuthors.contains a = true))
        ∧ (flipsAuthoredBy rlpHash vc qualifications a = [] →
          badAuthors.contains a = false ∧ goodAuthors.contains a = false) := by
  obtain ⟨bad, good, hres, hbad⟩ := analizeAuthors_bad_iff rlpHash vc qualifications hlen
  obtain ⟨bad', good', hres', hgood⟩ := analizeAuthors_good_iff rlpHash vc qualifications hlen
  rw [hres, Option.some.injEq, Prod.mk.injEq] at hres'
  obtain ⟨hb, hg⟩ := hres'
  subst hb
  subst hg
  refine ⟨bad, good, hres, ?_⟩
  intro a
  have hgood_a := (hgood a).1
  have hbad_a := hbad a
  have hnot : ∀ b : Bool, ¬ b = true → b = false := by
    intro b hb
    cases b
    · rfl
    · exact absurd rfl hb
  constructor
  · intro hne
    by_cases hbc : bad.contains a = true
    · left
      refine ⟨hbc, hnot _ ?_⟩
      intro hgc
      have := (hgood_a.mp hgc).1
      rw [hbc] at this
      exact absurd this (by simp)
    · right
      have hbf : bad.contains a = false := hnot _ hbc
      refine ⟨hbf, hgood_a.mpr ⟨hbf, ?_⟩⟩
      have hnb := (not_congr hbad_a).mp hbc
      rw [not_or] at hnb
      obtain ⟨hflag, hall⟩ := hnb
      have hex : ∃ q ∈ flipsAuthoredBy rlpHash vc qualifications a,
          ¬ q.status = NotQualified := by
        by_contra hcon
        apply hall
        refine ⟨hne, ?_⟩
        intro q hq
        by_contra hqs
        exact hcon ⟨q, hq, hqs⟩
      obtain ⟨q, hq, hqs⟩ := hex
      refine ⟨q, hq, ?_⟩
      rcases hstatus q (mem_flipsAuthoredBy rlpHash vc qualifications a q hq)
        with h | h | h | h
      · exact absurd h hqs
      · exact Or.inl h
      · exact Or.inr h
      · exact absurd ⟨q, hq, Or.inr (Or.inl h)⟩ hflag
  · intro hnil
    constructor
    · apply hnot
      intro hbc
      rcases hbad_a.mp hbc with ⟨q, hq, _⟩ | ⟨hne, _⟩
      · rw [hnil] at hq
        exact absurd hq (by simp)
      · exact hne hnil
    · apply hnot
      intro hgc
      obtain ⟨_, q, hq, _⟩ := hgood_a.mp hgc
      rw [hnil] at hq
      exact absurd hq (by simp)

theorem analizeAuthors_partition_witness :
    ∃ badAuthors goodAuthors,
      analizeAuthors testHash testCeremony testQualification = some (badAuthors, goodAuthors) ∧
      ∀ a : Address,
        (flipsAuthoredBy testHash testCeremony testQualification a ≠ [] →
          (badAuthors.contains a = true ∧ goodAuthors.contains a = false)
            ∨ (badAuthors.contains a = false ∧ goodAuthors.contains a = true))
        ∧ (flipsAuthoredBy testHash testCeremony testQualification a = [] →
          badAuthors.contains a = false ∧ goodAuthors.contains a = false) :=
  analizeAuthors_partition testHash testCeremony testQualification (by decide) (by decide)

/-- C28 (as stated, refuted): when the god address is a bad author and is the
inviter of a Candidate that becomes Newbie, `incSuccessfulInvites` adds it to
`GoodAuthors`: the sets are disjoint before the call and not after it. -/
theorem incSuccessfulInvites_disjoint_counterexample :
    (∀ a : Address, ¬ ((⟨⟨[(1, ())]⟩, {}⟩ : ValidationAuthors).BadAuthors.contains a = true
        ∧ (⟨⟨[(1, ())]⟩, {}⟩ : ValidationAuthors).GoodAuthors.contains a = true))
      ∧ (incSuccessfulInvites ⟨⟨[(1, ())]⟩, {}⟩ 1 (testInvitee .Candidate 1)
          .Newbie).BadAuthors.contains 1 = true
      ∧ (incSuccessfulInvites ⟨⟨[(1, ())]⟩, {}⟩ 1 (testInvitee .Candidate 1)
          .Newbie).GoodAuthors.contains 1 = true := by
  refine ⟨?_, by decide, by decide⟩
  intro a h
  have h2 := h.2
  simp [GoMap.contains, GoMap.get?] at h2

/-- C28 (amended): if `BadAuthors` and `GoodAuthors` are disjoint before the
call, they are disjoint after it, for every invitee and new state, whenever the
god address is not a bad author; the only address the call can add to
`GoodAuthors` is the god address. -/
theorem incSuccessfulInvites_disjoint (validationAuthors : ValidationAuthors) (god : Address)
    (invitee : Identity) (newState : IdentityState)
    (hdisjoint : ∀ a : Address, ¬ (validationAuthors.BadAuthors.contains a = true
      ∧ validationAuthors.GoodAuthors.contains a = true))
    (hgod : validationAuthors.BadAuthors.contains god = false) :
    (∀ a : Address,
        ¬ ((incSuccessfulInvites validationAuthors god invitee newState).BadAuthors.contains a
            = true
          ∧ (incSuccessfulInvites validationAuthors god invitee newState).GoodAuthors.contains
            a = true))
      ∧ ∀ a : Address,
          (incSuccessfulInvites validationAuthors god invitee newState).GoodAuthors.contains a
              = true →
            validationAuthors.GoodAuthors.contains a = true ∨ a = god := by
  have hkeys : ∀ a : Address,
      (incSuccessfulInvites validationAuthors god invitee newState).GoodAuthors.contains a
          = true →
        validationAuthors.GoodAuthors.contains a = true ∨ a = god := by
    intro a ha
    unfold incSuccessfulInvites at ha
    simp only at ha
    split at ha
    · split at ha
      · exact Or.inl ha
      · rename_i inviter _
        split at ha
        · rename_i vr hget
          rw [GoMap.contains_set, Bool.or_eq_true, decide_eq_true_eq] at ha
          rcases ha with h | h
          · left
            rw [← h]
            simp [GoMap.contains, hget]
          · exact Or.inl h
        · split at ha
          · rw [GoMap.contains_set, Bool.or_eq_true, decide_eq_true_eq] at ha
            rcases ha with h | h
            · exact Or.inr h.symm
            · exact Or.inl h
          · exact Or.inl ha
    · exact Or.inl ha
  have hbadsame : (incSuccessfulInvites validationAuthors god invitee newState).BadAuthors =
      validationAuthors.BadAuthors := by
    unfold incSuccessfulInvites
    simp only
    split
    · split
      · rfl
      · split
        · rfl
        · split <;> rfl
    · rfl
  refine ⟨?_, hkeys⟩
  intro a ⟨hb, hg⟩
  rw [hbadsame] at hb
  rcases hkeys a hg with h | h
  · exact hdisjoint a ⟨hb, h⟩
  · rw [h, hgod] at hb
    exact absurd hb (by simp)

theorem incSuccessfulInvites_disjoint_witness :
    (∀ a : Address,
        ¬ ((incSuccessfulInvites testAuthors 1 (testInvitee .Candidate 1) .Newbie).BadAuthors.contains
            a = true
          ∧ (incSuccessfulInvites testAuthors 1 (testInvitee .Candidate 1)
            .Newbie).GoodAuthors.contains a = true))
      ∧ ∀ a : Address,
          (incSuccessfulInvites testAuthors 1 (testInvitee .Candidate 1)
              .Newbie).GoodAuthors.contains a = true →
            testAuthors.GoodAuthors.contains a = true ∨ a = 1 :=
  incSuccessfulInvites_disjoint testAuthors 1 (testInvitee .Candidate 1) .Newbie
    (by
      intro a h
      have h1 := h.1
      have h2 := h.2
      simp only [testAuthors, GoMap.contains, GoMap.get?, List.find?_cons, List.find?_nil]
        at h1 h2
      by_cases h3 : (3 : Nat) = a
      · subst h3
        simp at h2
      · simp [h3] at h1)
    (by decide)

/-! ## Properties of the ceremony transactions -/

/-- C23: once `sendTx` has signed and stored an own transaction `tx` of a kind
and the mempool has admitted it, every later `sendTx` call of that kind
submits that same transaction again and returns its hash, whatever the new
payload; it signs no new transaction, and the stored transactions and the
rest of the state stay as they are, also when the mempool rejects the
resubmission. -/
theorem sendTx_resubmits {Tx : Type} (env : TxCollaborators Tx) (s₀ : EngineState Tx)
    (txType : Nat) (payload₀ : Bytes) (tx : Tx)
    (hfresh : s₀.epochDb.ReadOwnTx txType = none)
    (hsign : env.SignTx (env.BuildTx txType payload₀) = some tx)
    (haccepted : env.mempoolRejects s₀.submitted tx = false)
    (hround : env.DecodeBytes (env.EncodeToBytes tx) = some tx)
    (payloads : List Bytes) :
    (sendTx env s₀ txType payload₀).2 = (env.Hash tx, false)
      ∧ (sendTx env s₀ txType payload₀).1.epochDb.ReadOwnTx txType
          = some (env.EncodeToBytes tx)
      ∧ (∀ r ∈ (sendTxAll env txType payloads (sendTx env s₀ txType payload₀).1).2,
          r.1 = env.Hash tx)
      ∧ (sendTxAll env txType payloads (sendTx env s₀ txType payload₀).1).1 =
          { (sendTx env s₀ txType payload₀).1 with
            submitted := (sendTx env s₀ txType payload₀).1.submitted
              ++ List.replicate payloads.length tx } := by
  have hfirst : sendTx env s₀ txType payload₀ =
      ({ s₀ with
          signed := s₀.signed ++ [env.BuildTx txType payload₀],
          submitted := s₀.submitted ++ [tx],
          epochDb := (s₀.epochDb.WriteOwnTx txType (env.EncodeToBytes tx)).WriteSuccessfulOwnTx
            (env.Hash tx) },
        env.Hash tx, false) := by
    unfold sendTx
    rw [hfresh]
    simp only [hsign]
    unfold sendTxSubmit
    simp only [haccepted, Bool.false_eq_true, if_false]
  have hstored : (sendTx env s₀ txType payload₀).1.epochDb.ReadOwnTx txType
      = some (env.EncodeToBytes tx) := by
    rw [hfirst]
    simp [EpochDb.ReadOwnTx, EpochDb.WriteOwnTx, EpochDb.WriteSuccessfulOwnTx,
      GoMap.get?_set]
  have hsuccess : (sendTx env s₀ txType payload₀).1.epochDb.HasSuccessfulOwnTx (env.Hash tx)
      = true := by
    rw [hfirst]
    simp only [EpochDb.HasSuccessfulOwnTx, EpochDb.WriteSuccessfulOwnTx]
    exact GoSet.Contains_Add _ _
  obtain ⟨hres, hstate⟩ := sendTxAll_of_stored env txType tx hround payloads
    (sendTx env s₀ txType payload₀).1 hstored hsuccess
  exact ⟨by rw [hfirst], hstored, hres, hstate⟩

theorem sendTx_resubmits_witness :
    (sendTx testTxEnv {} 3 [1, 2]).2 = (testTxEnv.Hash [3, 1, 2, 255], false)
      ∧ (sendTx testTxEnv {} 3 [1, 2]).1.epochDb.ReadOwnTx 3
          = some (testTxEnv.EncodeToBytes [3, 1, 2, 255])
      ∧ (∀ r ∈ (sendTxAll testTxEnv 3 [[4], [5, 6]] (sendTx testTxEnv {} 3 [1, 2]).1).2,
          r.1 = testTxEnv.Hash [3, 1, 2, 255])
      ∧ (sendTxAll testTxEnv 3 [[4], [5, 6]] (sendTx testTxEnv {} 3 [1, 2]).1).1 =
          { (sendTx testTxEnv {} 3 [1, 2]).1 with
            submitted := (sendTx testTxEnv {} 3 [1, 2]).1.submitted
              ++ List.replicate [[4], [5, 6]].length [3, 1, 2, 255] } :=
  sendTx_resubmits testTxEnv {} 3 [1, 2] [3, 1, 2, 255] rfl rfl rfl rfl [[4], [5, 6]]

/-- C24 (as stated, refuted): two calls of `broadcastFlipKey` leave one entry
in the flip key pool but no own transaction record at all. -/
theorem broadcastFlipKey_twice_counterexample :
    (broadcastFlipKey testTxEnv testFlipState
        (broadcastFlipKey testTxEnv testFlipState {})).keysPool.length = 1
      ∧ (broadcastFlipKey testTxEnv testFlipState
        (broadcastFlipKey testTxEnv testFlipState {})).epochDb.ownTxs.entries.length = 0
      ∧ (broadcastFlipKey testTxEnv testFlipState
        (broadcastFlipKey testTxEnv testFlipState {})).epochDb.ownTxs.entries.length ≠ 1 := by
  refine ⟨?_, ?_, ?_⟩ <;> decide

/-- C24 (amended): for an engine state in which the key is not sent yet, the
node interacts with the network, its identity has at least one flip and
signing succeeds, the first call of `broadcastFlipKey` adds exactly one entry
to the flip key pool and sets `keySent`, and the second call changes nothing;
no own transaction record is written: the per-epoch store stays as it was. -/
theorem broadcastFlipKey_twice {Tx : Type} (env : TxCollaborators Tx) (appState : StateDB)
    (s : EngineState Tx) (signedMsg : FlipKey)
    (hnotSent : s.keySent = false)
    (hinteract : env.shouldInteractWithNetwork = true)
    (hflips : (appState.GetIdentity env.selfAddress).Flips.length > 0)
    (hsign : env.SignFlipKey { Key := env.flipKey, Epoch := env.epoch } = some signedMsg) :
    broadcastFlipKey env appState s =
        { s with keysPool := s.keysPool ++ [signedMsg], keySent := true }
      ∧ broadcastFlipKey env appState (broadcastFlipKey env appState s) =
        broadcastFlipKey env appState s
      ∧ (broadcastFlipKey env appState (broadcastFlipKey env appState s)).keysPool.length =
        s.keysPool.length + 1
      ∧ (broadcastFlipKey env appState (broadcastFlipKey env appState s)).epochDb = s.epochDb := by
  have hfirst : broadcastFlipKey env appState s =
      { s with keysPool := s.keysPool ++ [signedMsg], keySent := true } := by
    unfold broadcastFlipKey shouldBroadcastFlipKey
    simp only [hnotSent, hinteract, hflips, hsign, decide_True, Bool.not_true, Bool.or_self,
      Bool.false_eq_true, if_false]
  have hsecond : broadcastFlipKey env appState (broadcastFlipKey env appState s) =
      broadcastFlipKey env appState s := by
    rw [hfirst]
    unfold broadcastFlipKey
    simp only [Bool.true_or, if_true]
  refine ⟨hfirst, hsecond, ?_, ?_⟩
  · rw [hsecond, hfirst]
    simp
  · rw [hsecond, hfirst]

theorem broadcastFlipKey_twice_witness :
    broadcastFlipKey testTxEnv testFlipState {} =
        { ({} : EngineState Bytes) with
          keysPool := ({} : EngineState Bytes).keysPool
            ++ [{ Key := [7], Epoch := 5, Signature := [9] }],
          keySent := true }
      ∧ broadcastFlipKey testTxEnv testFlipState (broadcastFlipKey testTxEnv testFlipState {}) =
        broadcastFlipKey testTxEnv testFlipState {}
      ∧ (broadcastFlipKey testTxEnv testFlipState
          (broadcastFlipKey testTxEnv testFlipState {})).keysPool.length =
        ({} : EngineState Bytes).keysPool.length + 1
      ∧ (broadcastFlipKey testTxEnv testFlipState
          (broadcastFlipKey testTxEnv testFlipState {})).epochDb =
        ({} : EngineState Bytes).epochDb :=
  broadcastFlipKey_twice testTxEnv testFlipState {} { Key := [7], Epoch := 5, Signature := [9] }
    rfl rfl (by decide) rfl

/-! ## Properties of the iterators of `BackedMemDb` -/

/-- C30: take the database reached from `NewBackedMemDb(permanent)` by calls of
`Set` and `Delete`, where the permanent store holds its entries in ascending
key order.  `Iterator(start, end)` returns an iterator, and the loop
`for ; it.Valid(); it.Next()` over it, given enough fuel, ends and yields the
keys `keys` in strictly ascending order, each one once and each with the value
`Get(key)`.  `ReverseIterator(start, end)` yields in the same way the keys
`rkeys` in strictly descending order.  Both lists hold exactly the keys of the
domain that the inner store holds, or that the permanent store holds and that
are not in the set `touched`; every yielded key is one that the database has. -/
theorem BackedMemDb_Iterator_spec {K V : Type} [LinearOrder K] (permanent : DB K V)
    (ops : List (DbOp K V)) (start end_ : Option K) (fuel : Nat)
    (hsorted : permanent.entries.Pairwise (fun a b => a.1 < b.1))
    (hfuel : (reached permanent ops).inner.entries.length + permanent.entries.length < fuel) :
    ∃ (it rit : iterator K V) (keys rkeys : List K),
      (reached permanent ops).Iterator start end_ = some it
      ∧ it.collect fuel
          = some (keys.map (fun k => (some k, (reached permanent ops).Get k)))
      ∧ keys.Pairwise (fun a b => a < b) ∧ keys.Nodup
      ∧ (reached permanent ops).ReverseIterator start end_ = some rit
      ∧ rit.collect fuel
          = some (rkeys.map (fun k => (some k, (reached permanent ops).Get k)))
      ∧ rkeys.Pairwise (fun a b => a > b) ∧ rkeys.Nodup
      ∧ ∀ k,
          (k ∈ keys ↔ DB.inDomain start end_ k = true ∧
            ((reached permanent ops).inner.Has k = true ∨
              (permanent.Has k = true ∧ k ∉ (reached permanent ops).touched.elems)))
          ∧ (k ∈ rkeys ↔ k ∈ keys)
          ∧ (k ∈ keys → (reached permanent ops).Has k = true) := by
  obtain ⟨hp, hi, ht⟩ := reached_inv permanent ops
  have hlen : ∀ (l : List (K × V)) (p : K × V → Bool), (l.filter p).length ≤ l.length :=
    fun l p => List.length_filter_le p l
  obtain ⟨it, keys, h1, h2, h3, h4⟩ := newIterator_merge (reached permanent ops)
    (DB.inDomain start end_) false fuel (fun a b => a < b)
    (fun a b c => lt_trans)
    (fun a b h hne => lt_of_le_of_ne (by simpa using h) hne)
    (fun a b h => by simpa using h)
    ((reached permanent ops).inner.Iterator start end_)
    ((reached permanent ops).permanent.Iterator start end_)
    (DB.Iterator_sorted _ hi start end_)
    (DB.Iterator_sorted _ (by rw [hp]; exact hsorted) start end_)
    (DB.mem_Iterator_keys _ start end_)
    (DB.mem_Iterator_keys _ start end_)
    (fun e he => (List.mem_filter.1 he).1)
    (by rw [hp]; exact hsorted) ht
    (by
      rw [hp]
      have := hlen (reached permanent ops).inner.entries (fun e => DB.inDomain start end_ e.1)
      have := hlen permanent.entries (fun e => DB.inDomain start end_ e.1)
      unfold DB.Iterator
      omega)
  obtain ⟨rit, rkeys, r1, r2, r3, r4⟩ := newIterator_merge (reached permanent ops)
    (DB.inDomain start end_) true fuel (fun a b => a > b)
    (fun a b c hab hbc => lt_trans hbc hab)
    (fun a b h hne => lt_of_le_of_ne (by simpa using h) (fun h => hne h.symm))
    (fun a b h => by simpa using h)
    ((reached permanent ops).inner.ReverseIterator start end_)
    ((reached permanent ops).permanent.ReverseIterator start end_)
    (DB.ReverseIterator_sorted _ hi start end_)
    (DB.ReverseIterator_sorted _ (by rw [hp]; exact hsorted) start end_)
    (DB.mem_ReverseIterator_keys _ start end_)
    (DB.mem_ReverseIterator_keys _ start end_)
    (fun e he => (List.mem_filter.1 (List.mem_reverse.1 he)).1)
    (by rw [hp]; exact hsorted) ht
    (by
      rw [hp]
      have := hlen (reached permanent ops).inner.entries (fun e => DB.inDomain start end_ e.1)
      have := hlen permanent.entries (fun e => DB.inDomain start end_ e.1)
      unfold DB.ReverseIterator DB.Iterator
      rw [List.length_reverse, List.length_reverse]
      omega)
  rw [hp] at h4 r4
  have hc : ∀ k, (reached permanent ops).touched.Contains k = false ↔
      k ∉ (reached permanent ops).touched.elems := by
    intro k
    unfold GoSet.Contains
    rw [decide_eq_false_iff_not]
  simp only [hc] at h4 r4
  refine ⟨it, rit, keys, rkeys, h1, h2, h3, h3.imp (fun h => ne_of_lt h), r1, r2, r3,
    r3.imp (fun h => ne_of_gt h), fun k => ⟨h4 k, by rw [h4, r4], fun hk => ?_⟩⟩
  unfold BackedMemDb.Has
  rcases ((h4 k).1 hk).2 with h | ⟨h, hu⟩
  · rw [if_pos (ht k h)]; exact h
  · rw [(hc k).2 hu, hp]; exact h

theorem BackedMemDb_Iterator_spec_witness :
    ∃ (it rit : iterator Bytes Bytes) (keys rkeys : List Bytes),
      (reached testPermanent testOps).Iterator (some [1]) (some [5]) = some it
      ∧ it.collect 10
          = some (keys.map (fun k => (some k, (reached testPermanent testOps).Get k)))
      ∧ keys.Pairwise (fun a b => a < b) ∧ keys.Nodup
      ∧ (reached testPermanent testOps).ReverseIterator (some [1]) (some [5]) = some rit
      ∧ rit.collect 10
          = some (rkeys.map (fun k => (some k, (reached testPermanent testOps).Get k)))
      ∧ rkeys.Pairwise (fun a b => a > b) ∧ rkeys.Nodup
      ∧ ∀ k,
          (k ∈ keys ↔ DB.inDomain (some [1]) (some [5]) k = true ∧
            ((reached testPermanent testOps).inner.Has k = true ∨
              (testPermanent.Has k = true ∧
                k ∉ (reached testPermanent testOps).touched.elems)))
          ∧ (k ∈ rkeys ↔ k ∈ keys)
          ∧ (k ∈ keys → (reached testPermanent testOps).Has k = true) :=
  BackedMemDb_Iterator_spec testPermanent testOps (some [1]) (some [5]) 10
    (by decide) (by decide)

end Idena
